import Mathlib

/-! # Cohen–Sutherland clipping window (`lab1_v10.cpp`)

A shallow embedding of the two classes of `lab1_v10.cpp`:

* `ClippingWindow` — an `sf::RectangleShape` together with the drag state and
  the accumulated scale factor;
* `Line::cohenSutherlandClip` — the `while (true)` loop, presented as a step
  function on the six loop variables and iterated with an explicit bound on
  the number of refine steps.

`float` is read as exact rational arithmetic (`ℚ`); the literals `1.1f` and
`0.9f` are `11/10` and `9/10`.  A division whose denominator is zero has no
exact value and is reported as its own outcome.  The scale factor is the one
quantity of the program that grows without bound (every zoom-in multiplies it),
so the members the zoom keys write are modelled a second time over IEEE 754
binary32 values with round to nearest, infinities and NaN (`F32`, `ZoomF32`).

The loop classifies points against the rectangle given by the shape's position
and size (`getPointCode`), but intersects with the edges of `getBounds()`,
which is `rectangle.getGlobalBounds()`.  The constructor gives the shape an
outline of thickness 2, and SFML's global bounds include the outline, so the two
rectangles differ by 2 on every side.  The outline thickness is therefore part
of the state, and the results below say what holds for every thickness, what
fails for the thickness the constructor sets, and what would hold without it.
-/

namespace Lab1

/-! ## Outcode constants (lines 7–11) -/

/-- Outcode `0000`. -/
def INSIDE : Nat := 0
/-- Outcode `0001`. -/
def LEFT : Nat := 1
/-- Outcode `0010`. -/
def RIGHT : Nat := 2
/-- Outcode `0100`. -/
def BOTTOM : Nat := 4
/-- Outcode `1000`. -/
def TOP : Nat := 8

/-! ## The parts of SFML the program uses -/

/-- The type `sf::Vector2f`. -/
structure Vector2f where
  x : ℚ
  y : ℚ
  deriving DecidableEq

/-- Component-wise difference, `operator-` on `sf::Vector2f`. -/
def Vector2f.sub (a b : Vector2f) : Vector2f := ⟨a.x - b.x, a.y - b.y⟩

/-- The type `sf::FloatRect`. -/
structure FloatRect where
  left : ℚ
  top : ℚ
  width : ℚ
  height : ℚ
  deriving DecidableEq

/-- The method `sf::Rect::contains` of SFML 2: the rectangle is normalised with
`min`/`max`, the lower bounds are inclusive and the upper bounds exclusive. -/
def FloatRect.contains (r : FloatRect) (p : Vector2f) : Bool :=
  let minX := min r.left (r.left + r.width)
  let maxX := max r.left (r.left + r.width)
  let minY := min r.top (r.top + r.height)
  let maxY := max r.top (r.top + r.height)
  decide (p.x ≥ minX) && decide (p.x < maxX) && decide (p.y ≥ minY) && decide (p.y < maxY)

/-- The state of an `sf::RectangleShape` that the program reads or writes:
position, size and outline thickness (fill and outline colours play no role
in the geometry). -/
structure RectangleShape where
  position : Vector2f
  size : Vector2f
  outlineThickness : ℚ
  deriving DecidableEq

/-- The method `sf::Shape::getGlobalBounds` for a rectangle shape that is only
translated (the program sets neither rotation, scale nor origin).  SFML keeps
as the shape's bounds the bounding box of its outline vertices
(`Shape::updateOutline`: `m_bounds = m_outlineVertices.getBounds()`), so a
positive outline thickness `t` grows the box by `t` on every side, while a
thickness that is zero or negative leaves the box of the rectangle itself.
The box of a vertex array has non-negative width and height, whence `min` and
the absolute value.  SFML derives the outline from the normals of the four
sides; the formula is the result for sides of non-zero length, which is what
the program has (size 400 × 300 times a positive scale), and it is kept for a
side of length zero. -/
def RectangleShape.getGlobalBounds (r : RectangleShape) : FloatRect :=
  let e := max r.outlineThickness 0
  { left := min r.position.x (r.position.x + r.size.x) - e
    top := min r.position.y (r.position.y + r.size.y) - e
    width := |r.size.x| + 2 * e
    height := |r.size.y| + 2 * e }

/-- Mouse buttons of `sf::Mouse::Button` (only `Left` is tested). -/
inductive MouseButton
  | Left
  | Right
  | Middle
  deriving DecidableEq

/-- Key codes of `sf::Keyboard::Key` that the program tests, and the rest. -/
inductive Key
  | Equal
  | Dash
  | Escape
  | Other
  deriving DecidableEq

/-- The event kinds of `sf::Event` that `handleEvent` distinguishes. -/
inductive Event
  | MouseButtonPressed (button : MouseButton)
  | MouseButtonReleased (button : MouseButton)
  | KeyPressed (code : Key)
  | Closed
  | Other
  deriving DecidableEq

/-! ## `ClippingWindow` (lines 16–117) -/

/-- The class `ClippingWindow`. -/
structure ClippingWindow where
  rectangle : RectangleShape
  isDragging : Bool
  dragOffset : Vector2f
  scale : ℚ
  originalSize : Vector2f
  deriving DecidableEq

/-- The constructor `ClippingWindow(x, y, width, height)`, lines 25–35.
`dragOffset` is default-constructed, which for `sf::Vector2f` is `(0, 0)`. -/
def ClippingWindow.new (x y width height : ℚ) : ClippingWindow :=
  { rectangle := { position := ⟨x, y⟩, size := ⟨width, height⟩, outlineThickness := 2 }
    isDragging := false
    dragOffset := ⟨0, 0⟩
    scale := 1
    originalSize := ⟨width, height⟩ }

/-- The method `ClippingWindow::getPointCode`, lines 39–57. -/
def ClippingWindow.getPointCode (w : ClippingWindow) (x y : ℚ) : Nat :=
  let code := INSIDE
  let pos := w.rectangle.position
  let size := w.rectangle.size
  let code :=
    if x < pos.x then code ||| LEFT
    else if x > pos.x + size.x then code ||| RIGHT
    else code
  let code :=
    if y < pos.y then code ||| TOP
    else if y > pos.y + size.y then code ||| BOTTOM
    else code
  code

/-- The method `ClippingWindow::handleEvent`, lines 60–97.  The pointer
location `window.mapPixelToCoords(sf::Mouse::getPosition(window))` is an input
from the environment and is passed as `worldPos`; console output is left out.
The factors `1.1f` and `0.9f` are the rationals `11/10` and `9/10`; rounding
and overflow of `scale` and of the size are outside this reading and are the
subject of `ZoomF32.handleEvent`. -/
def ClippingWindow.handleEvent (w : ClippingWindow) (event : Event) (worldPos : Vector2f) :
    ClippingWindow :=
  match event with
  | .MouseButtonPressed button =>
    if button = MouseButton.Left then
      if w.rectangle.getGlobalBounds.contains worldPos then
        { w with isDragging := true, dragOffset := worldPos.sub w.rectangle.position }
      else w
    else w
  | .MouseButtonReleased button =>
    if button = MouseButton.Left then { w with isDragging := false } else w
  | .KeyPressed code =>
    if code = Key.Equal then
      let scale := w.scale * (11 / 10)
      { w with
        scale := scale
        rectangle := { w.rectangle with
          size := ⟨w.originalSize.x * scale, w.originalSize.y * scale⟩ } }
    else if code = Key.Dash then
      let scale := w.scale * (9 / 10)
      { w with
        scale := scale
        rectangle := { w.rectangle with
          size := ⟨w.originalSize.x * scale, w.originalSize.y * scale⟩ } }
    else w
  | _ => w

/-- Modelled from the spec: the operation `rescale(factor)` of §4.1, which "sets
size = originalSize × (scale ×= factor)".  The source has no function of that
name; `handleEvent` carries its body twice, with the factors `1.1f` (lines
84–86) and `0.9f` (lines 91–93). -/
def ClippingWindow.rescale (w : ClippingWindow) (factor : ℚ) : ClippingWindow :=
  let scale := w.scale * factor
  { w with
    scale := scale
    rectangle := { w.rectangle with
      size := ⟨w.originalSize.x * scale, w.originalSize.y * scale⟩ } }

/-- The method `ClippingWindow::update`, lines 100–106, with the sampled
pointer location passed as `worldPos`. -/
def ClippingWindow.update (w : ClippingWindow) (worldPos : Vector2f) : ClippingWindow :=
  if w.isDragging then
    { w with rectangle := { w.rectangle with position := worldPos.sub w.dragOffset } }
  else w

/-- The method `ClippingWindow::getBounds`, lines 114–116. -/
def ClippingWindow.getBounds (w : ClippingWindow) : FloatRect :=
  w.rectangle.getGlobalBounds

/-- The clipping window that `main` creates on line 266. -/
def clipWindow : ClippingWindow := ClippingWindow.new 200 150 400 300

/-- One call that the loop of `main` makes on the clipping window: `handleEvent`
for a polled event (line 306) or `update` once per frame (line 310), each with
the pointer location sampled at that moment. -/
inductive Call
  | handleEvent (event : Event) (worldPos : Vector2f)
  | update (worldPos : Vector2f)
  deriving DecidableEq

/-- The effect of one call on the clipping window. -/
def ClippingWindow.call (w : ClippingWindow) : Call → ClippingWindow
  | .handleEvent event worldPos => w.handleEvent event worldPos
  | .update worldPos => w.update worldPos

/-- The clipping window after a finite sequence of calls. -/
def ClippingWindow.run (w : ClippingWindow) (calls : List Call) : ClippingWindow :=
  calls.foldl ClippingWindow.call w

/-- The clipping window after a sequence of key presses, each delivered to
`handleEvent` with the pointer location of that moment. -/
def ClippingWindow.pressKeys (w : ClippingWindow) (keys : List (Key × Vector2f)) :
    ClippingWindow :=
  keys.foldl (fun w k => w.handleEvent (.KeyPressed k.1) k.2) w

/-! ## `Line::cohenSutherlandClip` (lines 140–213) -/

/-- The variables of the clipping loop: the four coordinates passed by
reference and the two outcodes. -/
structure ClipState where
  x1 : ℚ
  y1 : ℚ
  x2 : ℚ
  y2 : ℚ
  code1 : Nat
  code2 : Nat
  deriving DecidableEq

/-- The intersection computed on lines 166–195 for the outcode `codeOut`:
`none` when the formula divides by zero, otherwise the point `(x, y)`. When no
branch is taken the point keeps its initial value `(0, 0)`. -/
def intersection (bounds : FloatRect) (s : ClipState) (codeOut : Nat) : Option (ℚ × ℚ) :=
  if codeOut &&& TOP ≠ 0 then
    let newY := bounds.top
    if s.y2 - s.y1 = 0 then none
    else some (s.x1 + (s.x2 - s.x1) * (newY - s.y1) / (s.y2 - s.y1), newY)
  else if codeOut &&& BOTTOM ≠ 0 then
    let newY := bounds.top + bounds.height
    if s.y2 - s.y1 = 0 then none
    else some (s.x1 + (s.x2 - s.x1) * (newY - s.y1) / (s.y2 - s.y1), newY)
  else if codeOut &&& RIGHT ≠ 0 then
    let newX := bounds.left + bounds.width
    if s.x2 - s.x1 = 0 then none
    else some (newX, s.y1 + (s.y2 - s.y1) * (newX - s.x1) / (s.x2 - s.x1))
  else if codeOut &&& LEFT ≠ 0 then
    let newX := bounds.left
    if s.x2 - s.x1 = 0 then none
    else some (newX, s.y1 + (s.y2 - s.y1) * (newX - s.x1) / (s.x2 - s.x1))
  else some (0, 0)

/-- The bit of `codeOut` whose edge the chain of tests on lines 169–195
intersects with: the first of TOP, BOTTOM, RIGHT, LEFT that `codeOut` contains
(0 when it contains none). -/
def chosenBit (codeOut : Nat) : Nat :=
  if codeOut &&& TOP ≠ 0 then TOP
  else if codeOut &&& BOTTOM ≠ 0 then BOTTOM
  else if codeOut &&& RIGHT ≠ 0 then RIGHT
  else if codeOut &&& LEFT ≠ 0 then LEFT
  else 0

/-- What one pass through the body of `while (true)` does. -/
inductive StepResult
  | accept
  | reject
  | replaced (s : ClipState)
  | divByZero
  deriving DecidableEq

/-- One pass through the loop body, lines 150–209. -/
def clipStep (w : ClippingWindow) (s : ClipState) : StepResult :=
  if (s.code1 ||| s.code2) = 0 then .accept
  else if (s.code1 &&& s.code2) ≠ 0 then .reject
  else
    let codeOut := if s.code1 ≠ 0 then s.code1 else s.code2
    let bounds := w.getBounds
    match intersection bounds s codeOut with
    | none => .divByZero
    | some (x, y) =>
      if codeOut = s.code1 then
        .replaced { s with x1 := x, y1 := y, code1 := w.getPointCode x y }
      else
        .replaced { s with x2 := x, y2 := y, code2 := w.getPointCode x y }

/-- The outcome of a call of `cohenSutherlandClip`: it returns `accept` and
leaves the four coordinates as given, or it divides by zero, or it is still in
the loop after the allowed number of refine steps. -/
inductive ClipResult
  | done (accept : Bool) (x1 y1 x2 y2 : ℚ)
  | divByZero
  | outOfFuel
  deriving DecidableEq

/-- The loop `while (true)` of lines 149–210, allowed `fuel` refine steps. -/
def clipLoop (w : ClippingWindow) : Nat → ClipState → ClipResult
  | 0, s =>
    match clipStep w s with
    | .accept => .done true s.x1 s.y1 s.x2 s.y2
    | .reject => .done false s.x1 s.y1 s.x2 s.y2
    | .divByZero => .divByZero
    | .replaced _ => .outOfFuel
  | fuel + 1, s =>
    match clipStep w s with
    | .accept => .done true s.x1 s.y1 s.x2 s.y2
    | .reject => .done false s.x1 s.y1 s.x2 s.y2
    | .divByZero => .divByZero
    | .replaced s1 => clipLoop w fuel s1

/-- The loop variables on entry, lines 144–145. -/
def initState (w : ClippingWindow) (x1 y1 x2 y2 : ℚ) : ClipState :=
  { x1 := x1, y1 := y1, x2 := x2, y2 := y2
    code1 := w.getPointCode x1 y1, code2 := w.getPointCode x2 y2 }

/-- The method `Line::cohenSutherlandClip`, lines 140–213, allowed `fuel`
refine steps. -/
def cohenSutherlandClip (fuel : Nat) (w : ClippingWindow) (x1 y1 x2 y2 : ℚ) : ClipResult :=
  clipLoop w fuel (initState w x1 y1 x2 y2)

/-! ## `Line` and `Line::draw` (lines 122–133 and 217–241) -/

/-- The two colours that `draw` uses, `sf::Color::Red` and `sf::Color::Green`. -/
inductive Color
  | Red
  | Green
  deriving DecidableEq

/-- The type `sf::Vertex`, as far as `draw` fills it: a position and a colour. -/
structure Vertex where
  position : Vector2f
  color : Color
  deriving DecidableEq

/-- The class `Line`: the two stored endpoints. -/
structure Line where
  originalP1 : Vector2f
  originalP2 : Vector2f
  deriving DecidableEq

/-- The constructor `Line(x1, y1, x2, y2)`, lines 129–133. -/
def Line.new (x1 y1 x2 y2 : ℚ) : Line :=
  { originalP1 := ⟨x1, y1⟩, originalP2 := ⟨x2, y2⟩ }

/-- What a call of `Line::draw` leaves behind: the line and the clipping window
after the call, and the two vertices `line[0]`, `line[1]` handed to
`window.draw`. -/
structure Drawn where
  line : Line
  clipWindow : ClippingWindow
  vertex0 : Vertex
  vertex1 : Vertex
  deriving DecidableEq

/-- The method `Line::draw`, lines 217–241, with `cohenSutherlandClip` allowed
`fuel` refine steps; `none` when that call does not return (it is still in the
loop after `fuel` refine steps, or it divides by zero). -/
def Line.draw (fuel : Nat) (l : Line) (clipWindow : ClippingWindow) : Option Drawn :=
  let x1 := l.originalP1.x
  let y1 := l.originalP1.y
  let x2 := l.originalP2.x
  let y2 := l.originalP2.y
  match cohenSutherlandClip fuel clipWindow x1 y1 x2 y2 with
  | .done isVisible x1 y1 x2 y2 =>
    if isVisible then
      some { line := l, clipWindow := clipWindow
             vertex0 := ⟨⟨x1, y1⟩, Color.Red⟩, vertex1 := ⟨⟨x2, y2⟩, Color.Red⟩ }
    else
      some { line := l, clipWindow := clipWindow
             vertex0 := ⟨l.originalP1, Color.Green⟩, vertex1 := ⟨l.originalP2, Color.Green⟩ }
  | _ => none

/-! ## The zoom branches over binary32 values

The definitions above read `float` as `ℚ`, which has neither a largest value
nor a NaN.  What follows is the part of `ClippingWindow` that the zoom keys
change, once more, over IEEE 754 binary32 values with round to nearest, to say
what the `float` code does when a product leaves the range of binary32. -/

/-- A `float` (IEEE 754 binary32) value: a finite number, an infinity or NaN.
The sign of zero is not kept. -/
inductive F32
  | finite (q : ℚ)
  | posInf
  | negInf
  | nan
  deriving DecidableEq

/-- The largest finite binary32 number, `FLT_MAX = (2^24 - 1) * 2^104`. -/
def F32.FLT_MAX : ℚ := (2 ^ 24 - 1) * 2 ^ 104

/-- The value of the literal `1.1f`, the binary32 number nearest to 1.1. -/
def F32.onePointOne : ℚ := 9227469 / 8388608

/-- The value of the literal `0.9f`, the binary32 number nearest to 0.9. -/
def F32.zeroPointNine : ℚ := 7549747 / 8388608

/-- The integer nearest to `x`, the even one of the two when `x` lies half way
between them. -/
def F32.roundEven (x : ℚ) : ℤ :=
  let f := ⌊x⌋
  if x - f < 1 / 2 then f
  else if 1 / 2 < x - f then f + 1
  else if f % 2 = 0 then f
  else f + 1

/-- The exponent of the binary32 binade of `q`: the `e` with
`2^e ≤ |q| < 2^(e+1)`, and `-126` for every `q ≠ 0` below the normal range
(`Int.log 2 0` is 0, and 0 rounds to 0 with every exponent). -/
def F32.exponent (q : ℚ) : ℤ := max (Int.log 2 |q|) (-126)

/-- Round to nearest, ties to even, with the 24-bit significand of binary32
and no upper limit on the exponent: the nearest multiple of
`2^(exponent q - 23)`. -/
def F32.round (q : ℚ) : ℚ :=
  F32.roundEven (q / 2 ^ (F32.exponent q - 23)) * 2 ^ (F32.exponent q - 23)

/-- The binary32 value of an operation whose exact result is `q`: `q` rounded,
and an infinity when the rounded value is beyond `FLT_MAX`. -/
def F32.ofExact (q : ℚ) : F32 :=
  let r := F32.round q
  if F32.FLT_MAX < r then F32.posInf
  else if r < -F32.FLT_MAX then F32.negInf
  else F32.finite r

/-- The product of two `float` values (IEEE 754): NaN is absorbing, zero times
an infinity is NaN, an infinity times a non-zero value is an infinity with the
product of the signs, and two finite values give the rounded product. -/
def F32.mul : F32 → F32 → F32
  | .nan, _ => .nan
  | _, .nan => .nan
  | .finite a, .finite b => F32.ofExact (a * b)
  | .finite a, .posInf => if a = 0 then .nan else if 0 < a then .posInf else .negInf
  | .finite a, .negInf => if a = 0 then .nan else if 0 < a then .negInf else .posInf
  | .posInf, .finite b => if b = 0 then .nan else if 0 < b then .posInf else .negInf
  | .negInf, .finite b => if b = 0 then .nan else if 0 < b then .negInf else .posInf
  | .posInf, .posInf => .posInf
  | .posInf, .negInf => .negInf
  | .negInf, .posInf => .negInf
  | .negInf, .negInf => .posInf

/-- The comparison `x >= 0` on `float` values; it is false for NaN. -/
def F32.nonneg : F32 → Bool
  | .finite q => decide (0 ≤ q)
  | .posInf => true
  | .negInf => false
  | .nan => false

/-- The comparison `x > 0` on `float` values; it is false for NaN. -/
def F32.pos : F32 → Bool
  | .finite q => decide (0 < q)
  | .posInf => true
  | .negInf => false
  | .nan => false

/-- Whether a `float` value is a finite number (`std::isfinite`). -/
def F32.isFinite : F32 → Bool
  | .finite _ => true
  | _ => false

/-- The members of `ClippingWindow` that the zoom keys read or write, as
`float` values: `scale`, `originalSize` and the size of `rectangle`. -/
structure ZoomF32 where
  scale : F32
  originalSizeX : F32
  originalSizeY : F32
  sizeX : F32
  sizeY : F32
  deriving DecidableEq

/-- What the constructor `ClippingWindow(x, y, width, height)` sets these
members to (lines 27, 28 and 31). -/
def ZoomF32.new (width height : F32) : ZoomF32 :=
  { scale := F32.finite 1, originalSizeX := width, originalSizeY := height
    sizeX := width, sizeY := height }

/-- The method `ClippingWindow::handleEvent`, lines 60–97, on these members.
The mouse branches (lines 62–79) write `isDragging` and `dragOffset` only; the
key branches are lines 83–86 and 90–93. -/
def ZoomF32.handleEvent (z : ZoomF32) (event : Event) : ZoomF32 :=
  match event with
  | .KeyPressed code =>
    if code = Key.Equal then
      let scale := F32.mul z.scale (F32.finite F32.onePointOne)
      { z with
        scale := scale
        sizeX := F32.mul z.originalSizeX scale
        sizeY := F32.mul z.originalSizeY scale }
    else if code = Key.Dash then
      let scale := F32.mul z.scale (F32.finite F32.zeroPointNine)
      { z with
        scale := scale
        sizeX := F32.mul z.originalSizeX scale
        sizeY := F32.mul z.originalSizeY scale }
    else z
  | _ => z

/-- The effect of one call of the loop of `main` on these members;
`ClippingWindow::update` (lines 100–106) writes the position only. -/
def ZoomF32.call (z : ZoomF32) : Call → ZoomF32
  | .handleEvent event _ => z.handleEvent event
  | .update _ => z

/-- These members after a finite sequence of calls. -/
def ZoomF32.run (z : ZoomF32) (calls : List Call) : ZoomF32 :=
  calls.foldl ZoomF32.call z

/-- Modelled from the spec: the operation `rescale(factor)` of §4.1 over `float`
values, the counterpart of `ClippingWindow.rescale`. -/
def ZoomF32.rescale (z : ZoomF32) (factor : F32) : ZoomF32 :=
  let scale := F32.mul z.scale factor
  { z with
    scale := scale
    sizeX := F32.mul z.originalSizeX scale
    sizeY := F32.mul z.originalSizeY scale }

/-- The zoom members of a window of original size 1 × 1 whose scale is
`FLT_MAX`, so that its size is `FLT_MAX` × `FLT_MAX`: a starting state for
`rescale` at the upper end of the range of `float`. -/
def ZoomF32.atMax : ZoomF32 :=
  { scale := F32.finite F32.FLT_MAX
    originalSizeX := F32.finite 1
    originalSizeY := F32.finite 1
    sizeX := F32.finite F32.FLT_MAX
    sizeY := F32.finite F32.FLT_MAX }

/-- Two `float` values are finite and differ by at most `rel` times the
magnitude of the second plus `abs`. -/
def F32.Near (rel abs : ℚ) (a b : F32) : Prop :=
  ∃ x y, a = F32.finite x ∧ b = F32.finite y ∧ |x - y| ≤ rel * |y| + abs

/-! ## Predicates used in the statements -/

/-- The loop variables carry the outcodes of the points they carry. -/
def Consistent (w : ClippingWindow) (s : ClipState) : Prop :=
  s.code1 = w.getPointCode s.x1 s.y1 ∧ s.code2 = w.getPointCode s.x2 s.y2

/-- The point `(x, y)` is a convex combination of `(a1, b1)` and `(a2, b2)`. -/
def OnSegment (a1 b1 a2 b2 x y : ℚ) : Prop :=
  ∃ t : ℚ, 0 ≤ t ∧ t ≤ 1 ∧ x = a1 + t * (a2 - a1) ∧ y = b1 + t * (b2 - b1)

/-- The point `(X, Y)` lies on the edge of `getBounds()` that the priority
order TOP, BOTTOM, RIGHT, LEFT selects for the outside point `(xo, yo)`, the
other point `(xi, yi)` not being beyond that side of the region.  The edges are
those of a region of non-negative width and height: `top - e`, `bottom + e`,
`right + e` and `left - e`, where `e` is the positive part of the outline
thickness. -/
def EdgeHit (w : ClippingWindow) (xo yo xi yi X Y : ℚ) : Prop :=
  let e := max w.rectangle.outlineThickness 0
  let L := w.rectangle.position.x
  let R := w.rectangle.position.x + w.rectangle.size.x
  let T := w.rectangle.position.y
  let B := w.rectangle.position.y + w.rectangle.size.y
  (yo < T ∧ T ≤ yi ∧ Y = T - e) ∨
  (B < yo ∧ yi ≤ B ∧ Y = B + e) ∨
  (T ≤ yo ∧ yo ≤ B ∧ R < xo ∧ xi ≤ R ∧ X = R + e) ∨
  (T ≤ yo ∧ yo ≤ B ∧ xo < L ∧ L ≤ xi ∧ X = L - e)

/-- The number of outside bits that an outcode carries. -/
def outsideBits (code : Nat) : Nat :=
  (if code &&& LEFT ≠ 0 then 1 else 0) + (if code &&& RIGHT ≠ 0 then 1 else 0) +
    (if code &&& TOP ≠ 0 then 1 else 0) + (if code &&& BOTTOM ≠ 0 then 1 else 0)

/-! ## Outcodes -/

theorem getPointCode_and_TOP (w : ClippingWindow) (x y : ℚ) :
    w.getPointCode x y &&& TOP ≠ 0 ↔ y < w.rectangle.position.y := by
  simp only [ClippingWindow.getPointCode, INSIDE, LEFT, RIGHT, TOP, BOTTOM]
  split_ifs <;> simp_all +decide

theorem getPointCode_and_BOTTOM (w : ClippingWindow) (x y : ℚ) :
    w.getPointCode x y &&& BOTTOM ≠ 0 ↔
      ¬ y < w.rectangle.position.y ∧ y > w.rectangle.position.y + w.rectangle.size.y := by
  simp only [ClippingWindow.getPointCode, INSIDE, LEFT, RIGHT, TOP, BOTTOM]
  split_ifs <;> simp_all +decide

theorem getPointCode_and_RIGHT (w : ClippingWindow) (x y : ℚ) :
    w.getPointCode x y &&& RIGHT ≠ 0 ↔
      ¬ x < w.rectangle.position.x ∧ x > w.rectangle.position.x + w.rectangle.size.x := by
  simp only [ClippingWindow.getPointCode, INSIDE, LEFT, RIGHT, TOP, BOTTOM]
  split_ifs <;> simp_all +decide

theorem getPointCode_and_LEFT (w : ClippingWindow) (x y : ℚ) :
    w.getPointCode x y &&& LEFT ≠ 0 ↔ x < w.rectangle.position.x := by
  simp only [ClippingWindow.getPointCode, INSIDE, LEFT, RIGHT, TOP, BOTTOM]
  split_ifs <;> simp_all +decide

theorem getPointCode_eq_zero (w : ClippingWindow) (x y : ℚ) :
    w.getPointCode x y = 0 ↔
      ¬ x < w.rectangle.position.x ∧ ¬ x > w.rectangle.position.x + w.rectangle.size.x ∧
      ¬ y < w.rectangle.position.y ∧ ¬ y > w.rectangle.position.y + w.rectangle.size.y := by
  simp only [ClippingWindow.getPointCode, INSIDE, LEFT, RIGHT, TOP, BOTTOM]
  split_ifs <;> simp_all +decide

theorem lor_eq_zero (a b : Nat) : a ||| b = 0 ↔ a = 0 ∧ b = 0 := by
  constructor
  · intro h
    constructor
    · apply Nat.eq_of_testBit_eq
      intro i
      have := congrArg (fun n => Nat.testBit n i) h
      simp at this
      simp [this.1]
    · apply Nat.eq_of_testBit_eq
      intro i
      have := congrArg (fun n => Nat.testBit n i) h
      simp at this
      simp [this.2]
  · rintro ⟨rfl, rfl⟩
    rfl

/-- The test `code1 & code2` of line 157 in terms of the coordinates: the AND of two
outcodes is zero iff the two points are not beyond a common side. -/
theorem getPointCode_and_getPointCode (w : ClippingWindow) (x y x' y' : ℚ) :
    w.getPointCode x y &&& w.getPointCode x' y' = 0 ↔
      ¬ (x < w.rectangle.position.x ∧ x' < w.rectangle.position.x) ∧
      ¬ ((¬ x < w.rectangle.position.x ∧ x > w.rectangle.position.x + w.rectangle.size.x) ∧
         (¬ x' < w.rectangle.position.x ∧ x' > w.rectangle.position.x + w.rectangle.size.x)) ∧
      ¬ (y < w.rectangle.position.y ∧ y' < w.rectangle.position.y) ∧
      ¬ ((¬ y < w.rectangle.position.y ∧ y > w.rectangle.position.y + w.rectangle.size.y) ∧
         (¬ y' < w.rectangle.position.y ∧ y' > w.rectangle.position.y + w.rectangle.size.y)) := by
  simp only [ClippingWindow.getPointCode, INSIDE, LEFT, RIGHT, TOP, BOTTOM]
  split_ifs <;> simp_all +decide

theorem outsideBits_getPointCode (w : ClippingWindow) (x y : ℚ) :
    outsideBits (w.getPointCode x y) =
      (if x < w.rectangle.position.x then 1 else 0) +
      (if ¬ x < w.rectangle.position.x ∧ x > w.rectangle.position.x + w.rectangle.size.x
        then 1 else 0) +
      (if y < w.rectangle.position.y then 1 else 0) +
      (if ¬ y < w.rectangle.position.y ∧ y > w.rectangle.position.y + w.rectangle.size.y
        then 1 else 0) := by
  simp only [outsideBits, getPointCode_and_LEFT, getPointCode_and_RIGHT, getPointCode_and_TOP,
    getPointCode_and_BOTTOM]

theorem outsideBits_le_two (w : ClippingWindow) (x y : ℚ) :
    outsideBits (w.getPointCode x y) ≤ 2 := by
  rw [outsideBits_getPointCode]
  split_ifs <;> simp_all

theorem outsideBits_eq_zero (w : ClippingWindow) (x y : ℚ)
    (h : outsideBits (w.getPointCode x y) = 0) : w.getPointCode x y = 0 := by
  rw [outsideBits_getPointCode] at h
  rw [getPointCode_eq_zero]
  split_ifs at h <;> simp_all

/-- The rectangle `getBounds()` of a region of non-negative width and height. -/
theorem getBounds_of_nonneg (w : ClippingWindow)
    (hw : 0 ≤ w.rectangle.size.x) (hh : 0 ≤ w.rectangle.size.y) :
    w.getBounds =
      { left := w.rectangle.position.x - max w.rectangle.outlineThickness 0
        top := w.rectangle.position.y - max w.rectangle.outlineThickness 0
        width := w.rectangle.size.x + 2 * max w.rectangle.outlineThickness 0
        height := w.rectangle.size.y + 2 * max w.rectangle.outlineThickness 0 } := by
  simp [ClippingWindow.getBounds, RectangleShape.getGlobalBounds, abs_of_nonneg hw,
    abs_of_nonneg hh, hw, hh]

/-! ## One pass through the loop body -/

/-- The intersection of lines 166–195, when the outside point has a non-zero outcode
that shares no bit with the outcode of the other point: no denominator is zero,
and the result is the point of the line through the two current endpoints, at
parameter `lam` from the first one, on the selected edge of `getBounds()`. -/
theorem intersection_spec (w : ClippingWindow) (s : ClipState) (xo yo xi yi : ℚ)
    (hw : 0 ≤ w.rectangle.size.x) (hh : 0 ≤ w.rectangle.size.y)
    (hs : (xo = s.x1 ∧ yo = s.y1 ∧ xi = s.x2 ∧ yi = s.y2) ∨
          (xo = s.x2 ∧ yo = s.y2 ∧ xi = s.x1 ∧ yi = s.y1))
    (hout : w.getPointCode xo yo ≠ 0)
    (hand : w.getPointCode xo yo &&& w.getPointCode xi yi = 0) :
    ∃ X Y lam, intersection w.getBounds s (w.getPointCode xo yo) = some (X, Y) ∧
      X = s.x1 + lam * (s.x2 - s.x1) ∧ Y = s.y1 + lam * (s.y2 - s.y1) ∧
      EdgeHit w xo yo xi yi X Y := by
  rw [getPointCode_and_getPointCode] at hand
  obtain ⟨hL, hR, hT, hB⟩ := hand
  rw [Ne, getPointCode_eq_zero] at hout
  simp only [intersection, getBounds_of_nonneg w hw hh, getPointCode_and_TOP,
    getPointCode_and_BOTTOM, getPointCode_and_RIGHT, getPointCode_and_LEFT, EdgeHit]
  generalize max w.rectangle.outlineThickness 0 = e
  generalize w.rectangle.position.x = L at *
  generalize w.rectangle.position.y = T at *
  generalize w.rectangle.size.x = sx at *
  generalize w.rectangle.size.y = sy at *
  by_cases h1 : yo < T
  · -- TOP
    have hyi : T ≤ yi := by
      by_contra hc
      exact hT ⟨h1, not_le.mp hc⟩
    have hne : s.y2 - s.y1 ≠ 0 := by
      rcases hs with ⟨_, rfl, _, rfl⟩ | ⟨_, rfl, _, rfl⟩
      · intro h0; linarith
      · intro h0; linarith
    refine ⟨s.x1 + (s.x2 - s.x1) * (T - e - s.y1) / (s.y2 - s.y1), T - e,
      (T - e - s.y1) / (s.y2 - s.y1), ?_, ?_, ?_, ?_⟩
    · rw [if_pos h1, if_neg hne]
    · ring
    · field_simp
    · left; exact ⟨h1, hyi, rfl⟩
  by_cases h2 : yo > T + sy
  · -- BOTTOM
    have hyi : yi ≤ T + sy := by
      by_contra hc
      have hc' := not_le.mp hc
      exact hB ⟨⟨h1, h2⟩, by intro h; linarith, hc'⟩
    have hne : s.y2 - s.y1 ≠ 0 := by
      rcases hs with ⟨_, rfl, _, rfl⟩ | ⟨_, rfl, _, rfl⟩
      · intro h0; linarith
      · intro h0; linarith
    refine ⟨s.x1 + (s.x2 - s.x1) * (T - e + (sy + 2 * e) - s.y1) / (s.y2 - s.y1),
      T - e + (sy + 2 * e), (T - e + (sy + 2 * e) - s.y1) / (s.y2 - s.y1), ?_, ?_, ?_, ?_⟩
    · rw [if_neg h1, if_pos ⟨h1, h2⟩, if_neg hne]
    · ring
    · field_simp
    · right; left; exact ⟨h2, hyi, by ring⟩
  have hT' : T ≤ yo := not_lt.mp h1
  have hB' : yo ≤ T + sy := not_lt.mp h2
  by_cases h3 : xo < L
  · -- LEFT
    have hxi : L ≤ xi := by
      by_contra hc
      exact hL ⟨h3, not_le.mp hc⟩
    have hne : s.x2 - s.x1 ≠ 0 := by
      rcases hs with ⟨rfl, _, rfl, _⟩ | ⟨rfl, _, rfl, _⟩
      · intro h0; linarith
      · intro h0; linarith
    have h3' : ¬ (¬ xo < L ∧ xo > L + sx) := fun h => h.1 h3
    refine ⟨L - e, s.y1 + (s.y2 - s.y1) * (L - e - s.x1) / (s.x2 - s.x1),
      (L - e - s.x1) / (s.x2 - s.x1), ?_, ?_, ?_, ?_⟩
    · rw [if_neg h1, if_neg (fun h => h2 h.2), if_neg h3', if_pos h3, if_neg hne]
    · field_simp
    · ring
    · right; right; right; exact ⟨hT', hB', h3, hxi, rfl⟩
  · -- RIGHT
    have h4 : xo > L + sx := by
      by_contra hc
      exact hout ⟨h3, hc, h1, h2⟩
    have hxi : xi ≤ L + sx := by
      by_contra hc
      have hc' := not_le.mp hc
      exact hR ⟨⟨h3, h4⟩, by intro h; linarith, hc'⟩
    have hne : s.x2 - s.x1 ≠ 0 := by
      rcases hs with ⟨rfl, _, rfl, _⟩ | ⟨rfl, _, rfl, _⟩
      · intro h0; linarith
      · intro h0; linarith
    refine ⟨L - e + (sx + 2 * e),
      s.y1 + (s.y2 - s.y1) * (L - e + (sx + 2 * e) - s.x1) / (s.x2 - s.x1),
      (L - e + (sx + 2 * e) - s.x1) / (s.x2 - s.x1), ?_, ?_, ?_, ?_⟩
    · rw [if_neg h1, if_neg (fun h => h2 h.2), if_pos ⟨h3, h4⟩, if_neg hne]
    · field_simp
    · ring
    · right; right; left; exact ⟨hT', hB', h4, hxi, by ring⟩

theorem clipStep_accept_iff (w : ClippingWindow) (s : ClipState) :
    clipStep w s = .accept ↔ s.code1 = 0 ∧ s.code2 = 0 := by
  rw [← lor_eq_zero]
  unfold clipStep
  by_cases hor : s.code1 ||| s.code2 = 0
  · simp [hor]
  · simp only [hor, if_false, iff_false]
    split_ifs <;> first | (split <;> simp) | simp

theorem clipStep_reject_iff (w : ClippingWindow) (s : ClipState) :
    clipStep w s = .reject ↔ (s.code1 ||| s.code2) ≠ 0 ∧ s.code1 &&& s.code2 ≠ 0 := by
  unfold clipStep
  by_cases hor : s.code1 ||| s.code2 = 0
  · simp [hor]
  · by_cases hand : s.code1 &&& s.code2 ≠ 0
    · simp [hor, hand]
    · simp only [hor, hand, if_false, ne_eq, not_false_eq_true, true_and, iff_false]
      split_ifs <;> split <;> simp

theorem clipStep_of_outside_first (w : ClippingWindow) (s : ClipState)
    (hw : 0 ≤ w.rectangle.size.x) (hh : 0 ≤ w.rectangle.size.y) (hc : Consistent w s)
    (h1 : s.code1 ≠ 0) (hand : s.code1 &&& s.code2 = 0) :
    ∃ X Y lam, X = s.x1 + lam * (s.x2 - s.x1) ∧ Y = s.y1 + lam * (s.y2 - s.y1) ∧
      EdgeHit w s.x1 s.y1 s.x2 s.y2 X Y ∧
      clipStep w s = .replaced { s with x1 := X, y1 := Y, code1 := w.getPointCode X Y } := by
  obtain ⟨hc1, hc2⟩ := hc
  have hout : w.getPointCode s.x1 s.y1 ≠ 0 := hc1 ▸ h1
  have hand' : w.getPointCode s.x1 s.y1 &&& w.getPointCode s.x2 s.y2 = 0 := by
    rw [← hc1, ← hc2]; exact hand
  obtain ⟨X, Y, lam, hint, hX, hY, hE⟩ :=
    intersection_spec w s s.x1 s.y1 s.x2 s.y2 hw hh (Or.inl ⟨rfl, rfl, rfl, rfl⟩) hout hand'
  refine ⟨X, Y, lam, hX, hY, hE, ?_⟩
  have hor : ¬ (s.code1 ||| s.code2 = 0) := fun h => h1 ((lor_eq_zero _ _).mp h).1
  rw [← hc1] at hint
  simp [clipStep, hor, hand, h1, hint]

theorem clipStep_of_outside_second (w : ClippingWindow) (s : ClipState)
    (hw : 0 ≤ w.rectangle.size.x) (hh : 0 ≤ w.rectangle.size.y) (hc : Consistent w s)
    (h1 : s.code1 = 0) (h2 : s.code2 ≠ 0) :
    ∃ X Y lam, X = s.x1 + lam * (s.x2 - s.x1) ∧ Y = s.y1 + lam * (s.y2 - s.y1) ∧
      EdgeHit w s.x2 s.y2 s.x1 s.y1 X Y ∧
      clipStep w s = .replaced { s with x2 := X, y2 := Y, code2 := w.getPointCode X Y } := by
  obtain ⟨hc1, hc2⟩ := hc
  have hout : w.getPointCode s.x2 s.y2 ≠ 0 := hc2 ▸ h2
  have hand' : w.getPointCode s.x2 s.y2 &&& w.getPointCode s.x1 s.y1 = 0 := by
    rw [← hc1, h1]; simp
  obtain ⟨X, Y, lam, hint, hX, hY, hE⟩ :=
    intersection_spec w s s.x2 s.y2 s.x1 s.y1 hw hh (Or.inr ⟨rfl, rfl, rfl, rfl⟩) hout hand'
  refine ⟨X, Y, lam, hX, hY, hE, ?_⟩
  have hor : ¬ (s.code1 ||| s.code2 = 0) := fun h => h2 ((lor_eq_zero _ _).mp h).2
  rw [← hc2] at hint
  have hne : ¬ (s.code2 = 0) := h2
  simp [clipStep, hor, h1, hne, hint, Ne.symm h2]

/-- A refine step replaces the first endpoint when its outcode is non-zero and the
second otherwise, by a point of the line through the two current endpoints on an
edge of `getBounds()`, and recomputes the outcode of that endpoint. -/
theorem clipStep_replaced (w : ClippingWindow) (s s' : ClipState)
    (hw : 0 ≤ w.rectangle.size.x) (hh : 0 ≤ w.rectangle.size.y) (hc : Consistent w s)
    (h : clipStep w s = .replaced s') :
    ∃ X Y lam, X = s.x1 + lam * (s.x2 - s.x1) ∧ Y = s.y1 + lam * (s.y2 - s.y1) ∧
      ((s.code1 ≠ 0 ∧ EdgeHit w s.x1 s.y1 s.x2 s.y2 X Y ∧
          s' = { s with x1 := X, y1 := Y, code1 := w.getPointCode X Y }) ∨
       (s.code1 = 0 ∧ s.code2 ≠ 0 ∧ EdgeHit w s.x2 s.y2 s.x1 s.y1 X Y ∧
          s' = { s with x2 := X, y2 := Y, code2 := w.getPointCode X Y })) := by
  have hna : ¬ (s.code1 = 0 ∧ s.code2 = 0) := by
    rw [← clipStep_accept_iff w s, h]; simp
  have hnr : ¬ ((s.code1 ||| s.code2) ≠ 0 ∧ s.code1 &&& s.code2 ≠ 0) := by
    rw [← clipStep_reject_iff w s, h]; simp
  by_cases h1 : s.code1 = 0
  · have h2 : s.code2 ≠ 0 := fun h2 => hna ⟨h1, h2⟩
    obtain ⟨X, Y, lam, hX, hY, hE, hstep⟩ := clipStep_of_outside_second w s hw hh hc h1 h2
    rw [hstep] at h
    exact ⟨X, Y, lam, hX, hY, Or.inr ⟨h1, h2, hE, (StepResult.replaced.inj h).symm⟩⟩
  · have hand : s.code1 &&& s.code2 = 0 := by
      by_contra hc'
      exact hnr ⟨fun h0 => h1 ((lor_eq_zero _ _).mp h0).1, hc'⟩
    obtain ⟨X, Y, lam, hX, hY, hE, hstep⟩ := clipStep_of_outside_first w s hw hh hc h1 hand
    rw [hstep] at h
    exact ⟨X, Y, lam, hX, hY, Or.inl ⟨h1, hE, (StepResult.replaced.inj h).symm⟩⟩

/-- The loop body never divides by zero: the endpoint that is not replaced is not
beyond the side that is intersected, the replaced one is. -/
theorem clipStep_ne_divByZero (w : ClippingWindow) (s : ClipState)
    (hw : 0 ≤ w.rectangle.size.x) (hh : 0 ≤ w.rectangle.size.y) (hc : Consistent w s) :
    clipStep w s ≠ .divByZero := by
  by_cases h1 : s.code1 = 0
  · by_cases h2 : s.code2 = 0
    · rw [(clipStep_accept_iff w s).mpr ⟨h1, h2⟩]; simp
    · obtain ⟨X, Y, lam, -, -, -, hstep⟩ := clipStep_of_outside_second w s hw hh hc h1 h2
      rw [hstep]; simp
  · by_cases hand : s.code1 &&& s.code2 = 0
    · obtain ⟨X, Y, lam, -, -, -, hstep⟩ := clipStep_of_outside_first w s hw hh hc h1 hand
      rw [hstep]; simp
    · rw [(clipStep_reject_iff w s).mpr
        ⟨fun h0 => h1 ((lor_eq_zero _ _).mp h0).1, hand⟩]
      simp

theorem consistent_initState (w : ClippingWindow) (x1 y1 x2 y2 : ℚ) :
    Consistent w (initState w x1 y1 x2 y2) := ⟨rfl, rfl⟩

theorem consistent_step (w : ClippingWindow) (s s' : ClipState) (hc : Consistent w s)
    (h : clipStep w s = .replaced s') : Consistent w s' := by
  simp only [clipStep] at h
  split_ifs at h
  all_goals
    split at h
    · simp at h
    · simp only [StepResult.replaced.injEq] at h
      subst h
      first
      | exact ⟨rfl, hc.2⟩
      | exact ⟨hc.1, rfl⟩

theorem clipStep_same_side (w : ClippingWindow) (x1 y1 x2 y2 : ℚ)
    (hw : 0 ≤ w.rectangle.size.x) (hh : 0 ≤ w.rectangle.size.y)
    (h : (x1 < w.rectangle.position.x ∧ x2 < w.rectangle.position.x) ∨
      (x1 > w.rectangle.position.x + w.rectangle.size.x ∧
        x2 > w.rectangle.position.x + w.rectangle.size.x) ∨
      (y1 < w.rectangle.position.y ∧ y2 < w.rectangle.position.y) ∨
      (y1 > w.rectangle.position.y + w.rectangle.size.y ∧
        y2 > w.rectangle.position.y + w.rectangle.size.y)) :
    clipStep w (initState w x1 y1 x2 y2) = .reject := by
  have hand : w.getPointCode x1 y1 &&& w.getPointCode x2 y2 ≠ 0 := by
    rw [Ne, getPointCode_and_getPointCode]
    rintro ⟨hL, hR, hT, hB⟩
    rcases h with h | h | h | h
    · exact hL h
    · exact hR ⟨⟨fun h' => by linarith [h.1], h.1⟩, ⟨fun h' => by linarith [h.2], h.2⟩⟩
    · exact hT h
    · exact hB ⟨⟨fun h' => by linarith [h.1], h.1⟩, ⟨fun h' => by linarith [h.2], h.2⟩⟩
  rw [clipStep_reject_iff]
  refine ⟨?_, hand⟩
  intro hor
  apply hand
  have h0 := ((lor_eq_zero _ _).mp hor).1
  simp only [initState] at h0
  rw [h0]
  exact Nat.zero_and _

/-! ## The loop -/

/-- Induction over the loop: a property that holds on entry and is kept by every
refine step holds in the state in which the loop returns. -/
theorem clipLoop_done (w : ClippingWindow) (P : ClipState → Prop)
    (hstep : ∀ s s', P s → clipStep w s = .replaced s' → P s') :
    ∀ (n : Nat) (s : ClipState), P s → ∀ acc x1 y1 x2 y2,
      clipLoop w n s = .done acc x1 y1 x2 y2 →
      ∃ sf, P sf ∧ sf.x1 = x1 ∧ sf.y1 = y1 ∧ sf.x2 = x2 ∧ sf.y2 = y2 ∧
        clipStep w sf = (if acc then .accept else .reject) := by
  intro n
  induction n with
  | zero =>
    intro s hP acc x1 y1 x2 y2 h
    simp only [clipLoop] at h
    cases hs : clipStep w s with
    | accept =>
      rw [hs] at h
      simp only [ClipResult.done.injEq] at h
      obtain ⟨rfl, rfl, rfl, rfl, rfl⟩ := h
      exact ⟨s, hP, rfl, rfl, rfl, rfl, by simp [hs]⟩
    | reject =>
      rw [hs] at h
      simp only [ClipResult.done.injEq] at h
      obtain ⟨rfl, rfl, rfl, rfl, rfl⟩ := h
      exact ⟨s, hP, rfl, rfl, rfl, rfl, by simp [hs]⟩
    | replaced s1 => rw [hs] at h; simp at h
    | divByZero => rw [hs] at h; simp at h
  | succ n ih =>
    intro s hP acc x1 y1 x2 y2 h
    simp only [clipLoop] at h
    cases hs : clipStep w s with
    | accept =>
      rw [hs] at h
      simp only [ClipResult.done.injEq] at h
      obtain ⟨rfl, rfl, rfl, rfl, rfl⟩ := h
      exact ⟨s, hP, rfl, rfl, rfl, rfl, by simp [hs]⟩
    | reject =>
      rw [hs] at h
      simp only [ClipResult.done.injEq] at h
      obtain ⟨rfl, rfl, rfl, rfl, rfl⟩ := h
      exact ⟨s, hP, rfl, rfl, rfl, rfl, by simp [hs]⟩
    | replaced s1 =>
      rw [hs] at h
      exact ih s1 (hstep s s1 hP hs) acc x1 y1 x2 y2 h
    | divByZero => rw [hs] at h; simp at h

theorem clipLoop_of_accept (w : ClippingWindow) (n : Nat) (s : ClipState)
    (h : clipStep w s = .accept) : clipLoop w n s = .done true s.x1 s.y1 s.x2 s.y2 := by
  cases n <;> simp [clipLoop, h]

theorem clipLoop_of_reject (w : ClippingWindow) (n : Nat) (s : ClipState)
    (h : clipStep w s = .reject) : clipLoop w n s = .done false s.x1 s.y1 s.x2 s.y2 := by
  cases n <;> simp [clipLoop, h]

theorem clipLoop_of_replaced (w : ClippingWindow) (n : Nat) (s s1 : ClipState)
    (h : clipStep w s = .replaced s1) : clipLoop w (n + 1) s = clipLoop w n s1 := by
  simp [clipLoop, h]

theorem clipLoop_zero_of_replaced (w : ClippingWindow) (s s1 : ClipState)
    (h : clipStep w s = .replaced s1) : clipLoop w 0 s = .outOfFuel := by
  simp [clipLoop, h]

theorem clipLoop_fixed (w : ClippingWindow) (s : ClipState)
    (h : clipStep w s = .replaced s) : ∀ n, clipLoop w n s = .outOfFuel := by
  intro n
  induction n with
  | zero => exact clipLoop_zero_of_replaced w s s h
  | succ n ih => rw [clipLoop_of_replaced w n s s h]; exact ih

/-- A state that a refine step maps to itself is never left. -/
theorem clipLoop_then_fixed (w : ClippingWindow) (s s1 : ClipState)
    (h0 : clipStep w s = .replaced s1) (h1 : clipStep w s1 = .replaced s1) :
    ∀ n, clipLoop w n s = .outOfFuel := by
  intro n
  cases n with
  | zero => exact clipLoop_zero_of_replaced w s s1 h0
  | succ n => rw [clipLoop_of_replaced w n s s1 h0]; exact clipLoop_fixed w s1 h1 n

theorem cohenSutherlandClip_of_inside (n : Nat) (w : ClippingWindow) (x1 y1 x2 y2 : ℚ)
    (h1 : w.getPointCode x1 y1 = 0) (h2 : w.getPointCode x2 y2 = 0) :
    cohenSutherlandClip n w x1 y1 x2 y2 = .done true x1 y1 x2 y2 :=
  clipLoop_of_accept w n (initState w x1 y1 x2 y2)
    ((clipStep_accept_iff w _).mpr ⟨h1, h2⟩)

/-! ## Geometry of a refine step -/

/-- With a positive outline thickness the new endpoint is strictly outside the
region: its outcode is not 0. -/
theorem edgeHit_code_ne_zero (w : ClippingWindow) (xo yo xi yi X Y : ℚ)
    (he : 0 < max w.rectangle.outlineThickness 0) (hE : EdgeHit w xo yo xi yi X Y) :
    w.getPointCode X Y ≠ 0 := by
  rw [Ne, getPointCode_eq_zero]
  rintro ⟨a, b, c, d⟩
  simp only [EdgeHit] at hE
  rcases hE with ⟨-, -, h⟩ | ⟨-, -, h⟩ | ⟨-, -, -, -, h⟩ | ⟨-, -, -, -, h⟩
  · apply c; rw [h]; linarith
  · apply d; rw [h]; linarith
  · apply b; rw [h]; linarith
  · apply a; rw [h]; linarith

theorem edgeHit_on_boundary (w : ClippingWindow) (xo yo xi yi X Y : ℚ)
    (he : max w.rectangle.outlineThickness 0 = 0) (hE : EdgeHit w xo yo xi yi X Y) :
    X = w.rectangle.position.x ∨ X = w.rectangle.position.x + w.rectangle.size.x ∨
      Y = w.rectangle.position.y ∨ Y = w.rectangle.position.y + w.rectangle.size.y := by
  simp only [EdgeHit, he, sub_zero, add_zero] at hE
  rcases hE with ⟨-, -, h⟩ | ⟨-, -, h⟩ | ⟨-, -, -, -, h⟩ | ⟨-, -, -, -, h⟩
  · exact Or.inr (Or.inr (Or.inl h))
  · exact Or.inr (Or.inr (Or.inr h))
  · exact Or.inr (Or.inl h)
  · exact Or.inl h

theorem lam_bounds (a b c lam : ℚ) (h : c = a + lam * (b - a))
    (hc : (a ≤ c ∧ c ≤ b ∧ a < b) ∨ (b ≤ c ∧ c ≤ a ∧ b < a)) : 0 ≤ lam ∧ lam ≤ 1 := by
  rcases hc with ⟨h1, h2, h3⟩ | ⟨h1, h2, h3⟩
  · constructor
    · by_contra hn
      have := mul_pos (neg_pos.mpr (not_le.mp hn)) (sub_pos.mpr h3)
      nlinarith
    · by_contra hn
      have := mul_pos (sub_pos.mpr (not_le.mp hn)) (sub_pos.mpr h3)
      nlinarith
  · constructor
    · by_contra hn
      have := mul_pos (neg_pos.mpr (not_le.mp hn)) (sub_pos.mpr h3)
      nlinarith
    · by_contra hn
      have := mul_pos (sub_pos.mpr (not_le.mp hn)) (sub_pos.mpr h3)
      nlinarith

theorem edgeHit_lam_bounds (w : ClippingWindow) (s : ClipState) (xo yo xi yi X Y lam : ℚ)
    (hs : (xo = s.x1 ∧ yo = s.y1 ∧ xi = s.x2 ∧ yi = s.y2) ∨
          (xo = s.x2 ∧ yo = s.y2 ∧ xi = s.x1 ∧ yi = s.y1))
    (he : max w.rectangle.outlineThickness 0 = 0) (hE : EdgeHit w xo yo xi yi X Y)
    (hX : X = s.x1 + lam * (s.x2 - s.x1)) (hY : Y = s.y1 + lam * (s.y2 - s.y1)) :
    0 ≤ lam ∧ lam ≤ 1 := by
  simp only [EdgeHit, he, sub_zero, add_zero] at hE
  rcases hs with ⟨rfl, rfl, rfl, rfl⟩ | ⟨rfl, rfl, rfl, rfl⟩
  · rcases hE with ⟨h1, h2, h⟩ | ⟨h1, h2, h⟩ | ⟨-, -, h1, h2, h⟩ | ⟨-, -, h1, h2, h⟩
    · exact lam_bounds _ _ _ _ hY (Or.inl ⟨by linarith, by linarith, by linarith⟩)
    · exact lam_bounds _ _ _ _ hY (Or.inr ⟨by linarith, by linarith, by linarith⟩)
    · exact lam_bounds _ _ _ _ hX (Or.inr ⟨by linarith, by linarith, by linarith⟩)
    · exact lam_bounds _ _ _ _ hX (Or.inl ⟨by linarith, by linarith, by linarith⟩)
  · rcases hE with ⟨h1, h2, h⟩ | ⟨h1, h2, h⟩ | ⟨-, -, h1, h2, h⟩ | ⟨-, -, h1, h2, h⟩
    · exact lam_bounds _ _ _ _ hY (Or.inr ⟨by linarith, by linarith, by linarith⟩)
    · exact lam_bounds _ _ _ _ hY (Or.inl ⟨by linarith, by linarith, by linarith⟩)
    · exact lam_bounds _ _ _ _ hX (Or.inl ⟨by linarith, by linarith, by linarith⟩)
    · exact lam_bounds _ _ _ _ hX (Or.inr ⟨by linarith, by linarith, by linarith⟩)

theorem onSegment_first (a1 b1 a2 b2 : ℚ) : OnSegment a1 b1 a2 b2 a1 b1 :=
  ⟨0, le_refl 0, zero_le_one, by ring, by ring⟩

theorem onSegment_second (a1 b1 a2 b2 : ℚ) : OnSegment a1 b1 a2 b2 a2 b2 :=
  ⟨1, zero_le_one, le_refl 1, by ring, by ring⟩

theorem onSegment_lerp (a1 b1 a2 b2 x1 y1 x2 y2 lam : ℚ)
    (h1 : OnSegment a1 b1 a2 b2 x1 y1) (h2 : OnSegment a1 b1 a2 b2 x2 y2)
    (hl0 : 0 ≤ lam) (hl1 : lam ≤ 1) :
    OnSegment a1 b1 a2 b2 (x1 + lam * (x2 - x1)) (y1 + lam * (y2 - y1)) := by
  obtain ⟨t1, ht10, ht11, rfl, rfl⟩ := h1
  obtain ⟨t2, ht20, ht21, rfl, rfl⟩ := h2
  refine ⟨t1 + lam * (t2 - t1), ?_, ?_, by ring, by ring⟩
  · nlinarith [mul_nonneg hl0 ht20, mul_nonneg (sub_nonneg.mpr hl1) ht10]
  · nlinarith [mul_nonneg hl0 (sub_nonneg.mpr ht21),
      mul_nonneg (sub_nonneg.mpr hl1) (sub_nonneg.mpr ht11)]

theorem lerp_le_max (a b t : ℚ) (ht0 : 0 ≤ t) (ht1 : t ≤ 1) :
    a + t * (b - a) ≤ max a b := by
  nlinarith [mul_nonneg (sub_nonneg.mpr ht1) (sub_nonneg.mpr (le_max_left a b)),
    mul_nonneg ht0 (sub_nonneg.mpr (le_max_right a b))]

theorem min_le_lerp (a b t : ℚ) (ht0 : 0 ≤ t) (ht1 : t ≤ 1) :
    min a b ≤ a + t * (b - a) := by
  nlinarith [mul_nonneg (sub_nonneg.mpr ht1) (sub_nonneg.mpr (min_le_left a b)),
    mul_nonneg ht0 (sub_nonneg.mpr (min_le_right a b))]

theorem param_le_of_le (a b lam tau : ℚ)
    (h : (a < b ∧ a + lam * (b - a) ≤ a + tau * (b - a)) ∨
      (b < a ∧ a + tau * (b - a) ≤ a + lam * (b - a))) : lam ≤ tau := by
  by_contra hn
  have hlt := not_le.mp hn
  rcases h with ⟨hab, h⟩ | ⟨hab, h⟩
  · nlinarith [mul_pos (sub_pos.mpr hlt) (sub_pos.mpr hab)]
  · nlinarith [mul_pos (sub_pos.mpr hlt) (sub_pos.mpr hab)]

theorem onSegment_shrink_first (x1 y1 x2 y2 lam tau : ℚ) (h0 : lam ≤ tau) (h1 : tau ≤ 1) :
    OnSegment (x1 + lam * (x2 - x1)) (y1 + lam * (y2 - y1)) x2 y2
      (x1 + tau * (x2 - x1)) (y1 + tau * (y2 - y1)) := by
  rcases eq_or_lt_of_le (h0.trans h1) with hl | hl
  · have ht : tau = 1 := le_antisymm h1 (hl ▸ h0)
    subst hl ht
    exact ⟨0, le_refl 0, zero_le_one, by ring, by ring⟩
  · have hpos : 0 < 1 - lam := sub_pos.mpr hl
    refine ⟨(tau - lam) / (1 - lam), div_nonneg (sub_nonneg.mpr h0) hpos.le, ?_, ?_, ?_⟩
    · rw [div_le_one hpos]; linarith
    · field_simp; ring
    · field_simp; ring

theorem onSegment_shrink_second (x1 y1 x2 y2 lam tau : ℚ) (h0 : 0 ≤ tau) (h1 : tau ≤ lam) :
    OnSegment x1 y1 (x1 + lam * (x2 - x1)) (y1 + lam * (y2 - y1))
      (x1 + tau * (x2 - x1)) (y1 + tau * (y2 - y1)) := by
  rcases eq_or_lt_of_le (h0.trans h1) with hl | hl
  · have ht : tau = 0 := le_antisymm (hl ▸ h1) h0
    subst ht
    rw [← hl]
    exact ⟨0, le_refl 0, zero_le_one, by ring, by ring⟩
  · refine ⟨tau / lam, div_nonneg h0 hl.le, ?_, ?_, ?_⟩
    · rw [div_le_one hl]; exact h1
    · field_simp; ring
    · field_simp; ring

theorem edgeHit_keeps_inside_first (w : ClippingWindow) (x1 y1 x2 y2 X Y lam tau : ℚ)
    (hE : EdgeHit w x1 y1 x2 y2 X Y)
    (hX : X = x1 + lam * (x2 - x1)) (hY : Y = y1 + lam * (y2 - y1))
    (hq : w.getPointCode (x1 + tau * (x2 - x1)) (y1 + tau * (y2 - y1)) = 0) :
    lam ≤ tau := by
  rw [getPointCode_eq_zero] at hq
  obtain ⟨q1, q2, q3, q4⟩ := hq
  have he : 0 ≤ max w.rectangle.outlineThickness 0 := le_max_right _ _
  simp only [EdgeHit] at hE
  rcases hE with ⟨h1, h2, h⟩ | ⟨h1, h2, h⟩ | ⟨-, -, h1, h2, h⟩ | ⟨-, -, h1, h2, h⟩
  · exact param_le_of_le y1 y2 lam tau (Or.inl ⟨by linarith, by linarith⟩)
  · exact param_le_of_le y1 y2 lam tau (Or.inr ⟨by linarith, by linarith⟩)
  · exact param_le_of_le x1 x2 lam tau (Or.inr ⟨by linarith, by linarith⟩)
  · exact param_le_of_le x1 x2 lam tau (Or.inl ⟨by linarith, by linarith⟩)

theorem edgeHit_keeps_inside_second (w : ClippingWindow) (x1 y1 x2 y2 X Y lam tau : ℚ)
    (hE : EdgeHit w x2 y2 x1 y1 X Y)
    (hX : X = x1 + lam * (x2 - x1)) (hY : Y = y1 + lam * (y2 - y1))
    (hq : w.getPointCode (x1 + tau * (x2 - x1)) (y1 + tau * (y2 - y1)) = 0) :
    tau ≤ lam := by
  rw [getPointCode_eq_zero] at hq
  obtain ⟨q1, q2, q3, q4⟩ := hq
  have he : 0 ≤ max w.rectangle.outlineThickness 0 := le_max_right _ _
  simp only [EdgeHit] at hE
  rcases hE with ⟨h1, h2, h⟩ | ⟨h1, h2, h⟩ | ⟨-, -, h1, h2, h⟩ | ⟨-, -, h1, h2, h⟩
  · exact param_le_of_le y1 y2 tau lam (Or.inr ⟨by linarith, by linarith⟩)
  · exact param_le_of_le y1 y2 tau lam (Or.inl ⟨by linarith, by linarith⟩)
  · exact param_le_of_le x1 x2 tau lam (Or.inl ⟨by linarith, by linarith⟩)
  · exact param_le_of_le x1 x2 tau lam (Or.inr ⟨by linarith, by linarith⟩)

theorem shared_side_outside (w : ClippingWindow) (x1 y1 x2 y2 qx qy : ℚ)
    (hand : w.getPointCode x1 y1 &&& w.getPointCode x2 y2 ≠ 0)
    (hq : OnSegment x1 y1 x2 y2 qx qy) : w.getPointCode qx qy ≠ 0 := by
  rw [Ne, getPointCode_and_getPointCode] at hand
  rw [Ne, getPointCode_eq_zero]
  rintro ⟨q1, q2, q3, q4⟩
  obtain ⟨t, ht0, ht1, rfl, rfl⟩ := hq
  apply hand
  refine ⟨?_, ?_, ?_, ?_⟩
  · rintro ⟨h1, h2⟩
    exact q1 (lt_of_le_of_lt (lerp_le_max x1 x2 t ht0 ht1) (max_lt h1 h2))
  · rintro ⟨⟨-, h1⟩, ⟨-, h2⟩⟩
    exact q2 (lt_of_lt_of_le (lt_min h1 h2) (min_le_lerp x1 x2 t ht0 ht1))
  · rintro ⟨h1, h2⟩
    exact q3 (lt_of_le_of_lt (lerp_le_max y1 y2 t ht0 ht1) (max_lt h1 h2))
  · rintro ⟨⟨-, h1⟩, ⟨-, h2⟩⟩
    exact q4 (lt_of_lt_of_le (lt_min h1 h2) (min_le_lerp y1 y2 t ht0 ht1))

theorem ite_le_ite (p q : Prop) [Decidable p] [Decidable q] (h : q → p) :
    (if q then 1 else 0 : Nat) ≤ (if p then 1 else 0) := by
  split_ifs with hq hp <;> simp_all

theorem ite_lt_ite (p q : Prop) [Decidable p] [Decidable q] (hp : p) (hq : ¬ q) :
    (if q then 1 else 0 : Nat) + 1 ≤ (if p then 1 else 0) := by
  simp [hp, hq]

theorem edgeHit_progress (w : ClippingWindow) (xo yo xi yi X Y : ℚ)
    (hw : 0 ≤ w.rectangle.size.x) (hh : 0 ≤ w.rectangle.size.y)
    (he : max w.rectangle.outlineThickness 0 = 0) (hE : EdgeHit w xo yo xi yi X Y)
    (hbx : min xo xi ≤ X ∧ X ≤ max xo xi) (hby : min yo yi ≤ Y ∧ Y ≤ max yo yi) :
    w.getPointCode X Y &&& w.getPointCode xi yi ≠ 0 ∨
      outsideBits (w.getPointCode X Y) < outsideBits (w.getPointCode xo yo) := by
  by_cases hand : w.getPointCode X Y &&& w.getPointCode xi yi = 0
  swap
  · exact Or.inl hand
  right
  rw [getPointCode_and_getPointCode] at hand
  obtain ⟨hL, hR, hT, hB⟩ := hand
  rw [outsideBits_getPointCode, outsideBits_getPointCode]
  simp only [EdgeHit, he, sub_zero, add_zero] at hE
  generalize w.rectangle.position.x = L at *
  generalize w.rectangle.position.y = T at *
  generalize w.rectangle.size.x = sx at *
  generalize w.rectangle.size.y = sy at *
  have iL : X < L → xo < L := by
    intro hX
    by_contra hxo
    have hxi : L ≤ xi := by
      by_contra hc
      exact hL ⟨hX, not_le.mp hc⟩
    have := le_min (not_lt.mp hxo) hxi
    linarith [hbx.1]
  have iR : (¬ X < L ∧ X > L + sx) → (¬ xo < L ∧ xo > L + sx) := by
    rintro ⟨-, hX⟩
    have hxi : xi ≤ L + sx := by
      by_contra hc
      exact hR ⟨⟨fun h => by linarith, hX⟩, ⟨fun h => by linarith, not_le.mp hc⟩⟩
    have hxo : xo > L + sx := by
      by_contra hc
      have := max_le (not_lt.mp hc) hxi
      linarith [hbx.2]
    exact ⟨fun h => by linarith, hxo⟩
  have iT : Y < T → yo < T := by
    intro hY
    by_contra hyo
    have hyi : T ≤ yi := by
      by_contra hc
      exact hT ⟨hY, not_le.mp hc⟩
    have := le_min (not_lt.mp hyo) hyi
    linarith [hby.1]
  have iB : (¬ Y < T ∧ Y > T + sy) → (¬ yo < T ∧ yo > T + sy) := by
    rintro ⟨-, hY⟩
    have hyi : yi ≤ T + sy := by
      by_contra hc
      exact hB ⟨⟨fun h => by linarith, hY⟩, ⟨fun h => by linarith, not_le.mp hc⟩⟩
    have hyo : yo > T + sy := by
      by_contra hc
      have := max_le (not_lt.mp hc) hyi
      linarith [hby.2]
    exact ⟨fun h => by linarith, hyo⟩
  have aL := ite_le_ite _ _ iL
  have aR := ite_le_ite _ _ iR
  have aT := ite_le_ite _ _ iT
  have aB := ite_le_ite _ _ iB
  rcases hE with ⟨h1, -, h⟩ | ⟨h1, -, h⟩ | ⟨-, -, h1, -, h⟩ | ⟨-, -, h1, -, h⟩
  · have s := ite_lt_ite (yo < T) (Y < T) h1 (by rw [h]; exact lt_irrefl _)
    omega
  · have s := ite_lt_ite (¬ yo < T ∧ yo > T + sy) (¬ Y < T ∧ Y > T + sy)
      ⟨fun h' => by linarith, h1⟩ (by rw [h]; exact fun h' => lt_irrefl _ h'.2)
    omega
  · have s := ite_lt_ite (¬ xo < L ∧ xo > L + sx) (¬ X < L ∧ X > L + sx)
      ⟨fun h' => by linarith, h1⟩ (by rw [h]; exact fun h' => lt_irrefl _ h'.2)
    omega
  · have s := ite_lt_ite (xo < L) (X < L) h1 (by rw [h]; exact lt_irrefl _)
    omega

/-! ## Loop invariants -/

theorem tracked_step (w : ClippingWindow) (a1 b1 a2 b2 : ℚ) (s s' : ClipState)
    (hw : 0 ≤ w.rectangle.size.x) (hh : 0 ≤ w.rectangle.size.y)
    (hP : Consistent w s ∧
      (OnSegment a1 b1 a2 b2 s.x1 s.y1 ∨
        (0 < max w.rectangle.outlineThickness 0 ∧ s.code1 ≠ 0)) ∧
      (OnSegment a1 b1 a2 b2 s.x2 s.y2 ∨
        (0 < max w.rectangle.outlineThickness 0 ∧ s.code2 ≠ 0)))
    (h : clipStep w s = .replaced s') :
    Consistent w s' ∧
      (OnSegment a1 b1 a2 b2 s'.x1 s'.y1 ∨
        (0 < max w.rectangle.outlineThickness 0 ∧ s'.code1 ≠ 0)) ∧
      (OnSegment a1 b1 a2 b2 s'.x2 s'.y2 ∨
        (0 < max w.rectangle.outlineThickness 0 ∧ s'.code2 ≠ 0)) := by
  obtain ⟨hc, hg1, hg2⟩ := hP
  refine ⟨consistent_step w s s' hc h, ?_⟩
  obtain ⟨X, Y, lam, hX, hY, h' | h'⟩ := clipStep_replaced w s s' hw hh hc h
  · obtain ⟨-, hE, rfl⟩ := h'
    refine ⟨?_, hg2⟩
    by_cases he : 0 < max w.rectangle.outlineThickness 0
    · exact Or.inr ⟨he, edgeHit_code_ne_zero w _ _ _ _ X Y he hE⟩
    · have he0 : max w.rectangle.outlineThickness 0 = 0 :=
        le_antisymm (not_lt.mp he) (le_max_right _ _)
      obtain ⟨hl0, hl1⟩ := edgeHit_lam_bounds w s _ _ _ _ X Y lam
        (Or.inl ⟨rfl, rfl, rfl, rfl⟩) he0 hE hX hY
      have o1 : OnSegment a1 b1 a2 b2 s.x1 s.y1 := hg1.resolve_right (fun h => he h.1)
      have o2 : OnSegment a1 b1 a2 b2 s.x2 s.y2 := hg2.resolve_right (fun h => he h.1)
      left
      show OnSegment a1 b1 a2 b2 X Y
      rw [hX, hY]
      exact onSegment_lerp _ _ _ _ _ _ _ _ lam o1 o2 hl0 hl1
  · obtain ⟨-, -, hE, rfl⟩ := h'
    refine ⟨hg1, ?_⟩
    by_cases he : 0 < max w.rectangle.outlineThickness 0
    · exact Or.inr ⟨he, edgeHit_code_ne_zero w _ _ _ _ X Y he hE⟩
    · have he0 : max w.rectangle.outlineThickness 0 = 0 :=
        le_antisymm (not_lt.mp he) (le_max_right _ _)
      obtain ⟨hl0, hl1⟩ := edgeHit_lam_bounds w s _ _ _ _ X Y lam
        (Or.inr ⟨rfl, rfl, rfl, rfl⟩) he0 hE hX hY
      have o1 : OnSegment a1 b1 a2 b2 s.x1 s.y1 := hg1.resolve_right (fun h => he h.1)
      have o2 : OnSegment a1 b1 a2 b2 s.x2 s.y2 := hg2.resolve_right (fun h => he h.1)
      left
      show OnSegment a1 b1 a2 b2 X Y
      rw [hX, hY]
      exact onSegment_lerp _ _ _ _ _ _ _ _ lam o1 o2 hl0 hl1

theorem moved_step (w : ClippingWindow) (a1 b1 a2 b2 : ℚ) (s s' : ClipState)
    (hw : 0 ≤ w.rectangle.size.x) (hh : 0 ≤ w.rectangle.size.y)
    (hP : Consistent w s ∧
      ((s.x1 = a1 ∧ s.y1 = b1) ∨ (w.getPointCode a1 b1 ≠ 0 ∧
        ((0 < max w.rectangle.outlineThickness 0 ∧ s.code1 ≠ 0) ∨
          (s.x1 = w.rectangle.position.x ∨
            s.x1 = w.rectangle.position.x + w.rectangle.size.x ∨
            s.y1 = w.rectangle.position.y ∨
            s.y1 = w.rectangle.position.y + w.rectangle.size.y)))) ∧
      ((s.x2 = a2 ∧ s.y2 = b2) ∨ (w.getPointCode a2 b2 ≠ 0 ∧
        ((0 < max w.rectangle.outlineThickness 0 ∧ s.code2 ≠ 0) ∨
          (s.x2 = w.rectangle.position.x ∨
            s.x2 = w.rectangle.position.x + w.rectangle.size.x ∨
            s.y2 = w.rectangle.position.y ∨
            s.y2 = w.rectangle.position.y + w.rectangle.size.y)))))
    (h : clipStep w s = .replaced s') :
    Consistent w s' ∧
      ((s'.x1 = a1 ∧ s'.y1 = b1) ∨ (w.getPointCode a1 b1 ≠ 0 ∧
        ((0 < max w.rectangle.outlineThickness 0 ∧ s'.code1 ≠ 0) ∨
          (s'.x1 = w.rectangle.position.x ∨
            s'.x1 = w.rectangle.position.x + w.rectangle.size.x ∨
            s'.y1 = w.rectangle.position.y ∨
            s'.y1 = w.rectangle.position.y + w.rectangle.size.y)))) ∧
      ((s'.x2 = a2 ∧ s'.y2 = b2) ∨ (w.getPointCode a2 b2 ≠ 0 ∧
        ((0 < max w.rectangle.outlineThickness 0 ∧ s'.code2 ≠ 0) ∨
          (s'.x2 = w.rectangle.position.x ∨
            s'.x2 = w.rectangle.position.x + w.rectangle.size.x ∨
            s'.y2 = w.rectangle.position.y ∨
            s'.y2 = w.rectangle.position.y + w.rectangle.size.y)))) := by
  obtain ⟨hc, hg1, hg2⟩ := hP
  refine ⟨consistent_step w s s' hc h, ?_⟩
  obtain ⟨X, Y, lam, -, -, h' | h'⟩ := clipStep_replaced w s s' hw hh hc h
  · obtain ⟨hne, hE, rfl⟩ := h'
    refine ⟨Or.inr ⟨?_, ?_⟩, hg2⟩
    · rcases hg1 with ⟨e1, e2⟩ | hg1
      · rw [← e1, ← e2, ← hc.1]; exact hne
      · exact hg1.1
    · by_cases he : 0 < max w.rectangle.outlineThickness 0
      · exact Or.inl ⟨he, edgeHit_code_ne_zero w _ _ _ _ X Y he hE⟩
      · exact Or.inr (edgeHit_on_boundary w _ _ _ _ X Y
          (le_antisymm (not_lt.mp he) (le_max_right _ _)) hE)
  · obtain ⟨-, hne, hE, rfl⟩ := h'
    refine ⟨hg1, Or.inr ⟨?_, ?_⟩⟩
    · rcases hg2 with ⟨e1, e2⟩ | hg2
      · rw [← e1, ← e2, ← hc.2]; exact hne
      · exact hg2.1
    · by_cases he : 0 < max w.rectangle.outlineThickness 0
      · exact Or.inl ⟨he, edgeHit_code_ne_zero w _ _ _ _ X Y he hE⟩
      · exact Or.inr (edgeHit_on_boundary w _ _ _ _ X Y
          (le_antisymm (not_lt.mp he) (le_max_right _ _)) hE)

theorem covers_step (w : ClippingWindow) (a1 b1 a2 b2 : ℚ) (s s' : ClipState)
    (hw : 0 ≤ w.rectangle.size.x) (hh : 0 ≤ w.rectangle.size.y)
    (hP : Consistent w s ∧ ∀ qx qy, OnSegment a1 b1 a2 b2 qx qy → w.getPointCode qx qy = 0 →
      OnSegment s.x1 s.y1 s.x2 s.y2 qx qy)
    (h : clipStep w s = .replaced s') :
    Consistent w s' ∧ ∀ qx qy, OnSegment a1 b1 a2 b2 qx qy → w.getPointCode qx qy = 0 →
      OnSegment s'.x1 s'.y1 s'.x2 s'.y2 qx qy := by
  obtain ⟨hc, hcov⟩ := hP
  refine ⟨consistent_step w s s' hc h, ?_⟩
  intro qx qy hq0 hq
  obtain ⟨tau, ht0, ht1, rfl, rfl⟩ := hcov qx qy hq0 hq
  obtain ⟨X, Y, lam, hX, hY, h' | h'⟩ := clipStep_replaced w s s' hw hh hc h
  · obtain ⟨-, hE, rfl⟩ := h'
    have hl := edgeHit_keeps_inside_first w _ _ _ _ X Y lam tau hE hX hY hq
    show OnSegment X Y s.x2 s.y2 _ _
    rw [hX, hY]
    exact onSegment_shrink_first _ _ _ _ lam tau hl ht1
  · obtain ⟨-, -, hE, rfl⟩ := h'
    have hl := edgeHit_keeps_inside_second w _ _ _ _ X Y lam tau hE hX hY hq
    show OnSegment s.x1 s.y1 X Y _ _
    rw [hX, hY]
    exact onSegment_shrink_second _ _ _ _ lam tau ht0 hl

/-- When `getBounds()` is the region itself, a refine step either leads to a
rejection on the next test or lowers the number of outside bits. -/
theorem clipStep_progress (w : ClippingWindow) (s s' : ClipState)
    (hw : 0 ≤ w.rectangle.size.x) (hh : 0 ≤ w.rectangle.size.y)
    (he : max w.rectangle.outlineThickness 0 = 0) (hc : Consistent w s)
    (h : clipStep w s = .replaced s') :
    s'.code1 &&& s'.code2 ≠ 0 ∨
      outsideBits s'.code1 + outsideBits s'.code2 < outsideBits s.code1 + outsideBits s.code2 := by
  obtain ⟨X, Y, lam, hX, hY, h' | h'⟩ := clipStep_replaced w s s' hw hh hc h
  · obtain ⟨-, hE, rfl⟩ := h'
    obtain ⟨hl0, hl1⟩ := edgeHit_lam_bounds w s _ _ _ _ X Y lam
      (Or.inl ⟨rfl, rfl, rfl, rfl⟩) he hE hX hY
    have hbx : min s.x1 s.x2 ≤ X ∧ X ≤ max s.x1 s.x2 :=
      hX ▸ ⟨min_le_lerp _ _ lam hl0 hl1, lerp_le_max _ _ lam hl0 hl1⟩
    have hby : min s.y1 s.y2 ≤ Y ∧ Y ≤ max s.y1 s.y2 :=
      hY ▸ ⟨min_le_lerp _ _ lam hl0 hl1, lerp_le_max _ _ lam hl0 hl1⟩
    show w.getPointCode X Y &&& s.code2 ≠ 0 ∨
      outsideBits (w.getPointCode X Y) + outsideBits s.code2 <
        outsideBits s.code1 + outsideBits s.code2
    rw [hc.1, hc.2]
    rcases edgeHit_progress w _ _ _ _ X Y hw hh he hE hbx hby with hp | hp
    · exact Or.inl hp
    · exact Or.inr (Nat.add_lt_add_right hp _)
  · obtain ⟨-, -, hE, rfl⟩ := h'
    obtain ⟨hl0, hl1⟩ := edgeHit_lam_bounds w s _ _ _ _ X Y lam
      (Or.inr ⟨rfl, rfl, rfl, rfl⟩) he hE hX hY
    have hbx : min s.x2 s.x1 ≤ X ∧ X ≤ max s.x2 s.x1 := by
      rw [min_comm, max_comm]
      exact hX ▸ ⟨min_le_lerp _ _ lam hl0 hl1, lerp_le_max _ _ lam hl0 hl1⟩
    have hby : min s.y2 s.y1 ≤ Y ∧ Y ≤ max s.y2 s.y1 := by
      rw [min_comm, max_comm]
      exact hY ▸ ⟨min_le_lerp _ _ lam hl0 hl1, lerp_le_max _ _ lam hl0 hl1⟩
    show s.code1 &&& w.getPointCode X Y ≠ 0 ∨
      outsideBits s.code1 + outsideBits (w.getPointCode X Y) <
        outsideBits s.code1 + outsideBits s.code2
    rw [hc.1, hc.2]
    rcases edgeHit_progress w _ _ _ _ X Y hw hh he hE hbx hby with hp | hp
    · exact Or.inl (by rw [Nat.land_comm]; exact hp)
    · exact Or.inr (Nat.add_lt_add_left hp _)

/-- When `getBounds()` is the region itself, the loop returns within as many refine
steps as the two outcodes have outside bits. -/
theorem clipLoop_terminates (w : ClippingWindow)
    (hw : 0 ≤ w.rectangle.size.x) (hh : 0 ≤ w.rectangle.size.y)
    (he : max w.rectangle.outlineThickness 0 = 0) :
    ∀ (k : Nat) (s : ClipState), Consistent w s →
      outsideBits s.code1 + outsideBits s.code2 ≤ k →
      ∃ acc a b c d, clipLoop w k s = .done acc a b c d := by
  intro k
  induction k with
  | zero =>
    intro s hc hk
    have h1 : s.code1 = 0 := by
      rw [hc.1]; apply outsideBits_eq_zero; rw [← hc.1]; omega
    have h2 : s.code2 = 0 := by
      rw [hc.2]; apply outsideBits_eq_zero; rw [← hc.2]; omega
    exact ⟨true, _, _, _, _, clipLoop_of_accept w 0 s ((clipStep_accept_iff w s).mpr ⟨h1, h2⟩)⟩
  | succ k ih =>
    intro s hc hk
    cases hs : clipStep w s with
    | accept => exact ⟨true, _, _, _, _, clipLoop_of_accept w _ s hs⟩
    | reject => exact ⟨false, _, _, _, _, clipLoop_of_reject w _ s hs⟩
    | divByZero => exact absurd hs (clipStep_ne_divByZero w s hw hh hc)
    | replaced s1 =>
      rw [clipLoop_of_replaced w k s s1 hs]
      have hc1 := consistent_step w s s1 hc hs
      rcases clipStep_progress w s s1 hw hh he hc hs with hp | hp
      · have hrej : clipStep w s1 = .reject := by
          rw [clipStep_reject_iff]
          refine ⟨fun h0 => hp ?_, hp⟩
          rw [((lor_eq_zero _ _).mp h0).1]
          exact Nat.zero_and _
        exact ⟨false, _, _, _, _, clipLoop_of_reject w _ s1 hrej⟩
      · exact ih s1 hc1 (by omega)

/-- C2: for a region with non-negative width and height, when
`cohenSutherlandClip` returns `true`, each returned endpoint has outcode 0
(it lies in the region, bounds included) and is a convex combination
`p1 + t * (p2 - p1)`, `0 ≤ t ≤ 1`, of the endpoints passed in. -/
theorem cohenSutherlandClip_accept_sound (n : Nat) (w : ClippingWindow)
    (x1 y1 x2 y2 a b c d : ℚ)
    (hw : 0 ≤ w.rectangle.size.x) (hh : 0 ≤ w.rectangle.size.y)
    (h : cohenSutherlandClip n w x1 y1 x2 y2 = .done true a b c d) :
    (w.getPointCode a b = 0 ∧ w.getPointCode c d = 0) ∧
      (w.rectangle.position.x ≤ a ∧ a ≤ w.rectangle.position.x + w.rectangle.size.x ∧
        w.rectangle.position.y ≤ b ∧ b ≤ w.rectangle.position.y + w.rectangle.size.y) ∧
      (w.rectangle.position.x ≤ c ∧ c ≤ w.rectangle.position.x + w.rectangle.size.x ∧
        w.rectangle.position.y ≤ d ∧ d ≤ w.rectangle.position.y + w.rectangle.size.y) ∧
      OnSegment x1 y1 x2 y2 a b ∧ OnSegment x1 y1 x2 y2 c d := by
  obtain ⟨sf, ⟨hc, hg1, hg2⟩, rfl, rfl, rfl, rfl, hacc⟩ :=
    clipLoop_done w
      (fun s => Consistent w s ∧
        (OnSegment x1 y1 x2 y2 s.x1 s.y1 ∨
          (0 < max w.rectangle.outlineThickness 0 ∧ s.code1 ≠ 0)) ∧
        (OnSegment x1 y1 x2 y2 s.x2 s.y2 ∨
          (0 < max w.rectangle.outlineThickness 0 ∧ s.code2 ≠ 0)))
      (fun s s' hP hs => tracked_step w x1 y1 x2 y2 s s' hw hh hP hs)
      n (initState w x1 y1 x2 y2)
      ⟨consistent_initState w x1 y1 x2 y2, Or.inl (onSegment_first _ _ _ _),
        Or.inl (onSegment_second _ _ _ _)⟩
      true a b c d h
  simp only [if_true] at hacc
  obtain ⟨h1, h2⟩ := (clipStep_accept_iff w sf).mp hacc
  have k1 : w.getPointCode sf.x1 sf.y1 = 0 := hc.1 ▸ h1
  have k2 : w.getPointCode sf.x2 sf.y2 = 0 := hc.2 ▸ h2
  refine ⟨⟨k1, k2⟩, ?_, ?_, hg1.resolve_right (fun h => h.2 h1),
    hg2.resolve_right (fun h => h.2 h2)⟩
  · simpa only [not_lt, gt_iff_lt] using (getPointCode_eq_zero w _ _).mp k1
  · simpa only [not_lt, gt_iff_lt] using (getPointCode_eq_zero w _ _).mp k2

/-- The region of `main` accepts the segment (300, 200) → (500, 400), and the
returned endpoints lie on it. -/
theorem cohenSutherlandClip_accept_sound_witness :
    (0 : ℚ) ≤ clipWindow.rectangle.size.x ∧ (0 : ℚ) ≤ clipWindow.rectangle.size.y ∧
      cohenSutherlandClip 4 clipWindow 300 200 500 400 = .done true 300 200 500 400 ∧
      OnSegment 300 200 500 400 300 200 ∧ OnSegment 300 200 500 400 500 400 := by
  have hw : (0 : ℚ) ≤ clipWindow.rectangle.size.x := by
    norm_num [clipWindow, ClippingWindow.new]
  have hh : (0 : ℚ) ≤ clipWindow.rectangle.size.y := by
    norm_num [clipWindow, ClippingWindow.new]
  have hrun : cohenSutherlandClip 4 clipWindow 300 200 500 400 = .done true 300 200 500 400 := by
    norm_num +decide [cohenSutherlandClip, clipLoop, clipStep, initState, clipWindow,
      ClippingWindow.new, ClippingWindow.getPointCode, INSIDE, LEFT, RIGHT, TOP, BOTTOM]
  exact ⟨hw, hh, hrun,
    (cohenSutherlandClip_accept_sound 4 clipWindow 300 200 500 400 300 200 500 400
      hw hh hrun).2.2.2⟩

/-- When `cohenSutherlandClip` returns `true`, an endpoint whose outcode was
0 is returned as passed in, and an endpoint whose outcode was not 0 is returned
as a point of outcode 0 on one of the four lines `x = left`, `x = right`,
`y = top`, `y = bottom` (region of non-negative width and height). -/
theorem cohenSutherlandClip_accept_endpoints (n : Nat) (w : ClippingWindow)
    (x1 y1 x2 y2 a b c d : ℚ)
    (hw : 0 ≤ w.rectangle.size.x) (hh : 0 ≤ w.rectangle.size.y)
    (h : cohenSutherlandClip n w x1 y1 x2 y2 = .done true a b c d) :
    ((w.getPointCode x1 y1 = 0 ∧ a = x1 ∧ b = y1) ∨
      (w.getPointCode x1 y1 ≠ 0 ∧ w.getPointCode a b = 0 ∧
        (a = w.rectangle.position.x ∨ a = w.rectangle.position.x + w.rectangle.size.x ∨
          b = w.rectangle.position.y ∨ b = w.rectangle.position.y + w.rectangle.size.y))) ∧
    ((w.getPointCode x2 y2 = 0 ∧ c = x2 ∧ d = y2) ∨
      (w.getPointCode x2 y2 ≠ 0 ∧ w.getPointCode c d = 0 ∧
        (c = w.rectangle.position.x ∨ c = w.rectangle.position.x + w.rectangle.size.x ∨
          d = w.rectangle.position.y ∨ d = w.rectangle.position.y + w.rectangle.size.y))) := by
  obtain ⟨sf, ⟨hc, hg1, hg2⟩, rfl, rfl, rfl, rfl, hacc⟩ :=
    clipLoop_done w _ (fun s s' hP hs => moved_step w x1 y1 x2 y2 s s' hw hh hP hs)
      n (initState w x1 y1 x2 y2)
      ⟨consistent_initState w x1 y1 x2 y2, Or.inl ⟨rfl, rfl⟩, Or.inl ⟨rfl, rfl⟩⟩
      true a b c d h
  simp only [if_true] at hacc
  obtain ⟨h1, h2⟩ := (clipStep_accept_iff w sf).mp hacc
  have k1 : w.getPointCode sf.x1 sf.y1 = 0 := hc.1 ▸ h1
  have k2 : w.getPointCode sf.x2 sf.y2 = 0 := hc.2 ▸ h2
  constructor
  · rcases hg1 with ⟨e1, e2⟩ | ⟨hne, hb⟩
    · left; exact ⟨by rw [← e1, ← e2]; exact k1, e1, e2⟩
    · right; exact ⟨hne, k1, hb.resolve_left (fun h => h.2 h1)⟩
  · rcases hg2 with ⟨e1, e2⟩ | ⟨hne, hb⟩
    · left; exact ⟨by rw [← e1, ← e2]; exact k2, e1, e2⟩
    · right; exact ⟨hne, k2, hb.resolve_left (fun h => h.2 h2)⟩

/-- With the outline that the constructor sets (any positive thickness), a
refine step never produces a point of outcode 0, so `cohenSutherlandClip`
returns `true` only for a segment whose two endpoints already have outcode 0,
and then returns them as passed in: no segment is ever returned trimmed. -/
theorem cohenSutherlandClip_true_only_untrimmed (n : Nat) (w : ClippingWindow)
    (x1 y1 x2 y2 a b c d : ℚ)
    (hw : 0 ≤ w.rectangle.size.x) (hh : 0 ≤ w.rectangle.size.y)
    (ht : 0 < w.rectangle.outlineThickness)
    (h : cohenSutherlandClip n w x1 y1 x2 y2 = .done true a b c d) :
    w.getPointCode x1 y1 = 0 ∧ w.getPointCode x2 y2 = 0 ∧
      a = x1 ∧ b = y1 ∧ c = x2 ∧ d = y2 := by
  have he : 0 < max w.rectangle.outlineThickness 0 := lt_max_of_lt_left ht
  obtain ⟨sf, ⟨hc, hg1, hg2⟩, rfl, rfl, rfl, rfl, hacc⟩ :=
    clipLoop_done w
      (fun s => Consistent w s ∧ ((s.x1 = x1 ∧ s.y1 = y1) ∨ s.code1 ≠ 0) ∧
        ((s.x2 = x2 ∧ s.y2 = y2) ∨ s.code2 ≠ 0))
      (fun s s' hP hs => by
        obtain ⟨hc, hg1, hg2⟩ := hP
        refine ⟨consistent_step w s s' hc hs, ?_⟩
        obtain ⟨X, Y, lam, -, -, h' | h'⟩ := clipStep_replaced w s s' hw hh hc hs
        · obtain ⟨-, hE, rfl⟩ := h'
          exact ⟨Or.inr (edgeHit_code_ne_zero w _ _ _ _ X Y he hE), hg2⟩
        · obtain ⟨-, -, hE, rfl⟩ := h'
          exact ⟨hg1, Or.inr (edgeHit_code_ne_zero w _ _ _ _ X Y he hE)⟩)
      n (initState w x1 y1 x2 y2)
      ⟨consistent_initState w x1 y1 x2 y2, Or.inl ⟨rfl, rfl⟩, Or.inl ⟨rfl, rfl⟩⟩
      true a b c d h
  simp only [if_true] at hacc
  obtain ⟨h1, h2⟩ := (clipStep_accept_iff w sf).mp hacc
  obtain ⟨e1, e2⟩ := hg1.resolve_right (fun h => h h1)
  obtain ⟨e3, e4⟩ := hg2.resolve_right (fun h => h h2)
  refine ⟨?_, ?_, e1, e2, e3, e4⟩
  · rw [← e1, ← e2, ← hc.1]; exact h1
  · rw [← e3, ← e4, ← hc.2]; exact h2

/-! ## Rejection -/

/-- A rejection is sound: when `cohenSutherlandClip` returns `false` for a
region of non-negative width and height, no point of the segment passed in
has outcode 0. -/
theorem cohenSutherlandClip_reject_sound (n : Nat) (w : ClippingWindow)
    (x1 y1 x2 y2 a b c d : ℚ)
    (hw : 0 ≤ w.rectangle.size.x) (hh : 0 ≤ w.rectangle.size.y)
    (h : cohenSutherlandClip n w x1 y1 x2 y2 = .done false a b c d) :
    ∀ qx qy, OnSegment x1 y1 x2 y2 qx qy → w.getPointCode qx qy ≠ 0 := by
  obtain ⟨sf, ⟨hc, hcov⟩, -, -, -, -, hrej⟩ :=
    clipLoop_done w _ (fun s s' hP hs => covers_step w x1 y1 x2 y2 s s' hw hh hP hs)
      n (initState w x1 y1 x2 y2)
      ⟨consistent_initState w x1 y1 x2 y2, fun qx qy hq _ => hq⟩
      false a b c d h
  simp only [Bool.false_eq_true, if_false] at hrej
  obtain ⟨-, hand⟩ := (clipStep_reject_iff w sf).mp hrej
  rw [hc.1, hc.2] at hand
  intro qx qy hq hq0
  exact shared_side_outside w _ _ _ _ qx qy hand (hcov qx qy hq hq0) hq0

/-- C3, at a failing input: the segment (100, 500) → (700, 100) of `main`
passes through (400, 300), which has outcode 0 in the region of `main`, yet
the call does not return `true`: the first endpoint is moved to (172, 452),
below the region, and the loop repeats that step for ever. -/
theorem cohenSutherlandClip_line2_never_returns :
    OnSegment 100 500 700 100 400 300 ∧ clipWindow.getPointCode 400 300 = 0 ∧
      ∀ n, cohenSutherlandClip n clipWindow 100 500 700 100 = .outOfFuel := by
  have h0 : clipStep clipWindow (initState clipWindow 100 500 700 100) =
      .replaced ⟨172, 452, 700, 100, 5, 10⟩ := by
    norm_num +decide [clipStep, initState, intersection, clipWindow, ClippingWindow.new,
      ClippingWindow.getPointCode, ClippingWindow.getBounds, RectangleShape.getGlobalBounds,
      INSIDE, LEFT, RIGHT, TOP, BOTTOM]
  have h1 : clipStep clipWindow ⟨172, 452, 700, 100, 5, 10⟩ =
      .replaced ⟨172, 452, 700, 100, 5, 10⟩ := by
    norm_num +decide [clipStep, intersection, clipWindow, ClippingWindow.new,
      ClippingWindow.getPointCode, ClippingWindow.getBounds, RectangleShape.getGlobalBounds,
      INSIDE, LEFT, RIGHT, TOP, BOTTOM]
  refine ⟨⟨1 / 2, by norm_num, by norm_num, by norm_num, by norm_num⟩, ?_,
    clipLoop_then_fixed clipWindow _ _ h0 h1⟩
  norm_num [clipWindow, ClippingWindow.new, ClippingWindow.getPointCode, INSIDE]

/-! ## The first segment of `main` -/

/-- C4, at its own example: for the region of `main` (origin (200, 150),
size (400, 300)) and the segment (100, 100) → (700, 500), the first refine
step moves the first endpoint to (172, 148), on the top line of `getBounds()`
and not of the region; that point is still LEFT | TOP, every later pass
recomputes the same point, and the call never returns, whatever number of
refine steps is allowed. -/
theorem cohenSutherlandClip_line1_never_returns :
    clipStep clipWindow (initState clipWindow 100 100 700 500) =
        .replaced ⟨172, 148, 700, 500, 9, 6⟩ ∧
      clipStep clipWindow ⟨172, 148, 700, 500, 9, 6⟩ = .replaced ⟨172, 148, 700, 500, 9, 6⟩ ∧
      ∀ n, cohenSutherlandClip n clipWindow 100 100 700 500 = .outOfFuel := by
  have h0 : clipStep clipWindow (initState clipWindow 100 100 700 500) =
      .replaced ⟨172, 148, 700, 500, 9, 6⟩ := by
    norm_num +decide [clipStep, initState, intersection, clipWindow, ClippingWindow.new,
      ClippingWindow.getPointCode, ClippingWindow.getBounds, RectangleShape.getGlobalBounds,
      INSIDE, LEFT, RIGHT, TOP, BOTTOM]
  have h1 : clipStep clipWindow ⟨172, 148, 700, 500, 9, 6⟩ =
      .replaced ⟨172, 148, 700, 500, 9, 6⟩ := by
    norm_num +decide [clipStep, intersection, clipWindow, ClippingWindow.new,
      ClippingWindow.getPointCode, ClippingWindow.getBounds, RectangleShape.getGlobalBounds,
      INSIDE, LEFT, RIGHT, TOP, BOTTOM]
  exact ⟨h0, h1, clipLoop_then_fixed clipWindow _ _ h0 h1⟩

/-! ## Trivial accept and trivial reject -/

/-- C5: when both endpoints have outcode 0, `cohenSutherlandClip` returns
`true` and leaves `x1`, `y1`, `x2`, `y2` as passed in, and it does so on the
first loop test (no refine step is needed). -/
theorem cohenSutherlandClip_both_inside (n : Nat) (w : ClippingWindow) (x1 y1 x2 y2 : ℚ)
    (h1 : w.getPointCode x1 y1 = 0) (h2 : w.getPointCode x2 y2 = 0) :
    cohenSutherlandClip n w x1 y1 x2 y2 = .done true x1 y1 x2 y2 ∧
      clipStep w (initState w x1 y1 x2 y2) = .accept :=
  ⟨cohenSutherlandClip_of_inside n w x1 y1 x2 y2 h1 h2,
    (clipStep_accept_iff w _).mpr ⟨h1, h2⟩⟩

/-- The region of `main` accepts (300, 200) → (600, 450) without a refine step;
the second endpoint is the lower right corner of the region. -/
theorem cohenSutherlandClip_both_inside_witness :
    clipWindow.getPointCode 300 200 = 0 ∧ clipWindow.getPointCode 600 450 = 0 ∧
      cohenSutherlandClip 0 clipWindow 300 200 600 450 = .done true 300 200 600 450 := by
  have h1 : clipWindow.getPointCode 300 200 = 0 := by
    norm_num [clipWindow, ClippingWindow.new, ClippingWindow.getPointCode, INSIDE]
  have h2 : clipWindow.getPointCode 600 450 = 0 := by
    norm_num [clipWindow, ClippingWindow.new, ClippingWindow.getPointCode, INSIDE]
  exact ⟨h1, h2, (cohenSutherlandClip_both_inside 0 clipWindow 300 200 600 450 h1 h2).1⟩

/-- C6, as amended: for a region with non-negative width and height and a
segment whose two endpoints lie beyond the same side (both `x < left`, both
`x > right`, both `y < top` or both `y > bottom`), the first loop test rejects
and `cohenSutherlandClip` returns `false` with the four coordinates unchanged,
whatever number of refine steps is allowed (none is taken). -/
theorem cohenSutherlandClip_same_side (n : Nat) (w : ClippingWindow) (x1 y1 x2 y2 : ℚ)
    (hw : 0 ≤ w.rectangle.size.x) (hh : 0 ≤ w.rectangle.size.y)
    (h : (x1 < w.rectangle.position.x ∧ x2 < w.rectangle.position.x) ∨
      (x1 > w.rectangle.position.x + w.rectangle.size.x ∧
        x2 > w.rectangle.position.x + w.rectangle.size.x) ∨
      (y1 < w.rectangle.position.y ∧ y2 < w.rectangle.position.y) ∨
      (y1 > w.rectangle.position.y + w.rectangle.size.y ∧
        y2 > w.rectangle.position.y + w.rectangle.size.y)) :
    clipStep w (initState w x1 y1 x2 y2) = .reject ∧
      cohenSutherlandClip n w x1 y1 x2 y2 = .done false x1 y1 x2 y2 :=
  ⟨clipStep_same_side w x1 y1 x2 y2 hw hh h,
    clipLoop_of_reject w n (initState w x1 y1 x2 y2) (clipStep_same_side w x1 y1 x2 y2 hw hh h)⟩

/-- The example of the specification: the region of `main` rejects
(50, 300) → (195, 300), which lies to the left of it, without a refine step. -/
theorem cohenSutherlandClip_same_side_witness :
    (0 : ℚ) ≤ clipWindow.rectangle.size.x ∧ (0 : ℚ) ≤ clipWindow.rectangle.size.y ∧
      ((50 : ℚ) < clipWindow.rectangle.position.x ∧ (195 : ℚ) < clipWindow.rectangle.position.x) ∧
      cohenSutherlandClip 0 clipWindow 50 300 195 300 = .done false 50 300 195 300 := by
  have hw : (0 : ℚ) ≤ clipWindow.rectangle.size.x := by
    norm_num [clipWindow, ClippingWindow.new]
  have hh : (0 : ℚ) ≤ clipWindow.rectangle.size.y := by
    norm_num [clipWindow, ClippingWindow.new]
  have hs : (50 : ℚ) < clipWindow.rectangle.position.x ∧
      (195 : ℚ) < clipWindow.rectangle.position.x := by
    norm_num [clipWindow, ClippingWindow.new]
  exact ⟨hw, hh, hs,
    (cohenSutherlandClip_same_side 0 clipWindow 50 300 195 300 hw hh (Or.inl hs)).2⟩

/-- C6 as stated fails for a region of negative width: in the region with
origin (0, 0) and size (-10, 10), so that right = -10 < left = 0, both
endpoints of (-5, 5) → (5, 5) have `x > right`, yet their outcodes are LEFT and
RIGHT, the first loop test does not reject and a refine step is needed. -/
theorem cohenSutherlandClip_same_side_negative_width :
    ((-5 : ℚ) > (ClippingWindow.new 0 0 (-10) 10).rectangle.position.x +
        (ClippingWindow.new 0 0 (-10) 10).rectangle.size.x ∧
      (5 : ℚ) > (ClippingWindow.new 0 0 (-10) 10).rectangle.position.x +
        (ClippingWindow.new 0 0 (-10) 10).rectangle.size.x) ∧
      (ClippingWindow.new 0 0 (-10) 10).getPointCode (-5) 5 = LEFT ∧
      (ClippingWindow.new 0 0 (-10) 10).getPointCode 5 5 = RIGHT ∧
      clipStep (ClippingWindow.new 0 0 (-10) 10)
        (initState (ClippingWindow.new 0 0 (-10) 10) (-5) 5 5 5) ≠ .reject ∧
      cohenSutherlandClip 0 (ClippingWindow.new 0 0 (-10) 10) (-5) 5 5 5 = .outOfFuel := by
  refine ⟨?_, ?_, ?_, ?_, ?_⟩
  · norm_num [ClippingWindow.new]
  · norm_num +decide [ClippingWindow.new, ClippingWindow.getPointCode, INSIDE, LEFT, RIGHT,
      TOP, BOTTOM]
  · norm_num +decide [ClippingWindow.new, ClippingWindow.getPointCode, INSIDE, LEFT, RIGHT,
      TOP, BOTTOM]
  · rw [Ne, clipStep_reject_iff]
    norm_num +decide [initState, ClippingWindow.new, ClippingWindow.getPointCode, INSIDE, LEFT,
      RIGHT, TOP, BOTTOM]
  · norm_num +decide [cohenSutherlandClip, clipLoop, clipStep, initState, intersection,
      ClippingWindow.new, ClippingWindow.getPointCode, ClippingWindow.getBounds,
      RectangleShape.getGlobalBounds, INSIDE, LEFT, RIGHT, TOP, BOTTOM]

/-! ## Idempotence -/

/-- C7: clipping is idempotent on accepted results: when
`cohenSutherlandClip` returns `true` with endpoints `(a, b)` and `(c, d)`,
clipping that segment against the same region returns `true` with the same
endpoints, already on the first loop test. -/
theorem cohenSutherlandClip_idempotent (n m : Nat) (w : ClippingWindow)
    (x1 y1 x2 y2 a b c d : ℚ)
    (h : cohenSutherlandClip n w x1 y1 x2 y2 = .done true a b c d) :
    cohenSutherlandClip m w a b c d = .done true a b c d := by
  obtain ⟨sf, hc, rfl, rfl, rfl, rfl, hacc⟩ :=
    clipLoop_done w (Consistent w) (fun s s' hP hs => consistent_step w s s' hP hs)
      n (initState w x1 y1 x2 y2) (consistent_initState w x1 y1 x2 y2) true a b c d h
  simp only [if_true] at hacc
  obtain ⟨h1, h2⟩ := (clipStep_accept_iff w sf).mp hacc
  exact cohenSutherlandClip_of_inside m w _ _ _ _ (hc.1 ▸ h1) (hc.2 ▸ h2)

/-- An accepted segment of the region of `main` is accepted again, unchanged. -/
theorem cohenSutherlandClip_idempotent_witness :
    cohenSutherlandClip 4 clipWindow 250 160 590 440 = .done true 250 160 590 440 ∧
      cohenSutherlandClip 0 clipWindow 250 160 590 440 = .done true 250 160 590 440 := by
  have hrun : cohenSutherlandClip 4 clipWindow 250 160 590 440 = .done true 250 160 590 440 := by
    norm_num +decide [cohenSutherlandClip, clipLoop, clipStep, initState, clipWindow,
      ClippingWindow.new, ClippingWindow.getPointCode, INSIDE, LEFT, RIGHT, TOP, BOTTOM]
  exact ⟨hrun, cohenSutherlandClip_idempotent 4 0 clipWindow 250 160 590 440 250 160 590 440 hrun⟩

/-! ## The vertical and the horizontal segment of `main` -/

/-- C8, at its own example: for the region of `main` the vertical segment
(400, 50) → (400, 550) is not clipped to (400, 150) → (400, 450): the first
endpoint is moved to (400, 148), which is still above the region, and the call
never returns. -/
theorem cohenSutherlandClip_line3_never_returns :
    clipStep clipWindow (initState clipWindow 400 50 400 550) =
        .replaced ⟨400, 148, 400, 550, 8, 4⟩ ∧
      ∀ n, cohenSutherlandClip n clipWindow 400 50 400 550 = .outOfFuel := by
  have h0 : clipStep clipWindow (initState clipWindow 400 50 400 550) =
      .replaced ⟨400, 148, 400, 550, 8, 4⟩ := by
    norm_num +decide [clipStep, initState, intersection, clipWindow, ClippingWindow.new,
      ClippingWindow.getPointCode, ClippingWindow.getBounds, RectangleShape.getGlobalBounds,
      INSIDE, LEFT, RIGHT, TOP, BOTTOM]
  have h1 : clipStep clipWindow ⟨400, 148, 400, 550, 8, 4⟩ =
      .replaced ⟨400, 148, 400, 550, 8, 4⟩ := by
    norm_num +decide [clipStep, intersection, clipWindow, ClippingWindow.new,
      ClippingWindow.getPointCode, ClippingWindow.getBounds, RectangleShape.getGlobalBounds,
      INSIDE, LEFT, RIGHT, TOP, BOTTOM]
  exact ⟨h0, clipLoop_then_fixed clipWindow _ _ h0 h1⟩

/-- C9, at a failing input: for the region of `main` and the horizontal
segment (50, 300) → (750, 300) of `main`, the loop reaches neither the accept
nor the reject branch: after one refine step the first endpoint is (198, 300),
still LEFT of the region, and every further pass leaves the state as it is, so
no bound on the number of refine steps (four or any other) is enough. -/
theorem cohenSutherlandClip_line4_never_returns :
    clipStep clipWindow (initState clipWindow 50 300 750 300) =
        .replaced ⟨198, 300, 750, 300, 1, 2⟩ ∧
      clipStep clipWindow ⟨198, 300, 750, 300, 1, 2⟩ = .replaced ⟨198, 300, 750, 300, 1, 2⟩ ∧
      ∀ n, cohenSutherlandClip n clipWindow 50 300 750 300 = .outOfFuel := by
  have h0 : clipStep clipWindow (initState clipWindow 50 300 750 300) =
      .replaced ⟨198, 300, 750, 300, 1, 2⟩ := by
    norm_num +decide [clipStep, initState, intersection, clipWindow, ClippingWindow.new,
      ClippingWindow.getPointCode, ClippingWindow.getBounds, RectangleShape.getGlobalBounds,
      INSIDE, LEFT, RIGHT, TOP, BOTTOM]
  have h1 : clipStep clipWindow ⟨198, 300, 750, 300, 1, 2⟩ =
      .replaced ⟨198, 300, 750, 300, 1, 2⟩ := by
    norm_num +decide [clipStep, intersection, clipWindow, ClippingWindow.new,
      ClippingWindow.getPointCode, ClippingWindow.getBounds, RectangleShape.getGlobalBounds,
      INSIDE, LEFT, RIGHT, TOP, BOTTOM]
  exact ⟨h0, h1, clipLoop_then_fixed clipWindow _ _ h0 h1⟩

/-! ## The loop when `getBounds()` is the region itself -/

/-- Without an outline (thickness zero or negative), `getBounds()` is the
rectangle that `getPointCode` tests, every refine step that is not followed by
a rejection removes an outside bit, and the loop returns after at most four
refine steps. -/
theorem cohenSutherlandClip_terminates_without_outline (w : ClippingWindow)
    (x1 y1 x2 y2 : ℚ)
    (hw : 0 ≤ w.rectangle.size.x) (hh : 0 ≤ w.rectangle.size.y)
    (ht : w.rectangle.outlineThickness ≤ 0) :
    ∃ acc a b c d, cohenSutherlandClip 4 w x1 y1 x2 y2 = .done acc a b c d := by
  apply clipLoop_terminates w hw hh (max_eq_right ht) 4 _ (consistent_initState w x1 y1 x2 y2)
  have h1 := outsideBits_le_two w x1 y1
  have h2 := outsideBits_le_two w x2 y2
  simp only [initState]
  omega

/-- Without an outline, a segment that has a point of outcode 0 is accepted
within four refine steps. -/
theorem cohenSutherlandClip_complete_without_outline (w : ClippingWindow)
    (x1 y1 x2 y2 qx qy : ℚ)
    (hw : 0 ≤ w.rectangle.size.x) (hh : 0 ≤ w.rectangle.size.y)
    (ht : w.rectangle.outlineThickness ≤ 0)
    (hq : OnSegment x1 y1 x2 y2 qx qy) (hq0 : w.getPointCode qx qy = 0) :
    ∃ a b c d, cohenSutherlandClip 4 w x1 y1 x2 y2 = .done true a b c d := by
  obtain ⟨acc, a, b, c, d, h⟩ :=
    cohenSutherlandClip_terminates_without_outline w x1 y1 x2 y2 hw hh ht
  cases acc with
  | true => exact ⟨a, b, c, d, h⟩
  | false => exact absurd hq0 (cohenSutherlandClip_reject_sound 4 w x1 y1 x2 y2 a b c d hw hh h
      qx qy hq)

/-- Without an outline, a vertical segment `(c, y1) → (c, y2)` with
`left ≤ c ≤ right`, `y1 < top` and `y2 > bottom` is clipped to
`(c, top) → (c, bottom)` in two refine steps. -/
theorem cohenSutherlandClip_vertical_without_outline (w : ClippingWindow) (c y1 y2 : ℚ)
    (hw : 0 ≤ w.rectangle.size.x) (hh : 0 ≤ w.rectangle.size.y)
    (ht : w.rectangle.outlineThickness ≤ 0)
    (hc1 : w.rectangle.position.x ≤ c) (hc2 : c ≤ w.rectangle.position.x + w.rectangle.size.x)
    (h1 : y1 < w.rectangle.position.y)
    (h2 : y2 > w.rectangle.position.y + w.rectangle.size.y) :
    cohenSutherlandClip 2 w c y1 c y2 =
      .done true c w.rectangle.position.y c (w.rectangle.position.y + w.rectangle.size.y) := by
  have he : max w.rectangle.outlineThickness 0 = 0 := max_eq_right ht
  have k1 : w.getPointCode c y1 ≠ 0 := by
    rw [Ne, getPointCode_eq_zero]; exact fun h => h.2.2.1 h1
  have k2 : w.getPointCode c y2 ≠ 0 := by
    rw [Ne, getPointCode_eq_zero]; exact fun h => h.2.2.2 h2
  have kand : w.getPointCode c y1 &&& w.getPointCode c y2 = 0 := by
    rw [getPointCode_and_getPointCode]
    refine ⟨fun h => ?_, fun h => ?_, fun h => ?_, fun h => ?_⟩
    · linarith [h.1]
    · linarith [h.1.2]
    · linarith [h.2]
    · linarith [h.1.2]
  -- first pass: the upper endpoint is moved to the top edge
  obtain ⟨X, Y, lam, hX, hY, hE, hstep⟩ :=
    clipStep_of_outside_first w (initState w c y1 c y2) hw hh
      (consistent_initState w c y1 c y2) k1 kand
  simp only [initState, sub_self, mul_zero, add_zero] at hX hY hE hstep
  have hYT : Y = w.rectangle.position.y := by
    simp only [EdgeHit, he, sub_zero, add_zero] at hE
    rcases hE with ⟨-, -, h⟩ | ⟨h, -, -⟩ | ⟨h, -⟩ | ⟨h, -⟩
    · exact h
    · linarith
    · linarith
    · linarith
  subst hX
  rw [hYT] at hstep
  have k3 : w.getPointCode X w.rectangle.position.y = 0 := by
    rw [getPointCode_eq_zero]
    exact ⟨not_lt.mpr hc1, not_lt.mpr hc2, lt_irrefl _, not_lt.mpr (by linarith)⟩
  rw [k3] at hstep
  -- second pass: the lower endpoint is moved to the bottom edge
  obtain ⟨X', Y', lam', hX', hY', hE', hstep'⟩ :=
    clipStep_of_outside_second w
      ⟨X, w.rectangle.position.y, X, y2, 0, w.getPointCode X y2⟩ hw hh
      ⟨k3.symm, rfl⟩ rfl k2
  simp only [sub_self, mul_zero, add_zero] at hX' hY' hE' hstep'
  have hYB : Y' = w.rectangle.position.y + w.rectangle.size.y := by
    simp only [EdgeHit, he, sub_zero, add_zero] at hE'
    rcases hE' with ⟨h, -, -⟩ | ⟨-, -, h⟩ | ⟨-, h, -⟩ | ⟨-, h, -⟩
    · linarith
    · exact h
    · linarith
    · linarith
  subst hX'
  have k4 : w.getPointCode X' (w.rectangle.position.y + w.rectangle.size.y) = 0 := by
    rw [getPointCode_eq_zero]
    exact ⟨not_lt.mpr hc1, not_lt.mpr hc2, not_lt.mpr (by linarith), lt_irrefl _⟩
  rw [hYB, k4] at hstep'
  have hacc : clipStep w ⟨X', w.rectangle.position.y, X',
      w.rectangle.position.y + w.rectangle.size.y, 0, 0⟩ = .accept :=
    (clipStep_accept_iff w _).mpr ⟨rfl, rfl⟩
  unfold cohenSutherlandClip
  simp only [initState]
  rw [clipLoop_of_replaced w 1 _ _ hstep, clipLoop_of_replaced w 0 _ _ hstep',
    clipLoop_of_accept w 0 _ hacc]

/-- Without the outline, the segment (100, 100) → (700, 500) of `main` is
clipped in four refine steps to (200, 500/3) → (600, 1300/3), on the left and
right edges of the region. -/
theorem cohenSutherlandClip_line1_without_outline :
    cohenSutherlandClip 4
        { clipWindow with rectangle := { clipWindow.rectangle with outlineThickness := 0 } }
        100 100 700 500 =
      .done true 200 (500 / 3) 600 (1300 / 3) := by
  norm_num +decide [cohenSutherlandClip, clipLoop, clipStep, initState, intersection,
    clipWindow, ClippingWindow.new, ClippingWindow.getPointCode, ClippingWindow.getBounds,
    RectangleShape.getGlobalBounds, INSIDE, LEFT, RIGHT, TOP, BOTTOM]

/-! ## Dragging -/

/-- The press branch of `handleEvent` in terms of its own test: a left-button
press at `p` starts a drag exactly when `getGlobalBounds().contains(p)`: then
the drag flag is set and the captured offset is `p - origin`; otherwise the
window is unchanged. In both cases the rectangle (origin, size, outline) is as
before, and that is so for a press of any button.  Which locations pass the
test is `getGlobalBounds_contains_iff`. -/
theorem handleEvent_press (w : ClippingWindow) (p : Vector2f) :
    (w.rectangle.getGlobalBounds.contains p = true →
      w.handleEvent (.MouseButtonPressed .Left) p =
        { w with isDragging := true, dragOffset := p.sub w.rectangle.position }) ∧
    (w.rectangle.getGlobalBounds.contains p = false →
      w.handleEvent (.MouseButtonPressed .Left) p = w) ∧
    (∀ button, (w.handleEvent (.MouseButtonPressed button) p).rectangle = w.rectangle) := by
  refine ⟨fun h => by simp [ClippingWindow.handleEvent, h],
    fun h => by simp [ClippingWindow.handleEvent, h], fun button => ?_⟩
  simp only [ClippingWindow.handleEvent]
  split_ifs <;> rfl

/-- A press inside the region of `main` at (250, 200) starts a drag with offset
(50, 50); a press at (0, 0), outside the bounds, changes nothing. -/
theorem handleEvent_press_witness :
    clipWindow.rectangle.getGlobalBounds.contains ⟨250, 200⟩ = true ∧
      clipWindow.handleEvent (.MouseButtonPressed .Left) ⟨250, 200⟩ =
        { clipWindow with isDragging := true, dragOffset := ⟨50, 50⟩ } ∧
      clipWindow.rectangle.getGlobalBounds.contains ⟨0, 0⟩ = false ∧
      clipWindow.handleEvent (.MouseButtonPressed .Left) ⟨0, 0⟩ = clipWindow := by
  have h1 : clipWindow.rectangle.getGlobalBounds.contains ⟨250, 200⟩ = true := by
    norm_num [clipWindow, ClippingWindow.new, RectangleShape.getGlobalBounds,
      FloatRect.contains]
  have h2 : clipWindow.rectangle.getGlobalBounds.contains ⟨0, 0⟩ = false := by
    norm_num [clipWindow, ClippingWindow.new, RectangleShape.getGlobalBounds,
      FloatRect.contains]
  refine ⟨h1, ?_, h2, (handleEvent_press clipWindow ⟨0, 0⟩).2.1 h2⟩
  rw [(handleEvent_press clipWindow ⟨250, 200⟩).1 h1]
  norm_num [clipWindow, ClippingWindow.new, Vector2f.sub]

/-- The bounds of the hit test are those of the shape with its outline: a press
at (199, 149), which has outcode LEFT | TOP in the region of `main`, starts a
drag, and a press on the last column of the bounds, x = 602, does not. -/
theorem handleEvent_press_on_outline :
    clipWindow.getPointCode 199 149 = LEFT ||| TOP ∧
      (clipWindow.handleEvent (.MouseButtonPressed .Left) ⟨199, 149⟩).isDragging = true ∧
      (clipWindow.handleEvent (.MouseButtonPressed .Left) ⟨602, 300⟩).isDragging = false := by
  refine ⟨?_, ?_, ?_⟩
  · norm_num +decide [clipWindow, ClippingWindow.new, ClippingWindow.getPointCode, INSIDE,
      LEFT, RIGHT, TOP, BOTTOM]
  · norm_num [ClippingWindow.handleEvent, clipWindow, ClippingWindow.new,
      RectangleShape.getGlobalBounds, FloatRect.contains]
  · norm_num [ClippingWindow.handleEvent, clipWindow, ClippingWindow.new,
      RectangleShape.getGlobalBounds, FloatRect.contains]

/-- C12: a left-button release, in any state and at any pointer location,
clears the drag flag and changes nothing else (origin, size, outline, scale,
original size and captured offset are as before); a following `update` leaves
the window as it is. -/
theorem handleEvent_release (w : ClippingWindow) (p q : Vector2f) :
    w.handleEvent (.MouseButtonReleased .Left) p = { w with isDragging := false } ∧
      (w.handleEvent (.MouseButtonReleased .Left) p).isDragging = false ∧
      (w.handleEvent (.MouseButtonReleased .Left) p).rectangle = w.rectangle ∧
      (w.handleEvent (.MouseButtonReleased .Left) p).scale = w.scale ∧
      ((w.handleEvent (.MouseButtonReleased .Left) p).update q =
        w.handleEvent (.MouseButtonReleased .Left) p) := by
  have h : w.handleEvent (.MouseButtonReleased .Left) p = { w with isDragging := false } := by
    simp [ClippingWindow.handleEvent]
  rw [h]
  exact ⟨rfl, rfl, rfl, rfl, by simp [ClippingWindow.update]⟩

/-! ## Zoom keys -/

theorem handleEvent_key (w : ClippingWindow) (k : Key) (p : Vector2f) :
    (w.handleEvent (.KeyPressed k) p).scale =
        w.scale * (if k = Key.Equal then 11 / 10 else 1) * (if k = Key.Dash then 9 / 10 else 1) ∧
      (w.handleEvent (.KeyPressed k) p).rectangle.position = w.rectangle.position ∧
      (w.handleEvent (.KeyPressed k) p).rectangle.outlineThickness =
        w.rectangle.outlineThickness ∧
      (w.handleEvent (.KeyPressed k) p).originalSize = w.originalSize ∧
      (w.handleEvent (.KeyPressed k) p).isDragging = w.isDragging ∧
      (w.handleEvent (.KeyPressed k) p).dragOffset = w.dragOffset ∧
      (w.rectangle.size = ⟨w.originalSize.x * w.scale, w.originalSize.y * w.scale⟩ →
        (w.handleEvent (.KeyPressed k) p).rectangle.size =
          ⟨(w.handleEvent (.KeyPressed k) p).originalSize.x *
              (w.handleEvent (.KeyPressed k) p).scale,
            (w.handleEvent (.KeyPressed k) p).originalSize.y *
              (w.handleEvent (.KeyPressed k) p).scale⟩) := by
  cases k <;> simp [ClippingWindow.handleEvent]

theorem pressKeys_spec (keys : List (Key × Vector2f)) :
    ∀ w : ClippingWindow,
      (w.pressKeys keys).scale =
          w.scale * (11 / 10) ^ (keys.map Prod.fst).count Key.Equal *
            (9 / 10) ^ (keys.map Prod.fst).count Key.Dash ∧
        (w.pressKeys keys).rectangle.position = w.rectangle.position ∧
        (w.pressKeys keys).rectangle.outlineThickness = w.rectangle.outlineThickness ∧
        (w.pressKeys keys).originalSize = w.originalSize ∧
        (w.pressKeys keys).isDragging = w.isDragging ∧
        (w.pressKeys keys).dragOffset = w.dragOffset ∧
        (w.rectangle.size = ⟨w.originalSize.x * w.scale, w.originalSize.y * w.scale⟩ →
          (w.pressKeys keys).rectangle.size =
            ⟨(w.pressKeys keys).originalSize.x * (w.pressKeys keys).scale,
              (w.pressKeys keys).originalSize.y * (w.pressKeys keys).scale⟩) := by
  induction keys with
  | nil =>
    intro w
    simp [ClippingWindow.pressKeys]
  | cons k keys ih =>
    intro w
    obtain ⟨h1, h2, h3, h4, h5, h6, h7⟩ := handleEvent_key w k.1 k.2
    obtain ⟨i1, i2, i3, i4, i5, i6, i7⟩ := ih (w.handleEvent (.KeyPressed k.1) k.2)
    have hfold : w.pressKeys (k :: keys) =
        (w.handleEvent (.KeyPressed k.1) k.2).pressKeys keys := rfl
    rw [hfold]
    refine ⟨?_, i2.trans h2, i3.trans h3, i4.trans h4, i5.trans h5, i6.trans h6,
      fun hinv => i7 (h7 hinv)⟩
    rw [i1, h1, List.map_cons, List.count_cons, List.count_cons]
    rcases k with ⟨k, p⟩
    cases k <;> simp [pow_succ] <;> ring

/-- C13: zoom keys touch only scale and size, and scale accumulates
multiplicatively. After any sequence of key presses with `n` presses of `=`
(zoom in) and `m` presses of `-` (zoom out), in any order and with any other
keys in between, the scale is `(11/10)^n * (9/10)^m` times what it was, origin,
original size, drag flag and captured offset are unchanged, and, from a window
whose size is `originalSize * scale` (as after construction, where scale is 1),
the size is `originalSize * scale` again. In particular zoom in followed by
zoom out multiplies the scale by 99/100 and sets the size to
`originalSize * (scale * 99/100)`. -/
theorem pressKeys_accumulates (w : ClippingWindow) (keys : List (Key × Vector2f))
    (hinv : w.rectangle.size = ⟨w.originalSize.x * w.scale, w.originalSize.y * w.scale⟩) :
    (w.pressKeys keys).scale =
        w.scale * (11 / 10) ^ (keys.map Prod.fst).count Key.Equal *
          (9 / 10) ^ (keys.map Prod.fst).count Key.Dash ∧
      (w.pressKeys keys).rectangle.size =
        ⟨w.originalSize.x * (w.pressKeys keys).scale,
          w.originalSize.y * (w.pressKeys keys).scale⟩ ∧
      (w.pressKeys keys).rectangle.position = w.rectangle.position ∧
      (w.pressKeys keys).originalSize = w.originalSize ∧
      (w.pressKeys keys).isDragging = w.isDragging ∧
      (w.pressKeys keys).dragOffset = w.dragOffset ∧
      (∀ p q : Vector2f,
        (w.pressKeys [(Key.Equal, p), (Key.Dash, q)]).rectangle.size =
          ⟨w.originalSize.x * (w.scale * (99 / 100)),
            w.originalSize.y * (w.scale * (99 / 100))⟩) := by
  obtain ⟨h1, h2, -, h4, h5, h6, h7⟩ := pressKeys_spec keys w
  refine ⟨h1, ?_, h2, h4, h5, h6, ?_⟩
  · rw [h7 hinv, h4]
  · intro p q
    obtain ⟨k1, -, -, k4, -, -, k7⟩ := pressKeys_spec [(Key.Equal, p), (Key.Dash, q)] w
    have c1 : ([(Key.Equal, p), (Key.Dash, q)].map Prod.fst).count Key.Equal = 1 := by
      simp only [List.map_cons, List.map_nil]; decide
    have c2 : ([(Key.Equal, p), (Key.Dash, q)].map Prod.fst).count Key.Dash = 1 := by
      simp only [List.map_cons, List.map_nil]; decide
    rw [k7 hinv, k4, k1, c1, c2]
    simp only [pow_one, Vector2f.mk.injEq]
    constructor <;> ring

/-- From the window of `main` (scale 1, size 400 × 300), zoom in, some other
key, zoom out: the scale is 99/100 and the size 396 × 297. -/
theorem pressKeys_accumulates_witness :
    clipWindow.rectangle.size =
        ⟨clipWindow.originalSize.x * clipWindow.scale,
          clipWindow.originalSize.y * clipWindow.scale⟩ ∧
      (clipWindow.pressKeys [(Key.Equal, ⟨0, 0⟩), (Key.Other, ⟨5, 5⟩), (Key.Dash, ⟨9, 9⟩)]).scale =
        99 / 100 ∧
      (clipWindow.pressKeys
          [(Key.Equal, ⟨0, 0⟩), (Key.Other, ⟨5, 5⟩), (Key.Dash, ⟨9, 9⟩)]).rectangle.size =
        ⟨396, 297⟩ := by
  have hinv : clipWindow.rectangle.size =
      ⟨clipWindow.originalSize.x * clipWindow.scale,
        clipWindow.originalSize.y * clipWindow.scale⟩ := by
    norm_num [clipWindow, ClippingWindow.new]
  have h := pressKeys_accumulates clipWindow
    [(Key.Equal, ⟨0, 0⟩), (Key.Other, ⟨5, 5⟩), (Key.Dash, ⟨9, 9⟩)] hinv
  have c1 : (([(Key.Equal, ⟨0, 0⟩), (Key.Other, ⟨5, 5⟩), (Key.Dash, ⟨9, 9⟩)] :
      List (Key × Vector2f)).map Prod.fst).count Key.Equal = 1 := by decide
  have c2 : (([(Key.Equal, ⟨0, 0⟩), (Key.Other, ⟨5, 5⟩), (Key.Dash, ⟨9, 9⟩)] :
      List (Key × Vector2f)).map Prod.fst).count Key.Dash = 1 := by decide
  have hs : (clipWindow.pressKeys
      [(Key.Equal, ⟨0, 0⟩), (Key.Other, ⟨5, 5⟩), (Key.Dash, ⟨9, 9⟩)]).scale = 99 / 100 := by
    rw [h.1, c1, c2]
    norm_num [clipWindow, ClippingWindow.new]
  refine ⟨hinv, hs, ?_⟩
  rw [h.2.1, hs]
  norm_num [clipWindow, ClippingWindow.new]

/-! ## Size and scale stay non-negative -/

theorem call_keeps_nonneg (w : ClippingWindow) (c : Call)
    (h : 0 < w.scale ∧ 0 ≤ w.originalSize.x ∧ 0 ≤ w.originalSize.y ∧
      0 ≤ w.rectangle.size.x ∧ 0 ≤ w.rectangle.size.y) :
    0 < (w.call c).scale ∧ 0 ≤ (w.call c).originalSize.x ∧ 0 ≤ (w.call c).originalSize.y ∧
      0 ≤ (w.call c).rectangle.size.x ∧ 0 ≤ (w.call c).rectangle.size.y := by
  obtain ⟨h1, h2, h3, h4, h5⟩ := h
  cases c with
  | update q =>
    simp only [ClippingWindow.call, ClippingWindow.update]
    split_ifs <;> exact ⟨h1, h2, h3, h4, h5⟩
  | handleEvent e p =>
    cases e with
    | MouseButtonPressed b =>
      simp only [ClippingWindow.call, ClippingWindow.handleEvent]
      split_ifs <;> exact ⟨h1, h2, h3, h4, h5⟩
    | MouseButtonReleased b =>
      simp only [ClippingWindow.call, ClippingWindow.handleEvent]
      split_ifs <;> exact ⟨h1, h2, h3, h4, h5⟩
    | KeyPressed k =>
      simp only [ClippingWindow.call, ClippingWindow.handleEvent]
      split_ifs
      · have hs : 0 < w.scale * (11 / 10) := by positivity
        exact ⟨hs, h2, h3, mul_nonneg h2 hs.le, mul_nonneg h3 hs.le⟩
      · have hs : 0 < w.scale * (9 / 10) := by positivity
        exact ⟨hs, h2, h3, mul_nonneg h2 hs.le, mul_nonneg h3 hs.le⟩
      · exact ⟨h1, h2, h3, h4, h5⟩
    | Closed => exact ⟨h1, h2, h3, h4, h5⟩
    | Other => exact ⟨h1, h2, h3, h4, h5⟩

theorem run_keeps_nonneg (calls : List Call) :
    ∀ w : ClippingWindow,
      (0 < w.scale ∧ 0 ≤ w.originalSize.x ∧ 0 ≤ w.originalSize.y ∧
        0 ≤ w.rectangle.size.x ∧ 0 ≤ w.rectangle.size.y) →
      0 < (w.run calls).scale ∧ 0 ≤ (w.run calls).originalSize.x ∧
        0 ≤ (w.run calls).originalSize.y ∧
        0 ≤ (w.run calls).rectangle.size.x ∧ 0 ≤ (w.run calls).rectangle.size.y := by
  induction calls with
  | nil => intro w h; exact h
  | cons c calls ih => intro w h; exact ih (w.call c) (call_keeps_nonneg w c h)

/-- In exact arithmetic: for a clipping window constructed with non-negative
width and height, after every finite sequence of `handleEvent` and `update`
calls (any events, any pointer locations) the scale factor is strictly positive
and the region's width and height are non-negative. -/
theorem run_size_nonneg (x y width height : ℚ) (calls : List Call)
    (hw : 0 ≤ width) (hh : 0 ≤ height) :
    0 < ((ClippingWindow.new x y width height).run calls).scale ∧
      0 ≤ ((ClippingWindow.new x y width height).run calls).rectangle.size.x ∧
      0 ≤ ((ClippingWindow.new x y width height).run calls).rectangle.size.y := by
  obtain ⟨h1, -, -, h4, h5⟩ := run_keeps_nonneg calls (ClippingWindow.new x y width height)
    ⟨by simp [ClippingWindow.new], hw, hh, hw, hh⟩
  exact ⟨h1, h4, h5⟩

/-- The window of `main` after a press on it, three zoom-outs, an update and a
release. -/
theorem run_size_nonneg_witness :
    (0 : ℚ) ≤ 400 ∧ (0 : ℚ) ≤ 300 ∧
      0 < ((ClippingWindow.new 200 150 400 300).run
        [.handleEvent (.MouseButtonPressed .Left) ⟨250, 200⟩,
          .handleEvent (.KeyPressed .Dash) ⟨250, 200⟩,
          .handleEvent (.KeyPressed .Dash) ⟨250, 200⟩,
          .handleEvent (.KeyPressed .Dash) ⟨250, 200⟩,
          .update ⟨10, 10⟩,
          .handleEvent (.MouseButtonReleased .Left) ⟨10, 10⟩]).scale :=
  ⟨by norm_num, by norm_num,
    (run_size_nonneg 200 150 400 300 _ (by norm_num) (by norm_num)).1⟩

/-! ## Rescale and back -/

theorem handleEvent_zoom_eq_rescale (w : ClippingWindow) (p : Vector2f) :
    w.handleEvent (.KeyPressed .Equal) p = w.rescale (11 / 10) ∧
      w.handleEvent (.KeyPressed .Dash) p = w.rescale (9 / 10) := by
  constructor <;> simp [ClippingWindow.handleEvent, ClippingWindow.rescale]

/-- In exact arithmetic: rescaling by 11/10 and then by 1/(11/10) restores scale
and size exactly, for every window whose size is `originalSize * scale` (every
starting scale and original size): the window is then as it was. For any window
the scale is restored and the size becomes `originalSize * scale`. The rescale
by 11/10 is what `handleEvent` does on the zoom-in key. -/
theorem rescale_round_trip (w : ClippingWindow)
    (hinv : w.rectangle.size = ⟨w.originalSize.x * w.scale, w.originalSize.y * w.scale⟩) :
    (w.rescale (11 / 10)).rescale (1 / (11 / 10)) = w ∧
      ((w.rescale (11 / 10)).rescale (1 / (11 / 10))).scale = w.scale ∧
      ((w.rescale (11 / 10)).rescale (1 / (11 / 10))).rectangle.size = w.rectangle.size ∧
      (∀ p, w.handleEvent (.KeyPressed .Equal) p = w.rescale (11 / 10)) := by
  have hs : w.scale * (11 / 10) * (1 / (11 / 10)) = w.scale := by ring
  have h : (w.rescale (11 / 10)).rescale (1 / (11 / 10)) = w := by
    simp only [ClippingWindow.rescale, hs, ← hinv]
  refine ⟨h, by rw [h], by rw [h], fun p => (handleEvent_zoom_eq_rescale w p).1⟩

/-- The window of `main`, rescaled by 11/10 (size 440 × 330) and back. -/
theorem rescale_round_trip_witness :
    clipWindow.rectangle.size =
        ⟨clipWindow.originalSize.x * clipWindow.scale,
          clipWindow.originalSize.y * clipWindow.scale⟩ ∧
      (clipWindow.rescale (11 / 10)).rectangle.size = ⟨440, 330⟩ ∧
      (clipWindow.rescale (11 / 10)).rescale (1 / (11 / 10)) = clipWindow := by
  have hinv : clipWindow.rectangle.size =
      ⟨clipWindow.originalSize.x * clipWindow.scale,
        clipWindow.originalSize.y * clipWindow.scale⟩ := by
    norm_num [clipWindow, ClippingWindow.new]
  refine ⟨hinv, ?_, (rescale_round_trip clipWindow hinv).1⟩
  norm_num [ClippingWindow.rescale, clipWindow, ClippingWindow.new]

/-! ## The corners after a drag -/

theorem corners_inside (w : ClippingWindow)
    (hw : 0 ≤ w.rectangle.size.x) (hh : 0 ≤ w.rectangle.size.y) :
    w.getPointCode w.rectangle.position.x w.rectangle.position.y = 0 ∧
      w.getPointCode (w.rectangle.position.x + w.rectangle.size.x) w.rectangle.position.y = 0 ∧
      w.getPointCode w.rectangle.position.x (w.rectangle.position.y + w.rectangle.size.y) = 0 ∧
      w.getPointCode (w.rectangle.position.x + w.rectangle.size.x)
        (w.rectangle.position.y + w.rectangle.size.y) = 0 := by
  simp only [getPointCode_eq_zero]
  refine ⟨⟨?_, ?_, ?_, ?_⟩, ⟨?_, ?_, ?_, ?_⟩, ⟨?_, ?_, ?_, ?_⟩, ⟨?_, ?_, ?_, ?_⟩⟩ <;>
    (intro h; linarith)

/-- C16: for a region with non-negative width and height and every new origin
`o`, after a drag reposition to `o` (an `update` in a drag, with the pointer at
`o + dragOffset`) the origin is `o`, the size is as before, and `getPointCode`
returns 0 for the four corners `(o.x, o.y)`, `(o.x + width, o.y)`,
`(o.x, o.y + height)`, `(o.x + width, o.y + height)`. -/
theorem update_corners_inside (w : ClippingWindow) (o : Vector2f)
    (hw : 0 ≤ w.rectangle.size.x) (hh : 0 ≤ w.rectangle.size.y)
    (hd : w.isDragging = true) :
    (w.update ⟨o.x + w.dragOffset.x, o.y + w.dragOffset.y⟩).rectangle.position = o ∧
      (w.update ⟨o.x + w.dragOffset.x, o.y + w.dragOffset.y⟩).rectangle.size =
        w.rectangle.size ∧
      (w.update ⟨o.x + w.dragOffset.x, o.y + w.dragOffset.y⟩).getPointCode o.x o.y = 0 ∧
      (w.update ⟨o.x + w.dragOffset.x, o.y + w.dragOffset.y⟩).getPointCode
        (o.x + w.rectangle.size.x) o.y = 0 ∧
      (w.update ⟨o.x + w.dragOffset.x, o.y + w.dragOffset.y⟩).getPointCode
        o.x (o.y + w.rectangle.size.y) = 0 ∧
      (w.update ⟨o.x + w.dragOffset.x, o.y + w.dragOffset.y⟩).getPointCode
        (o.x + w.rectangle.size.x) (o.y + w.rectangle.size.y) = 0 := by
  have hpos : (w.update ⟨o.x + w.dragOffset.x, o.y + w.dragOffset.y⟩).rectangle.position = o := by
    simp [ClippingWindow.update, hd, Vector2f.sub]
  have hsize : (w.update ⟨o.x + w.dragOffset.x, o.y + w.dragOffset.y⟩).rectangle.size =
      w.rectangle.size := by
    simp [ClippingWindow.update, hd]
  have h := corners_inside (w.update ⟨o.x + w.dragOffset.x, o.y + w.dragOffset.y⟩)
    (by rw [hsize]; exact hw) (by rw [hsize]; exact hh)
  rw [hpos, hsize] at h
  exact ⟨hpos, hsize, h⟩

/-- The window of `main`, grabbed at (250, 200) and dragged so that its origin
is (-30, 40): the four corners have outcode 0. -/
theorem update_corners_inside_witness :
    (clipWindow.handleEvent (.MouseButtonPressed .Left) ⟨250, 200⟩).isDragging = true ∧
      ((clipWindow.handleEvent (.MouseButtonPressed .Left) ⟨250, 200⟩).update
        ⟨-30 + 50, 40 + 50⟩).rectangle.position = ⟨-30, 40⟩ ∧
      ((clipWindow.handleEvent (.MouseButtonPressed .Left) ⟨250, 200⟩).update
        ⟨-30 + 50, 40 + 50⟩).getPointCode (-30 + 400) (40 + 300) = 0 := by
  have hp : clipWindow.handleEvent (.MouseButtonPressed .Left) ⟨250, 200⟩ =
      { clipWindow with isDragging := true, dragOffset := ⟨50, 50⟩ } := by
    norm_num [ClippingWindow.handleEvent, clipWindow, ClippingWindow.new,
      RectangleShape.getGlobalBounds, FloatRect.contains, Vector2f.sub]
  rw [hp]
  have h := update_corners_inside
    { clipWindow with isDragging := true, dragOffset := ⟨50, 50⟩ } ⟨-30, 40⟩
    (by norm_num [clipWindow, ClippingWindow.new])
    (by norm_num [clipWindow, ClippingWindow.new]) rfl
  exact ⟨rfl, h.1, h.2.2.2.2.2⟩

/-! ## Drawing a line -/

theorem draw_of_clip (fuel : Nat) (l : Line) (w : ClippingWindow) :
    (∀ a b c d, cohenSutherlandClip fuel w l.originalP1.x l.originalP1.y
        l.originalP2.x l.originalP2.y = .done true a b c d →
      l.draw fuel w = some ⟨l, w, ⟨⟨a, b⟩, Color.Red⟩, ⟨⟨c, d⟩, Color.Red⟩⟩) ∧
    (∀ a b c d, cohenSutherlandClip fuel w l.originalP1.x l.originalP1.y
        l.originalP2.x l.originalP2.y = .done false a b c d →
      l.draw fuel w =
        some ⟨l, w, ⟨l.originalP1, Color.Green⟩, ⟨l.originalP2, Color.Green⟩⟩) := by
  constructor <;> intro a b c d h <;> simp [Line.draw, h]

/-- Whenever `draw` returns, the line and the clipping window are as they were,
and the two vertices are either the trimmed endpoints in red (the clip returned
`true`) or the stored endpoints in green (it returned `false`). -/
theorem draw_follows_flag (fuel : Nat) (l : Line) (w : ClippingWindow) (r : Drawn)
    (h : l.draw fuel w = some r) :
    r.line = l ∧ r.clipWindow = w ∧
      ((∃ a b c d, cohenSutherlandClip fuel w l.originalP1.x l.originalP1.y
          l.originalP2.x l.originalP2.y = .done true a b c d ∧
          r.vertex0 = ⟨⟨a, b⟩, Color.Red⟩ ∧ r.vertex1 = ⟨⟨c, d⟩, Color.Red⟩) ∨
        (∃ a b c d, cohenSutherlandClip fuel w l.originalP1.x l.originalP1.y
          l.originalP2.x l.originalP2.y = .done false a b c d ∧
          r.vertex0 = ⟨l.originalP1, Color.Green⟩ ∧
          r.vertex1 = ⟨l.originalP2, Color.Green⟩)) := by
  simp only [Line.draw] at h
  split at h
  · rename_i acc a b c d heq
    cases acc with
    | true =>
      simp only [if_true, Option.some.injEq] at h
      subst h
      exact ⟨rfl, rfl, Or.inl ⟨a, b, c, d, heq, rfl, rfl⟩⟩
    | false =>
      simp only [Bool.false_eq_true, if_false, Option.some.injEq] at h
      subst h
      exact ⟨rfl, rfl, Or.inr ⟨a, b, c, d, heq, rfl, rfl⟩⟩
  · simp at h

/-- C17, at its own example: for the region of `main` and the segment
(100, 300) → (250, 0), the first endpoint is moved to (198, 104), on the left
edge of `getBounds()` and not to (200, 100) on the left edge of the region;
the segment is then rejected (both outcodes contain TOP), the call returns
`false` with the local copy trimmed, and `draw` emits the stored endpoints
(100, 300) and (250, 0) in green, leaving line and region as they were. -/
theorem draw_rejected_after_trim :
    clipStep clipWindow (initState clipWindow 100 300 250 0) =
        .replaced ⟨198, 104, 250, 0, 9, 8⟩ ∧
      cohenSutherlandClip 1 clipWindow 100 300 250 0 = .done false 198 104 250 0 ∧
      (Line.new 100 300 250 0).draw 1 clipWindow =
        some ⟨Line.new 100 300 250 0, clipWindow,
          ⟨⟨100, 300⟩, Color.Green⟩, ⟨⟨250, 0⟩, Color.Green⟩⟩ := by
  have h0 : clipStep clipWindow (initState clipWindow 100 300 250 0) =
      .replaced ⟨198, 104, 250, 0, 9, 8⟩ := by
    norm_num +decide [clipStep, initState, intersection, clipWindow, ClippingWindow.new,
      ClippingWindow.getPointCode, ClippingWindow.getBounds, RectangleShape.getGlobalBounds,
      INSIDE, LEFT, RIGHT, TOP, BOTTOM]
  have h1 : clipStep clipWindow ⟨198, 104, 250, 0, 9, 8⟩ = .reject := by
    rw [clipStep_reject_iff]; decide
  have hrun : cohenSutherlandClip 1 clipWindow 100 300 250 0 = .done false 198 104 250 0 := by
    unfold cohenSutherlandClip
    rw [clipLoop_of_replaced clipWindow 0 _ _ h0, clipLoop_of_reject clipWindow 0 _ h1]
  refine ⟨h0, hrun, ?_⟩
  exact (draw_of_clip 1 (Line.new 100 300 250 0) clipWindow).2 198 104 250 0 hrun

/-- Without the outline, the same segment has its first endpoint moved to
(200, 100), on the left edge of the region, before it is rejected. -/
theorem cohenSutherlandClip_rejected_after_trim_without_outline :
    cohenSutherlandClip 1
        { clipWindow with rectangle := { clipWindow.rectangle with outlineThickness := 0 } }
        100 300 250 0 =
      .done false 200 100 250 0 := by
  norm_num +decide [cohenSutherlandClip, clipLoop, clipStep, initState, intersection,
    clipWindow, ClippingWindow.new, ClippingWindow.getPointCode, ClippingWindow.getBounds,
    RectangleShape.getGlobalBounds, INSIDE, LEFT, RIGHT, TOP, BOTTOM]

/-! ## No division by zero -/

/-- The intersection of lines 166–195 never divides by zero when the outcode of
the outside point shares no bit with the outcode of the other point, whatever
the region and whatever rectangle `bounds` is: on the axis that is intersected
the outside point is beyond a side and the other point is not. -/
theorem intersection_ne_none (w : ClippingWindow) (bounds : FloatRect) (s : ClipState)
    (xo yo xi yi : ℚ)
    (hs : (xo = s.x1 ∧ yo = s.y1 ∧ xi = s.x2 ∧ yi = s.y2) ∨
          (xo = s.x2 ∧ yo = s.y2 ∧ xi = s.x1 ∧ yi = s.y1))
    (hand : w.getPointCode xo yo &&& w.getPointCode xi yi = 0) :
    intersection bounds s (w.getPointCode xo yo) ≠ none := by
  rw [getPointCode_and_getPointCode] at hand
  obtain ⟨hL, hR, hT, hB⟩ := hand
  have hy : (yo < w.rectangle.position.y ∨
      (¬ yo < w.rectangle.position.y ∧ yo > w.rectangle.position.y + w.rectangle.size.y)) →
      s.y2 - s.y1 ≠ 0 := by
    intro h h0
    have hyy : yo = yi := by
      rcases hs with ⟨-, rfl, -, rfl⟩ | ⟨-, rfl, -, rfl⟩ <;> linarith
    rcases h with h | h
    · exact hT ⟨h, hyy ▸ h⟩
    · exact hB ⟨h, hyy ▸ h⟩
  have hx : (xo < w.rectangle.position.x ∨
      (¬ xo < w.rectangle.position.x ∧ xo > w.rectangle.position.x + w.rectangle.size.x)) →
      s.x2 - s.x1 ≠ 0 := by
    intro h h0
    have hxx : xo = xi := by
      rcases hs with ⟨rfl, -, rfl, -⟩ | ⟨rfl, -, rfl, -⟩ <;> linarith
    rcases h with h | h
    · exact hL ⟨h, hxx ▸ h⟩
    · exact hR ⟨h, hxx ▸ h⟩
  simp only [intersection, getPointCode_and_TOP, getPointCode_and_BOTTOM,
    getPointCode_and_RIGHT, getPointCode_and_LEFT]
  split_ifs with h1 h2 h3 h4 h5 h6 h7 h8 <;> simp
  · exact hy (Or.inl h1) h2
  · exact hy (Or.inr h3) h4
  · exact hx (Or.inr h5) h6
  · exact hx (Or.inl h7) h8

theorem clipStep_never_divByZero (w : ClippingWindow) (s : ClipState) (hc : Consistent w s) :
    clipStep w s ≠ .divByZero := by
  obtain ⟨hc1, hc2⟩ := hc
  unfold clipStep
  split_ifs with hor hand h1
  · simp
  · simp
  · have hand' : w.getPointCode s.x1 s.y1 &&& w.getPointCode s.x2 s.y2 = 0 := by
      rw [← hc1, ← hc2]; exact not_not.mp hand
    have hi := intersection_ne_none w w.getBounds s s.x1 s.y1 s.x2 s.y2
      (Or.inl ⟨rfl, rfl, rfl, rfl⟩) hand'
    rw [← hc1] at hi
    simp only
    split
    · rename_i heq; exact absurd heq hi
    · split_ifs <;> simp
  · have hand' : w.getPointCode s.x2 s.y2 &&& w.getPointCode s.x1 s.y1 = 0 := by
      rw [← hc1, ← hc2, Nat.land_comm]; exact not_not.mp hand
    have hi := intersection_ne_none w w.getBounds s s.x2 s.y2 s.x1 s.y1
      (Or.inr ⟨rfl, rfl, rfl, rfl⟩) hand'
    rw [← hc2] at hi
    simp only
    split
    · rename_i heq; exact absurd heq hi
    · split_ifs <;> simp

theorem clipLoop_never_divByZero (w : ClippingWindow) :
    ∀ (n : Nat) (s : ClipState), Consistent w s → clipLoop w n s ≠ .divByZero := by
  intro n
  induction n with
  | zero =>
    intro s hc
    have := clipStep_never_divByZero w s hc
    simp only [clipLoop]
    cases hs : clipStep w s <;> simp_all
  | succ n ih =>
    intro s hc
    have := clipStep_never_divByZero w s hc
    simp only [clipLoop]
    cases hs : clipStep w s with
    | accept => simp
    | reject => simp
    | divByZero => exact absurd hs this
    | replaced s1 => exact ih s1 (consistent_step w s s1 hc hs)

theorem cohenSutherlandClip_zero_length (n : Nat) (w : ClippingWindow) (x y : ℚ) :
    cohenSutherlandClip n w x y x y = .done (decide (w.getPointCode x y = 0)) x y x y := by
  by_cases h : w.getPointCode x y = 0
  · simp only [h, decide_True]
    exact cohenSutherlandClip_of_inside n w x y x y h h
  · simp only [h, decide_False]
    apply clipLoop_of_reject
    rw [clipStep_reject_iff]
    simp only [initState, Nat.or_self, Nat.and_self]
    exact ⟨h, h⟩

/-- C18, as amended: for no region and no segment does `cohenSutherlandClip`
evaluate an intersection formula whose denominator is zero. The refine step is
reached only when the two outcodes share no bit, so on the axis that is
intersected the replaced endpoint is beyond a side and the other endpoint is
not, and the two differ there. A zero-length segment is settled by the first
loop test: accepted when its point has outcode 0 and rejected otherwise. -/
theorem cohenSutherlandClip_never_divByZero (n : Nat) (w : ClippingWindow)
    (x1 y1 x2 y2 : ℚ) :
    cohenSutherlandClip n w x1 y1 x2 y2 ≠ .divByZero ∧
      clipStep w (initState w x1 y1 x2 y2) ≠ .divByZero ∧
      cohenSutherlandClip n w x1 y1 x1 y1 =
        .done (decide (w.getPointCode x1 y1 = 0)) x1 y1 x1 y1 :=
  ⟨clipLoop_never_divByZero w n _ (consistent_initState w x1 y1 x2 y2),
    clipStep_never_divByZero w _ (consistent_initState w x1 y1 x2 y2),
    cohenSutherlandClip_zero_length n w x1 y1⟩

/-- C18 as stated fails: there is no region and segment for which a zero
denominator is reached. The two inputs that the specification names do not
reach one either: in the region of `main` the zero-length segment at (50, 50)
is rejected and the one at (300, 200) accepted on the first test, and the
segment (100, 150) → (700, 150) along the top edge enters the LEFT branch with
`x2 - x1 = 600`. -/
theorem no_division_by_zero :
    (¬ ∃ (n : Nat) (w : ClippingWindow) (x1 y1 x2 y2 : ℚ),
        cohenSutherlandClip n w x1 y1 x2 y2 = .divByZero) ∧
      cohenSutherlandClip 0 clipWindow 50 50 50 50 = .done false 50 50 50 50 ∧
      cohenSutherlandClip 0 clipWindow 300 200 300 200 = .done true 300 200 300 200 ∧
      clipStep clipWindow (initState clipWindow 100 150 700 150) =
        .replaced ⟨198, 150, 700, 150, 1, 2⟩ := by
  refine ⟨?_, ?_, ?_, ?_⟩
  · rintro ⟨n, w, x1, y1, x2, y2, h⟩
    exact clipLoop_never_divByZero w n _ (consistent_initState w x1 y1 x2 y2) h
  · norm_num +decide [cohenSutherlandClip, clipLoop, clipStep, initState, clipWindow,
      ClippingWindow.new, ClippingWindow.getPointCode, INSIDE, LEFT, RIGHT, TOP, BOTTOM]
  · norm_num +decide [cohenSutherlandClip, clipLoop, clipStep, initState, clipWindow,
      ClippingWindow.new, ClippingWindow.getPointCode, INSIDE, LEFT, RIGHT, TOP, BOTTOM]
  · norm_num +decide [clipStep, initState, intersection, clipWindow, ClippingWindow.new,
      ClippingWindow.getPointCode, ClippingWindow.getBounds, RectangleShape.getGlobalBounds,
      INSIDE, LEFT, RIGHT, TOP, BOTTOM]

/-! ## Progress of a refine step against its edge -/

/-- The bit that a refine step clips against, after the step: with a positive
outline thickness the new point still has it, without an outline the new point
no longer has it (region of non-negative width and height). -/
theorem edgeHit_chosenBit (w : ClippingWindow) (xo yo xi yi X Y : ℚ)
    (hw : 0 ≤ w.rectangle.size.x) (hh : 0 ≤ w.rectangle.size.y)
    (hE : EdgeHit w xo yo xi yi X Y) :
    (0 < max w.rectangle.outlineThickness 0 →
      w.getPointCode X Y &&& chosenBit (w.getPointCode xo yo) ≠ 0) ∧
    (max w.rectangle.outlineThickness 0 = 0 →
      w.getPointCode X Y &&& chosenBit (w.getPointCode xo yo) = 0) := by
  simp only [EdgeHit] at hE
  simp only [chosenBit, getPointCode_and_TOP, getPointCode_and_BOTTOM, getPointCode_and_RIGHT,
    getPointCode_and_LEFT]
  rcases hE with ⟨h1, -, h⟩ | ⟨h1, -, h⟩ | ⟨k1, k2, h1, -, h⟩ | ⟨k1, k2, h1, -, h⟩
  · rw [if_pos h1]
    constructor
    · intro he; rw [getPointCode_and_TOP, h]; linarith
    · intro he
      by_contra hne
      have hlt := (getPointCode_and_TOP w X Y).mp hne
      rw [h, he] at hlt
      linarith
  · have n1 : ¬ yo < w.rectangle.position.y := fun h' => by linarith
    rw [if_neg n1, if_pos ⟨n1, h1⟩]
    constructor
    · intro he; rw [getPointCode_and_BOTTOM, h]
      exact ⟨fun h' => by linarith, by linarith⟩
    · intro he
      by_contra hne
      have hlt := ((getPointCode_and_BOTTOM w X Y).mp hne).2
      rw [h, he] at hlt
      linarith
  · have n1 : ¬ yo < w.rectangle.position.y := not_lt.mpr k1
    have n2 : ¬ (¬ yo < w.rectangle.position.y ∧
        yo > w.rectangle.position.y + w.rectangle.size.y) := fun h' => by linarith [h'.2]
    have n3 : ¬ xo < w.rectangle.position.x := fun h' => by linarith
    rw [if_neg n1, if_neg n2, if_pos ⟨n3, h1⟩]
    constructor
    · intro he; rw [getPointCode_and_RIGHT, h]
      exact ⟨fun h' => by linarith, by linarith⟩
    · intro he
      by_contra hne
      have hlt := ((getPointCode_and_RIGHT w X Y).mp hne).2
      rw [h, he] at hlt
      linarith
  · have n1 : ¬ yo < w.rectangle.position.y := not_lt.mpr k1
    have n2 : ¬ (¬ yo < w.rectangle.position.y ∧
        yo > w.rectangle.position.y + w.rectangle.size.y) := fun h' => by linarith [h'.2]
    have n3 : ¬ (¬ xo < w.rectangle.position.x ∧
        xo > w.rectangle.position.x + w.rectangle.size.x) := fun h' => h'.1 h1
    rw [if_neg n1, if_neg n2, if_neg n3, if_pos h1]
    constructor
    · intro he; rw [getPointCode_and_LEFT, h]; linarith
    · intro he
      by_contra hne
      have hlt := (getPointCode_and_LEFT w X Y).mp hne
      rw [h, he] at hlt
      linarith

/-- With the outline that the constructor sets (any positive thickness), no
refine step makes progress against the edge it clips: the recomputed outcode of
the replaced endpoint still contains the bit whose edge was intersected. -/
theorem clipStep_keeps_chosenBit (w : ClippingWindow) (s s' : ClipState)
    (hw : 0 ≤ w.rectangle.size.x) (hh : 0 ≤ w.rectangle.size.y)
    (ht : 0 < w.rectangle.outlineThickness) (hc : Consistent w s)
    (h : clipStep w s = .replaced s') :
    (s.code1 ≠ 0 → s'.code1 &&& chosenBit s.code1 ≠ 0) ∧
      (s.code1 = 0 → s'.code2 &&& chosenBit s.code2 ≠ 0) := by
  have he : 0 < max w.rectangle.outlineThickness 0 := lt_max_of_lt_left ht
  obtain ⟨X, Y, lam, -, -, h' | h'⟩ := clipStep_replaced w s s' hw hh hc h
  · obtain ⟨h1, hE, rfl⟩ := h'
    refine ⟨fun _ => ?_, fun h0 => absurd h0 h1⟩
    rw [hc.1]
    exact (edgeHit_chosenBit w _ _ _ _ X Y hw hh hE).1 he
  · obtain ⟨h1, -, hE, rfl⟩ := h'
    refine ⟨fun h0 => absurd h1 h0, fun _ => ?_⟩
    rw [hc.2]
    exact (edgeHit_chosenBit w _ _ _ _ X Y hw hh hE).1 he

/-- Without an outline, where `getBounds()` is the rectangle that `getPointCode`
tests, every refine step clears the bit whose edge was intersected. -/
theorem clipStep_clears_chosenBit_without_outline (w : ClippingWindow) (s s' : ClipState)
    (hw : 0 ≤ w.rectangle.size.x) (hh : 0 ≤ w.rectangle.size.y)
    (ht : w.rectangle.outlineThickness ≤ 0) (hc : Consistent w s)
    (h : clipStep w s = .replaced s') :
    (s.code1 ≠ 0 → s'.code1 &&& chosenBit s.code1 = 0) ∧
      (s.code1 = 0 → s'.code2 &&& chosenBit s.code2 = 0) := by
  have he : max w.rectangle.outlineThickness 0 = 0 := max_eq_right ht
  obtain ⟨X, Y, lam, -, -, h' | h'⟩ := clipStep_replaced w s s' hw hh hc h
  · obtain ⟨h1, hE, rfl⟩ := h'
    refine ⟨fun _ => ?_, fun h0 => absurd h0 h1⟩
    rw [hc.1]
    exact (edgeHit_chosenBit w _ _ _ _ X Y hw hh hE).2 he
  · obtain ⟨h1, -, hE, rfl⟩ := h'
    refine ⟨fun h0 => absurd h1 h0, fun _ => ?_⟩
    rw [hc.2]
    exact (edgeHit_chosenBit w _ _ _ _ X Y hw hh hE).2 he

/-- C19, at a failing input: for the region of `main`, `getBounds()` is the
rectangle with origin (198, 148) and size (404, 304), not the rectangle with
origin (200, 150) and size (400, 300) that `getPointCode` tests. For the
segment (150, 150) → (650, 450) of `main` the first endpoint has outcode LEFT,
the refine step replaces it by (198, 894/5) on `x = bounds.left`, and the
recomputed outcode is LEFT again: the step has not cleared the bit it clipped
against. -/
theorem clipStep_line5_keeps_bit :
    clipWindow.getBounds = ⟨198, 148, 404, 304⟩ ∧
      clipWindow.getPointCode 150 150 = LEFT ∧
      chosenBit (clipWindow.getPointCode 150 150) = LEFT ∧
      clipStep clipWindow (initState clipWindow 150 150 650 450) =
        .replaced ⟨198, 894 / 5, 650, 450, 1, 2⟩ ∧
      clipWindow.getPointCode 198 (894 / 5) = LEFT ∧
      clipWindow.getPointCode 198 (894 / 5) &&& LEFT ≠ 0 := by
  have hcode : clipWindow.getPointCode 150 150 = LEFT := by
    norm_num +decide [clipWindow, ClippingWindow.new, ClippingWindow.getPointCode, INSIDE, LEFT,
      RIGHT, TOP, BOTTOM]
  have hcode' : clipWindow.getPointCode 198 (894 / 5) = LEFT := by
    norm_num +decide [clipWindow, ClippingWindow.new, ClippingWindow.getPointCode, INSIDE, LEFT,
      RIGHT, TOP, BOTTOM]
  refine ⟨?_, hcode, ?_, ?_, hcode', ?_⟩
  · norm_num [ClippingWindow.getBounds, RectangleShape.getGlobalBounds, clipWindow,
      ClippingWindow.new]
  · rw [hcode]; decide
  · norm_num +decide [clipStep, initState, intersection, clipWindow, ClippingWindow.new,
      ClippingWindow.getPointCode, ClippingWindow.getBounds, RectangleShape.getGlobalBounds,
      INSIDE, LEFT, RIGHT, TOP, BOTTOM]
  · rw [hcode']; decide

/-! ## The hit test of a press -/

theorem roundEven_cases (x : ℚ) : F32.roundEven x = ⌊x⌋ ∨ F32.roundEven x = ⌊x⌋ + 1 := by
  simp only [F32.roundEven]
  split_ifs <;> simp

theorem roundEven_sub_abs (x : ℚ) : |(F32.roundEven x : ℚ) - x| ≤ 1 / 2 := by
  have h1 := Int.floor_le x
  have h2 := Int.lt_floor_add_one x
  rw [abs_le]
  simp only [F32.roundEven]
  split_ifs with a b c
  · constructor <;> linarith
  · push_cast; constructor <;> linarith
  · have : x - ⌊x⌋ = 1 / 2 := le_antisymm (not_lt.mp b) (not_lt.mp a)
    constructor <;> linarith
  · have : x - ⌊x⌋ = 1 / 2 := le_antisymm (not_lt.mp b) (not_lt.mp a)
    push_cast; constructor <;> linarith

theorem roundEven_abs_le (x : ℚ) (n : ℤ) (h : |x| ≤ n) : |(F32.roundEven x : ℚ)| ≤ n := by
  rw [abs_le] at h ⊢
  have hf : (-n : ℤ) ≤ ⌊x⌋ := Int.le_floor.mpr (by push_cast; exact h.1)
  have hx : x ≤ n := h.2
  have hfl : ⌊x⌋ ≤ n := Int.floor_le_floor (a := x) (b := n) hx |>.trans (by simp)
  rcases roundEven_cases x with e | e
  · rw [e]; constructor
    · exact_mod_cast hf
    · exact_mod_cast hfl
  · rw [e]
    have hlt : ⌊x⌋ < n ∨ ⌊x⌋ = n := lt_or_eq_of_le hfl
    rcases hlt with hlt | heq
    · constructor
      · have : (-n : ℤ) ≤ ⌊x⌋ + 1 := by omega
        exact_mod_cast this
      · have : ⌊x⌋ + 1 ≤ n := by omega
        exact_mod_cast this
    · -- then x = n and roundEven x = ⌊x⌋
      exfalso
      have hxn : x = n := le_antisymm hx (by rw [← heq]; exact Int.floor_le x)
      have : F32.roundEven x = ⌊x⌋ := by
        simp [F32.roundEven, hxn]
      omega

theorem exponent_ge (q : ℚ) : -126 ≤ F32.exponent q := le_max_right _ _

theorem ulp_pos (q : ℚ) : (0 : ℚ) < 2 ^ (F32.exponent q - 23) := by positivity

theorem ulp_eq (q : ℚ) : (2 : ℚ) ^ (F32.exponent q - 23) = 2 ^ F32.exponent q / 2 ^ 23 := by
  rw [zpow_sub₀ (by norm_num)]; norm_num

theorem zpow_exponent_le (q : ℚ) (h : 1 / 2 ^ 126 ≤ |q|) : (2 : ℚ) ^ F32.exponent q ≤ |q| := by
  have hpos : 0 < |q| := lt_of_lt_of_le (by positivity) h
  rcases le_total (Int.log 2 |q|) (-126) with hl | hl
  · have he : F32.exponent q = -126 := max_eq_right hl
    rw [he]
    have : (2 : ℚ) ^ (-126 : ℤ) = 1 / 2 ^ 126 := by
      rw [zpow_neg]; norm_num
    rw [this]; exact h
  · have he : F32.exponent q = Int.log 2 |q| := max_eq_left hl
    rw [he]
    have := Int.zpow_log_le_self (b := 2) (by norm_num) hpos
    simpa using this

theorem lt_zpow_exponent (q : ℚ) : |q| < (2 : ℚ) ^ (F32.exponent q + 1) := by
  have h1 : |q| < ((2 : ℕ) : ℚ) ^ (Int.log 2 |q| + 1) :=
    Int.lt_zpow_succ_log_self (by norm_num) |q|
  have h2 : ((2 : ℕ) : ℚ) ^ (Int.log 2 |q| + 1) ≤ (2 : ℚ) ^ (F32.exponent q + 1) := by
    simp only [Nat.cast_ofNat]
    apply zpow_le_zpow_right₀ (by norm_num)
    have : Int.log 2 |q| ≤ F32.exponent q := le_max_left _ _
    omega
  exact lt_of_lt_of_le h1 h2

theorem round_sub_abs (q : ℚ) : |F32.round q - q| ≤ 2 ^ F32.exponent q / 2 ^ 24 := by
  have hu := ulp_pos q
  have hr := roundEven_sub_abs (q / 2 ^ (F32.exponent q - 23))
  have e : F32.round q - q =
      ((F32.roundEven (q / 2 ^ (F32.exponent q - 23)) : ℚ) - q / 2 ^ (F32.exponent q - 23)) *
        2 ^ (F32.exponent q - 23) := by
    simp only [F32.round]
    field_simp
  rw [e, abs_mul, abs_of_pos hu]
  calc _ ≤ 1 / 2 * (2 : ℚ) ^ (F32.exponent q - 23) :=
        mul_le_mul_of_nonneg_right hr hu.le
    _ = 2 ^ F32.exponent q / 2 ^ 24 := by rw [ulp_eq]; ring

/-- In the normal range the relative error of rounding is at most `2^-24`. -/
theorem round_rel (q : ℚ) (h : 1 / 2 ^ 126 ≤ |q|) : |F32.round q - q| ≤ |q| / 2 ^ 24 :=
  (round_sub_abs q).trans (div_le_div_of_nonneg_right (zpow_exponent_le q h) (by positivity))

theorem round_zero : F32.round 0 = 0 := by
  simp [F32.round, F32.roundEven]

/-- The error of rounding is at most `2^-24` of the value plus `2^-150`, half the
spacing of the subnormal numbers. -/
theorem round_err (q : ℚ) : |F32.round q - q| ≤ |q| / 2 ^ 24 + 1 / 2 ^ 150 := by
  by_cases hq : q = 0
  · subst hq
    simp [round_zero]
  rcases le_total (1 / 2 ^ 126) |q| with h | h
  · have : (0 : ℚ) ≤ 1 / 2 ^ 150 := by positivity
    linarith [round_rel q h]
  · have hl : Int.log 2 |q| ≤ -126 := by
      by_contra hc
      push_neg at hc
      rcases eq_or_lt_of_le (abs_nonneg q) with h0 | hpos
      · exact hq (abs_eq_zero.mp h0.symm)
      · have h1 : ((2 : ℕ) : ℚ) ^ (-125 : ℤ) ≤ |q| :=
          (Int.zpow_le_iff_le_log (by norm_num) hpos).mpr (by omega)
        have h2 : ((2 : ℕ) : ℚ) ^ (-125 : ℤ) = 1 / 2 ^ 125 := by
          rw [zpow_neg]; norm_num
        rw [h2] at h1
        have : (1 : ℚ) / 2 ^ 126 < 1 / 2 ^ 125 := by norm_num
        linarith
    have he : F32.exponent q = -126 := max_eq_right hl
    have := round_sub_abs q
    rw [he] at this
    have e2 : (2 : ℚ) ^ (-126 : ℤ) / 2 ^ 24 = 1 / 2 ^ 150 := by
      rw [zpow_neg]; norm_num
    rw [e2] at this
    have : 0 ≤ |q| / 2 ^ 24 := by positivity
    linarith

theorem roundEven_nonneg (x : ℚ) (h : 0 ≤ x) : 0 ≤ F32.roundEven x := by
  have : (0 : ℤ) ≤ ⌊x⌋ := Int.floor_nonneg.mpr h
  rcases roundEven_cases x with e | e <;> omega

theorem round_nonneg (q : ℚ) (h : 0 ≤ q) : 0 ≤ F32.round q := by
  have hu := ulp_pos q
  have : 0 ≤ F32.roundEven (q / 2 ^ (F32.exponent q - 23)) :=
    roundEven_nonneg _ (div_nonneg h hu.le)
  simp only [F32.round]
  have h2 : (0 : ℚ) ≤ F32.roundEven (q / 2 ^ (F32.exponent q - 23)) := by exact_mod_cast this
  exact mul_nonneg h2 hu.le

theorem exponent_of_small (q : ℚ) (hq : 0 < |q|) (h : |q| < 1 / 2 ^ 126) :
    F32.exponent q = -126 := by
  have h2 : ((2 : ℕ) : ℚ) ^ (-126 : ℤ) = 1 / 2 ^ 126 := by
    rw [zpow_neg]; norm_num
  have : Int.log 2 |q| < -126 := by
    rw [← Int.lt_zpow_iff_log_lt (by norm_num) hq, h2]; exact h
  exact max_eq_right this.le

theorem one_le_roundEven (x : ℚ) (h : 1 / 2 < x) : 1 ≤ F32.roundEven x := by
  have h1 := (abs_le.mp (roundEven_sub_abs x)).1
  have : (0 : ℚ) < F32.roundEven x := by linarith
  have : (0 : ℤ) < F32.roundEven x := by exact_mod_cast this
  omega

/-- A value above half the least subnormal number rounds to a positive binary32
number. -/
theorem round_ge_min_subnormal (q : ℚ) (h : 1 / 2 ^ 150 < q) : 1 / 2 ^ 149 ≤ F32.round q := by
  have hq : 0 < q := lt_trans (by positivity) h
  have habs : |q| = q := abs_of_pos hq
  have hu := ulp_pos q
  have hx : 1 / 2 < q / 2 ^ (F32.exponent q - 23) := by
    rw [lt_div_iff₀ hu, ulp_eq]
    rcases le_or_lt (1 / 2 ^ 126) |q| with hn | hs
    · have := zpow_exponent_le q hn
      rw [habs] at this
      have hp : (0 : ℚ) < 2 ^ F32.exponent q := by positivity
      have : 1 / 2 * ((2 : ℚ) ^ F32.exponent q / 2 ^ 23) < 2 ^ F32.exponent q := by
        have : 1 / 2 * ((2 : ℚ) ^ F32.exponent q / 2 ^ 23) = 2 ^ F32.exponent q / 2 ^ 24 := by
          ring
        rw [this]
        exact div_lt_self hp (by norm_num)
      linarith
    · rw [exponent_of_small q (by rw [habs]; exact hq) hs]
      have : (2 : ℚ) ^ (-126 : ℤ) = 1 / 2 ^ 126 := by rw [zpow_neg]; norm_num
      rw [this]
      have e : (1 : ℚ) / 2 * (1 / 2 ^ 126 / 2 ^ 23) = 1 / 2 ^ 150 := by norm_num
      rw [e]; exact h
  have hn := one_le_roundEven _ hx
  have hn2 : (1 : ℚ) ≤ F32.roundEven (q / 2 ^ (F32.exponent q - 23)) := by exact_mod_cast hn
  have hge : (1 : ℚ) / 2 ^ 149 ≤ 2 ^ (F32.exponent q - 23) := by
    have : (2 : ℚ) ^ (-149 : ℤ) ≤ 2 ^ (F32.exponent q - 23) :=
      zpow_le_zpow_right₀ (by norm_num) (by have := exponent_ge q; omega)
    have e : (2 : ℚ) ^ (-149 : ℤ) = 1 / 2 ^ 149 := by rw [zpow_neg]; norm_num
    rwa [e] at this
  simp only [F32.round]
  calc (1 : ℚ) / 2 ^ 149 ≤ 2 ^ (F32.exponent q - 23) := hge
    _ = 1 * 2 ^ (F32.exponent q - 23) := (one_mul _).symm
    _ ≤ _ := mul_le_mul_of_nonneg_right hn2 hu.le

/-- Rounding a value of magnitude at most `FLT_MAX` gives a value of magnitude at
most `FLT_MAX`. -/
theorem round_abs_le_FLT_MAX (q : ℚ) (h : |q| ≤ F32.FLT_MAX) : |F32.round q| ≤ F32.FLT_MAX := by
  have hu := ulp_pos q
  have hlt := lt_zpow_exponent q
  have e1 : (2 : ℚ) ^ (F32.exponent q + 1) = 2 ^ 24 * 2 ^ (F32.exponent q - 23) := by
    rw [show F32.exponent q + 1 = 24 + (F32.exponent q - 23) by ring, zpow_add₀ (by norm_num)]
    norm_num
  have hr : |F32.round q| =
      |(F32.roundEven (q / 2 ^ (F32.exponent q - 23)) : ℚ)| * 2 ^ (F32.exponent q - 23) := by
    simp only [F32.round]
    rw [abs_mul, abs_of_pos hu]
  rcases le_or_lt (F32.exponent q) 126 with he | he
  · have hx : |q / 2 ^ (F32.exponent q - 23)| ≤ ((2 ^ 24 : ℤ) : ℚ) := by
      rw [abs_div, abs_of_pos hu, div_le_iff₀ hu]
      push_cast
      linarith
    have hn := roundEven_abs_le _ _ hx
    rw [hr]
    have h2 : (2 : ℚ) ^ (F32.exponent q + 1) ≤ 2 ^ (127 : ℤ) :=
      zpow_le_zpow_right₀ (by norm_num) (by omega)
    have h3 : (2 : ℚ) ^ (127 : ℤ) ≤ F32.FLT_MAX := by
      rw [F32.FLT_MAX]; norm_num
    calc _ ≤ ((2 ^ 24 : ℤ) : ℚ) * 2 ^ (F32.exponent q - 23) :=
          mul_le_mul_of_nonneg_right hn hu.le
      _ = 2 ^ (F32.exponent q + 1) := by rw [e1]; push_cast; ring
      _ ≤ F32.FLT_MAX := h2.trans h3
  · -- the exponent is 127
    have hpos : 0 < |q| := by
      rcases eq_or_lt_of_le (abs_nonneg q) with h0 | hp
      · exfalso
        have : q = 0 := abs_eq_zero.mp h0.symm
        subst this
        simp [F32.exponent] at he
      · exact hp
    have hlog : Int.log 2 |q| < 128 := by
      rw [← Int.lt_zpow_iff_log_lt (by norm_num) hpos]
      have : F32.FLT_MAX < ((2 : ℕ) : ℚ) ^ (128 : ℤ) := by
        rw [F32.FLT_MAX]; norm_num
      linarith
    have he2 : F32.exponent q = 127 := by
      have : F32.exponent q < 128 := max_lt hlog (by norm_num)
      omega
    rw [hr, he2]
    have e104 : (2 : ℚ) ^ ((127 : ℤ) - 23) = 2 ^ 104 := by norm_num
    rw [e104]
    have hx : |q / 2 ^ (F32.exponent q - 23)| ≤ ((2 ^ 24 - 1 : ℤ) : ℚ) := by
      rw [abs_div, abs_of_pos hu, div_le_iff₀ hu, he2, e104]
      push_cast
      rw [F32.FLT_MAX] at h
      linarith
    have hn := roundEven_abs_le _ _ hx
    rw [he2, e104] at hn
    rw [F32.FLT_MAX]
    have := mul_le_mul_of_nonneg_right hn (by positivity : (0 : ℚ) ≤ 2 ^ 104)
    push_cast at this
    linarith

/-! ## Scale and size over binary32 values -/

theorem ofExact_of_abs_le (q : ℚ) (h : |q| ≤ F32.FLT_MAX) :
    F32.ofExact q = F32.finite (F32.round q) := by
  have := abs_le.mp (round_abs_le_FLT_MAX q h)
  simp only [F32.ofExact]
  rw [if_neg (not_lt.mpr this.2), if_neg (not_lt.mpr this.1)]

theorem ofExact_eq_finite (q r : ℚ) (h : F32.ofExact q = F32.finite r) :
    r = F32.round q ∧ |r| ≤ F32.FLT_MAX := by
  simp only [F32.ofExact] at h
  split_ifs at h with h1 h2
  injection h with h
  subst h
  exact ⟨rfl, abs_le.mpr ⟨not_lt.mp h2, not_lt.mp h1⟩⟩

theorem ofExact_of_nonneg (q : ℚ) (h : 0 ≤ q) :
    F32.ofExact q = F32.posInf ∨
      (F32.ofExact q = F32.finite (F32.round q) ∧ 0 ≤ F32.round q ∧
        F32.round q ≤ F32.FLT_MAX) := by
  have hr := round_nonneg q h
  have hm : (0 : ℚ) ≤ F32.FLT_MAX := by rw [F32.FLT_MAX]; norm_num
  simp only [F32.ofExact]
  by_cases h1 : F32.FLT_MAX < F32.round q
  · left; rw [if_pos h1]
  · right
    rw [if_neg h1, if_neg (by linarith)]
    exact ⟨rfl, hr, not_lt.mp h1⟩

/-- The scale after a zoom key is positive: the product of a positive binary32
value (at least the least subnormal number) with `1.1f` or `0.9f` is `+inf` or
again a positive binary32 value; it does not round to zero. -/
theorem mul_factor_pos (s : F32) (c : ℚ) (hc : 1 / 2 < c)
    (hs : s = F32.posInf ∨ ∃ q, s = F32.finite q ∧ 1 / 2 ^ 149 ≤ q) :
    F32.mul s (F32.finite c) = F32.posInf ∨
      ∃ q, F32.mul s (F32.finite c) = F32.finite q ∧ 1 / 2 ^ 149 ≤ q := by
  have hc0 : 0 < c := by linarith
  rcases hs with rfl | ⟨q, rfl, hq⟩
  · left
    simp [F32.mul, hc0.ne', hc0]
  · have hq0 : (0 : ℚ) < 1 / 2 ^ 149 := by positivity
    have hp : 1 / 2 ^ 150 < q * c := by
      have e : (1 : ℚ) / 2 ^ 150 = 1 / 2 ^ 149 * (1 / 2) := by norm_num
      rw [e]
      exact mul_lt_mul' hq hc (by norm_num) (by linarith)
    have hp0 : 0 ≤ q * c := le_of_lt (lt_trans (by positivity) hp)
    rcases ofExact_of_nonneg (q * c) hp0 with h | ⟨h, -, -⟩
    · left; simpa [F32.mul] using h
    · right
      exact ⟨F32.round (q * c), by simpa [F32.mul] using h, round_ge_min_subnormal _ hp⟩

/-- The size after a zoom key: a non-negative original size times a positive
scale is non-negative, unless the size is 0 and the scale is `+inf`. -/
theorem mul_scale_nonneg (w s : F32) (hw : w.nonneg = true)
    (hs : s = F32.posInf ∨ ∃ q, s = F32.finite q ∧ 1 / 2 ^ 149 ≤ q)
    (h : s.isFinite = true ∨ w ≠ F32.finite 0) : (F32.mul w s).nonneg = true := by
  have hq0 : (0 : ℚ) < 1 / 2 ^ 149 := by positivity
  cases w with
  | nan => simp [F32.nonneg] at hw
  | negInf => simp [F32.nonneg] at hw
  | posInf =>
    rcases hs with rfl | ⟨q, rfl, hq⟩
    · simp [F32.mul, F32.nonneg]
    · have : 0 < q := lt_of_lt_of_le hq0 hq
      simp [F32.mul, F32.nonneg, this.ne', this]
  | finite a =>
    have ha : 0 ≤ a := by simpa [F32.nonneg] using hw
    rcases hs with rfl | ⟨q, rfl, hq⟩
    · have hne : a ≠ 0 := by
        rcases h with h | h
        · simp [F32.isFinite] at h
        · intro h0; exact h (by rw [h0])
      have : 0 < a := lt_of_le_of_ne ha (Ne.symm hne)
      simp [F32.mul, F32.nonneg, hne, this]
    · have : 0 < q := lt_of_lt_of_le hq0 hq
      rcases ofExact_of_nonneg (a * q) (mul_nonneg ha this.le) with h | ⟨h, h2, -⟩
      · simp [F32.mul, h, F32.nonneg]
      · simp [F32.mul, h, F32.nonneg, h2]

/-- The invariant of the zoom members over binary32 values. -/
theorem call_keeps_nonneg_binary32 (z : ZoomF32) (c : Call)
    (hw : z.originalSizeX.nonneg = true) (hh : z.originalSizeY.nonneg = true)
    (hs : z.scale = F32.posInf ∨ ∃ q, z.scale = F32.finite q ∧ 1 / 2 ^ 149 ≤ q)
    (hx : z.scale.isFinite = true ∨ z.originalSizeX ≠ F32.finite 0 → z.sizeX.nonneg = true)
    (hy : z.scale.isFinite = true ∨ z.originalSizeY ≠ F32.finite 0 → z.sizeY.nonneg = true) :
    (z.call c).originalSizeX = z.originalSizeX ∧ (z.call c).originalSizeY = z.originalSizeY ∧
      ((z.call c).scale = F32.posInf ∨
        ∃ q, (z.call c).scale = F32.finite q ∧ 1 / 2 ^ 149 ≤ q) ∧
      ((z.call c).scale.isFinite = true ∨ z.originalSizeX ≠ F32.finite 0 →
        (z.call c).sizeX.nonneg = true) ∧
      ((z.call c).scale.isFinite = true ∨ z.originalSizeY ≠ F32.finite 0 →
        (z.call c).sizeY.nonneg = true) := by
  cases c with
  | update p => exact ⟨rfl, rfl, hs, hx, hy⟩
  | handleEvent event p =>
    cases event with
    | KeyPressed code =>
      cases code with
      | Equal =>
        have hs2 := mul_factor_pos z.scale F32.onePointOne
          (by rw [F32.onePointOne]; norm_num) hs
        exact ⟨rfl, rfl, hs2, fun h => mul_scale_nonneg _ _ hw hs2 h,
          fun h => mul_scale_nonneg _ _ hh hs2 h⟩
      | Dash =>
        have hs2 := mul_factor_pos z.scale F32.zeroPointNine
          (by rw [F32.zeroPointNine]; norm_num) hs
        exact ⟨rfl, rfl, hs2, fun h => mul_scale_nonneg _ _ hw hs2 h,
          fun h => mul_scale_nonneg _ _ hh hs2 h⟩
      | Escape => exact ⟨rfl, rfl, hs, hx, hy⟩
      | Other => exact ⟨rfl, rfl, hs, hx, hy⟩
    | MouseButtonPressed b => exact ⟨rfl, rfl, hs, hx, hy⟩
    | MouseButtonReleased b => exact ⟨rfl, rfl, hs, hx, hy⟩
    | Closed => exact ⟨rfl, rfl, hs, hx, hy⟩
    | Other => exact ⟨rfl, rfl, hs, hx, hy⟩

theorem run_keeps_nonneg_binary32 (calls : List Call) :
    ∀ z : ZoomF32, z.originalSizeX.nonneg = true → z.originalSizeY.nonneg = true →
      (z.scale = F32.posInf ∨ ∃ q, z.scale = F32.finite q ∧ 1 / 2 ^ 149 ≤ q) →
      (z.scale.isFinite = true ∨ z.originalSizeX ≠ F32.finite 0 → z.sizeX.nonneg = true) →
      (z.scale.isFinite = true ∨ z.originalSizeY ≠ F32.finite 0 → z.sizeY.nonneg = true) →
      ((z.run calls).scale = F32.posInf ∨
        ∃ q, (z.run calls).scale = F32.finite q ∧ 1 / 2 ^ 149 ≤ q) ∧
      ((z.run calls).scale.isFinite = true ∨ z.originalSizeX ≠ F32.finite 0 →
        (z.run calls).sizeX.nonneg = true) ∧
      ((z.run calls).scale.isFinite = true ∨ z.originalSizeY ≠ F32.finite 0 →
        (z.run calls).sizeY.nonneg = true) := by
  induction calls with
  | nil => intro z _ _ hs hx hy; exact ⟨hs, hx, hy⟩
  | cons c calls ih =>
    intro z hw hh hs hx hy
    obtain ⟨e1, e2, h3, h4, h5⟩ := call_keeps_nonneg_binary32 z c hw hh hs hx hy
    have := ih (z.call c) (by rw [e1]; exact hw) (by rw [e2]; exact hh) h3
      (by rw [e1]; exact h4) (by rw [e2]; exact h5)
    rw [e1, e2] at this
    exact this

/-! ## Overflow of the scale after 931 zoom-ins -/

theorem run_append_binary32 (z : ZoomF32) (l1 l2 : List Call) :
    z.run (l1 ++ l2) = (z.run l1).run l2 := by
  simp [ZoomF32.run, List.foldl_append]

/-- One zoom-in on a finite scale `q ≥ 1`: the new scale is `+inf` or a finite
value that is at least `q * 1.1f * (1 - 2^-24)`. -/
theorem mul_onePointOne_lower (q : ℚ) (hq : 1 ≤ q) :
    F32.mul (F32.finite q) (F32.finite F32.onePointOne) = F32.posInf ∨
      ∃ r, F32.mul (F32.finite q) (F32.finite F32.onePointOne) = F32.finite r ∧
        q * (F32.onePointOne * (1 - 1 / 2 ^ 24)) ≤ r ∧ r ≤ F32.FLT_MAX := by
  have hc : (1 : ℚ) ≤ F32.onePointOne := by rw [F32.onePointOne]; norm_num
  have hp : 1 ≤ q * F32.onePointOne := by nlinarith
  have hp0 : 0 ≤ q * F32.onePointOne := by linarith
  rcases ofExact_of_nonneg _ hp0 with h | ⟨h, -, h3⟩
  · left; simpa [F32.mul] using h
  · right
    refine ⟨F32.round (q * F32.onePointOne), by simpa [F32.mul] using h, ?_, h3⟩
    have habs : |q * F32.onePointOne| = q * F32.onePointOne := abs_of_nonneg hp0
    have hrel := round_rel (q * F32.onePointOne)
      (by rw [habs]; exact le_trans (by norm_num) hp)
    rw [habs] at hrel
    have := (abs_le.mp hrel).1
    linarith

theorem zoomIn_lower (width height : F32) (k : ℕ) :
    ((ZoomF32.new width height).run
        (List.replicate k (Call.handleEvent (.KeyPressed .Equal) ⟨0, 0⟩))).originalSizeX =
        width ∧
      (((ZoomF32.new width height).run
          (List.replicate k (Call.handleEvent (.KeyPressed .Equal) ⟨0, 0⟩))).scale =
          F32.posInf ∨
        ∃ q, ((ZoomF32.new width height).run
            (List.replicate k (Call.handleEvent (.KeyPressed .Equal) ⟨0, 0⟩))).scale =
            F32.finite q ∧
          (F32.onePointOne * (1 - 1 / 2 ^ 24)) ^ k ≤ q ∧ q ≤ F32.FLT_MAX) ∧
      (0 < k →
        ((ZoomF32.new width height).run
          (List.replicate k (Call.handleEvent (.KeyPressed .Equal) ⟨0, 0⟩))).sizeX =
        F32.mul width ((ZoomF32.new width height).run
          (List.replicate k (Call.handleEvent (.KeyPressed .Equal) ⟨0, 0⟩))).scale) := by
  have hm : (1 : ℚ) ≤ F32.FLT_MAX := by rw [F32.FLT_MAX]; norm_num
  have hb : (1 : ℚ) ≤ F32.onePointOne * (1 - 1 / 2 ^ 24) := by
    rw [F32.onePointOne]; norm_num
  induction k with
  | zero =>
    refine ⟨rfl, Or.inr ⟨1, rfl, by simp, hm⟩, fun h => absurd h (lt_irrefl 0)⟩
  | succ k ih =>
    rw [List.replicate_succ', run_append_binary32]
    generalize (ZoomF32.new width height).run
      (List.replicate k (Call.handleEvent (.KeyPressed .Equal) ⟨0, 0⟩)) = z at ih ⊢
    obtain ⟨h1, h2, -⟩ := ih
    have hstep : z.run [Call.handleEvent (.KeyPressed .Equal) ⟨0, 0⟩] =
        { z with
          scale := F32.mul z.scale (F32.finite F32.onePointOne)
          sizeX := F32.mul z.originalSizeX (F32.mul z.scale (F32.finite F32.onePointOne))
          sizeY := F32.mul z.originalSizeY (F32.mul z.scale (F32.finite F32.onePointOne)) } := by
      simp [ZoomF32.run, ZoomF32.call, ZoomF32.handleEvent]
    rw [hstep]
    refine ⟨h1, ?_, fun _ => by simp only [h1]⟩
    rcases h2 with h2 | ⟨q, h2, hq, -⟩
    · left
      have : (0 : ℚ) < F32.onePointOne := by rw [F32.onePointOne]; norm_num
      simp [h2, F32.mul, this.ne', this]
    · have hq1 : 1 ≤ q := le_trans (one_le_pow₀ hb) hq
      simp only [h2]
      rcases mul_onePointOne_lower q hq1 with h | ⟨r, h, hr, hr2⟩
      · left; exact h
      · right
        refine ⟨r, h, ?_, hr2⟩
        rw [pow_succ]
        exact le_trans (mul_le_mul_of_nonneg_right hq (by linarith)) hr

theorem onePointOne_pow_931 :
    F32.FLT_MAX < (F32.onePointOne * (1 - 1 / 2 ^ 24)) ^ 931 := by
  rw [F32.FLT_MAX, F32.onePointOne]
  norm_num

/-- One zoom-in on a finite scale `q ≥ 1` that stays in range: the new scale is
finite and within `2^-24`, relatively, of `q * 1.1f`. -/
theorem mul_onePointOne_finite (q : ℚ) (hq : 1 ≤ q)
    (hle : q * (F32.onePointOne * (1 + 1 / 2 ^ 24)) ≤ F32.FLT_MAX) :
    ∃ r, F32.mul (F32.finite q) (F32.finite F32.onePointOne) = F32.finite r ∧
      q * (F32.onePointOne * (1 - 1 / 2 ^ 24)) ≤ r ∧
      r ≤ q * (F32.onePointOne * (1 + 1 / 2 ^ 24)) := by
  have hc : (1 : ℚ) ≤ F32.onePointOne := by rw [F32.onePointOne]; norm_num
  have hp : 1 ≤ q * F32.onePointOne := by nlinarith
  have hp0 : 0 ≤ q * F32.onePointOne := by linarith
  have habs : |q * F32.onePointOne| = q * F32.onePointOne := abs_of_nonneg hp0
  have hrel := round_rel (q * F32.onePointOne) (by rw [habs]; exact le_trans (by norm_num) hp)
  rw [habs] at hrel
  have hb := abs_le.mp hrel
  have hm : |q * F32.onePointOne| ≤ F32.FLT_MAX := by
    rw [habs]
    have : q * F32.onePointOne ≤ q * (F32.onePointOne * (1 + 1 / 2 ^ 24)) := by
      have : 0 ≤ q * F32.onePointOne * (1 / 2 ^ 24) := by positivity
      linarith
    linarith
  have e : F32.mul (F32.finite q) (F32.finite F32.onePointOne) =
      F32.ofExact (q * F32.onePointOne) := rfl
  refine ⟨F32.round (q * F32.onePointOne), by rw [e, ofExact_of_abs_le _ hm], ?_, ?_⟩
  · linarith [hb.1]
  · linarith [hb.2]

theorem zoomIn_finite (width height : F32) (k : ℕ)
    (hk : (F32.onePointOne * (1 + 1 / 2 ^ 24)) ^ k ≤ F32.FLT_MAX) :
    ∃ q, ((ZoomF32.new width height).run
        (List.replicate k (Call.handleEvent (.KeyPressed .Equal) ⟨0, 0⟩))).scale =
        F32.finite q ∧
      (F32.onePointOne * (1 - 1 / 2 ^ 24)) ^ k ≤ q ∧
      q ≤ (F32.onePointOne * (1 + 1 / 2 ^ 24)) ^ k := by
  have hb : (1 : ℚ) ≤ F32.onePointOne * (1 - 1 / 2 ^ 24) := by
    rw [F32.onePointOne]; norm_num
  have hu : (1 : ℚ) ≤ F32.onePointOne * (1 + 1 / 2 ^ 24) := by
    rw [F32.onePointOne]; norm_num
  induction k with
  | zero => exact ⟨1, rfl, by simp, by simp⟩
  | succ k ih =>
    have hk' : (F32.onePointOne * (1 + 1 / 2 ^ 24)) ^ k ≤ F32.FLT_MAX := by
      refine le_trans ?_ hk
      exact pow_le_pow_right₀ hu (Nat.le_succ k)
    obtain ⟨q, h2, hq, hq2⟩ := ih hk'
    rw [List.replicate_succ', run_append_binary32]
    generalize (ZoomF32.new width height).run
      (List.replicate k (Call.handleEvent (.KeyPressed .Equal) ⟨0, 0⟩)) = z at h2 ⊢
    have hstep : (z.run [Call.handleEvent (.KeyPressed .Equal) ⟨0, 0⟩]).scale =
        F32.mul z.scale (F32.finite F32.onePointOne) := by
      simp [ZoomF32.run, ZoomF32.call, ZoomF32.handleEvent]
    rw [hstep, h2]
    have hq1 : 1 ≤ q := le_trans (one_le_pow₀ hb) hq
    have hle : q * (F32.onePointOne * (1 + 1 / 2 ^ 24)) ≤ F32.FLT_MAX := by
      refine le_trans ?_ hk
      rw [pow_succ (F32.onePointOne * (1 + 1 / 2 ^ 24)) k]
      exact mul_le_mul_of_nonneg_right hq2 (le_trans zero_le_one hu)
    obtain ⟨r, h, hr, hr2⟩ := mul_onePointOne_finite q hq1 hle
    refine ⟨r, h, ?_, ?_⟩
    · rw [pow_succ (F32.onePointOne * (1 - 1 / 2 ^ 24)) k]
      exact le_trans (mul_le_mul_of_nonneg_right hq (le_trans zero_le_one hb)) hr
    · rw [pow_succ (F32.onePointOne * (1 + 1 / 2 ^ 24)) k]
      exact le_trans hr2 (mul_le_mul_of_nonneg_right hq2 (le_trans zero_le_one hu))

theorem onePointOne_pow_930 :
    (F32.onePointOne * (1 + 1 / 2 ^ 24)) ^ 930 ≤ F32.FLT_MAX := by
  rw [F32.FLT_MAX, F32.onePointOne]
  norm_num

/-! ## Scale and size after any sequence of calls, in both readings -/

/-- C14 as stated fails in the `float` arithmetic of the program: a window
constructed with width 0 and height 300 (both non-negative) has, after 931
zoom-in key events, the scale `+inf` (`1.1f^931` exceeds `FLT_MAX`) and the
width `0 * inf = NaN`, for which `width >= 0` is false. -/
theorem zoom_in_931_width_nan :
    F32.nonneg (F32.finite 0) = true ∧ F32.nonneg (F32.finite 300) = true ∧
      ((ZoomF32.new (F32.finite 0) (F32.finite 300)).run
        (List.replicate 931 (Call.handleEvent (.KeyPressed .Equal) ⟨0, 0⟩))).scale =
        F32.posInf ∧
      ((ZoomF32.new (F32.finite 0) (F32.finite 300)).run
        (List.replicate 931 (Call.handleEvent (.KeyPressed .Equal) ⟨0, 0⟩))).sizeX = F32.nan ∧
      F32.nonneg ((ZoomF32.new (F32.finite 0) (F32.finite 300)).run
        (List.replicate 931 (Call.handleEvent (.KeyPressed .Equal) ⟨0, 0⟩))).sizeX = false := by
  obtain ⟨-, h2, h3⟩ := zoomIn_lower (F32.finite 0) (F32.finite 300) 931
  have hs : ((ZoomF32.new (F32.finite 0) (F32.finite 300)).run
        (List.replicate 931 (Call.handleEvent (.KeyPressed .Equal) ⟨0, 0⟩))).scale =
        F32.posInf := by
    rcases h2 with h2 | ⟨q, -, hq, hq2⟩
    · exact h2
    · exact absurd (lt_of_lt_of_le onePointOne_pow_931 hq) (not_lt.mpr hq2)
  have hx := h3 (by norm_num)
  rw [hs] at hx
  have hx2 : ((ZoomF32.new (F32.finite 0) (F32.finite 300)).run
        (List.replicate 931 (Call.handleEvent (.KeyPressed .Equal) ⟨0, 0⟩))).sizeX = F32.nan := by
    rw [hx]; simp [F32.mul]
  exact ⟨by simp [F32.nonneg], by simp [F32.nonneg], hs, hx2, by rw [hx2]; rfl⟩

/-- C14, as amended: for a clipping window constructed with non-negative width
and height, after every finite sequence of `handleEvent` and `update` calls (any
events, any pointer locations): in exact arithmetic the scale factor is
strictly positive and the region's width and height are non-negative; in the
binary32 arithmetic of the program the scale factor is strictly positive (a
finite number or `+inf`, never zero), and the width is non-negative whenever
the scale is finite or the constructed width is not 0, and likewise the
height.  Left out is the width (height) of a window constructed with width
(height) 0 once the scale has overflowed to `+inf`. -/
theorem run_size_nonneg_unless_overflow (x y width height : ℚ) (fwidth fheight : F32)
    (calls : List Call) (hw : 0 ≤ width) (hh : 0 ≤ height)
    (hfw : fwidth.nonneg = true) (hfh : fheight.nonneg = true) :
    (0 < ((ClippingWindow.new x y width height).run calls).scale ∧
      0 ≤ ((ClippingWindow.new x y width height).run calls).rectangle.size.x ∧
      0 ≤ ((ClippingWindow.new x y width height).run calls).rectangle.size.y) ∧
    (((ZoomF32.new fwidth fheight).run calls).scale.pos = true ∧
      (((ZoomF32.new fwidth fheight).run calls).scale.isFinite = true ∨
          fwidth ≠ F32.finite 0 →
        ((ZoomF32.new fwidth fheight).run calls).sizeX.nonneg = true) ∧
      (((ZoomF32.new fwidth fheight).run calls).scale.isFinite = true ∨
          fheight ≠ F32.finite 0 →
        ((ZoomF32.new fwidth fheight).run calls).sizeY.nonneg = true)) := by
  refine ⟨run_size_nonneg x y width height calls hw hh, ?_⟩
  obtain ⟨h1, h2, h3⟩ := run_keeps_nonneg_binary32 calls (ZoomF32.new fwidth fheight) hfw hfh
    (Or.inr ⟨1, rfl, by norm_num⟩) (fun _ => hfw) (fun _ => hfh)
  refine ⟨?_, h2, h3⟩
  rcases h1 with h1 | ⟨q, h1, hq⟩
  · rw [h1]; rfl
  · rw [h1]
    have : (0 : ℚ) < q := lt_of_lt_of_le (by positivity) hq
    simp [F32.pos, this]

/-- The window of `main` after a press on it, three zoom-outs, an update and a
release, in both readings. -/
theorem run_size_nonneg_unless_overflow_witness :
    (0 < ((ClippingWindow.new 200 150 400 300).run
        [.handleEvent (.MouseButtonPressed .Left) ⟨250, 200⟩,
          .handleEvent (.KeyPressed .Dash) ⟨250, 200⟩,
          .handleEvent (.KeyPressed .Dash) ⟨250, 200⟩,
          .handleEvent (.KeyPressed .Dash) ⟨250, 200⟩,
          .update ⟨10, 10⟩,
          .handleEvent (.MouseButtonReleased .Left) ⟨10, 10⟩]).scale) ∧
      ((ZoomF32.new (F32.finite 400) (F32.finite 300)).run
        [.handleEvent (.MouseButtonPressed .Left) ⟨250, 200⟩,
          .handleEvent (.KeyPressed .Dash) ⟨250, 200⟩,
          .handleEvent (.KeyPressed .Dash) ⟨250, 200⟩,
          .handleEvent (.KeyPressed .Dash) ⟨250, 200⟩,
          .update ⟨10, 10⟩,
          .handleEvent (.MouseButtonReleased .Left) ⟨10, 10⟩]).sizeX.nonneg = true :=
  ⟨(run_size_nonneg_unless_overflow 200 150 400 300 (F32.finite 400) (F32.finite 300) _
      (by norm_num) (by norm_num) (by simp [F32.nonneg]) (by simp [F32.nonneg])).1.1,
    (run_size_nonneg_unless_overflow 200 150 400 300 (F32.finite 400) (F32.finite 300) _
      (by norm_num) (by norm_num) (by simp [F32.nonneg]) (by simp [F32.nonneg])).2.2.1
      (Or.inr (by simp))⟩

/-! ## Rescale and back over binary32 values -/

theorem exponent_eq_of (q : ℚ) (e : ℤ) (he : -126 ≤ e) (h1 : (2 : ℚ) ^ e ≤ |q|)
    (h2 : |q| < (2 : ℚ) ^ (e + 1)) : F32.exponent q = e := by
  have hpos : 0 < |q| := lt_of_lt_of_le (by positivity) h1
  have l1 : e ≤ Int.log 2 |q| := by
    rw [← Int.zpow_le_iff_le_log (by norm_num) hpos]; simpa using h1
  have l2 : Int.log 2 |q| < e + 1 := by
    rw [← Int.lt_zpow_iff_log_lt (by norm_num) hpos]; simpa using h2
  have : Int.log 2 |q| = e := by omega
  rw [F32.exponent, this]
  exact max_eq_left he

theorem roundEven_eq_of (x : ℚ) (n : ℤ) (h : |x - n| < 1 / 2) : F32.roundEven x = n := by
  have h1 := abs_le.mp (roundEven_sub_abs x)
  have h2 := abs_lt.mp h
  have a : ((F32.roundEven x - n : ℤ) : ℚ) < 1 := by push_cast; linarith
  have b : (-1 : ℚ) < ((F32.roundEven x - n : ℤ) : ℚ) := by push_cast; linarith
  have a2 : F32.roundEven x - n < 1 := by exact_mod_cast a
  have b2 : -1 < F32.roundEven x - n := by exact_mod_cast b
  omega

/-- The value of `F32.round` at a number whose binade and nearest multiple of the
spacing are given. -/
theorem round_eq_of (q : ℚ) (e n : ℤ) (he : -126 ≤ e) (h1 : (2 : ℚ) ^ e ≤ |q|)
    (h2 : |q| < (2 : ℚ) ^ (e + 1)) (hn : |q / 2 ^ (e - 23) - n| < 1 / 2) :
    F32.round q = n * 2 ^ (e - 23) := by
  rw [F32.round, exponent_eq_of q e he h1 h2, roundEven_eq_of _ n hn]

/-- The binary32 number nearest to `1/1.1`. -/
theorem round_inv_eleven_tenths : F32.round (1 / (11 / 10)) = 15252015 / 16777216 := by
  rw [round_eq_of (1 / (11 / 10)) (-1) 15252015 (by norm_num)
    (by rw [zpow_neg]; norm_num [abs_of_pos])
    (by norm_num [abs_of_pos])
    (by
      have : ((-1 : ℤ) - 23) = -24 := by norm_num
      rw [this, zpow_neg]
      norm_num [abs_lt])]
  have : ((-1 : ℤ) - 23) = -24 := by norm_num
  rw [this, zpow_neg]
  norm_num

/-- The binary32 quotient `1.0f / 1.1f`. -/
theorem round_inv_onePointOne : F32.round (1 / F32.onePointOne) = 15252014 / 16777216 := by
  rw [F32.onePointOne]
  rw [round_eq_of (1 / (9227469 / 8388608)) (-1) 15252014 (by norm_num)
    (by rw [zpow_neg]; norm_num [abs_of_pos])
    (by norm_num [abs_of_pos])
    (by
      have : ((-1 : ℤ) - 23) = -24 := by norm_num
      rw [this, zpow_neg]
      norm_num [abs_lt])]
  have : ((-1 : ℤ) - 23) = -24 := by norm_num
  rw [this, zpow_neg]
  norm_num

/-- Two roundings in a row, by `c = 1.1f` and by a factor `g` with `c * g` within
`2^-24` of 1: the result is within `2^-22` of the start, relatively, plus the
spacing of the subnormal numbers. -/
theorem round_trip_scale_bound (s s1 s2 g : ℚ)
    (hg0 : 0 < g) (hg1 : g < 1) (hcg : |F32.onePointOne * g - 1| ≤ 1 / 2 ^ 24)
    (h1 : |s1 - s * F32.onePointOne| ≤ |s * F32.onePointOne| / 2 ^ 24 + 1 / 2 ^ 150)
    (h2 : |s2 - s1 * g| ≤ |s1 * g| / 2 ^ 24 + 1 / 2 ^ 150) :
    |s2 - s| ≤ 1 / 2 ^ 22 * |s| + 1 / 2 ^ 149 := by
  rw [F32.onePointOne] at hcg h1
  have hcpos : (0 : ℚ) < 9227469 / 8388608 := by norm_num
  rw [abs_mul, abs_of_pos hcpos] at h1
  rw [abs_mul, abs_of_pos hg0] at h2
  have hg2 : g ≤ 19 / 20 := by
    have := (abs_le.mp hcg).2
    linarith
  -- the three parts of the error
  have e : s2 - s = (s2 - s1 * g) + g * (s1 - s * (9227469 / 8388608)) +
      s * (9227469 / 8388608 * g - 1) := by ring
  have t1 : |g * (s1 - s * (9227469 / 8388608))| ≤
      |s| * (9227469 / 8388608) / 2 ^ 24 + g * (1 / 2 ^ 150) := by
    rw [abs_mul, abs_of_pos hg0]
    have hn : 0 ≤ |s| * (9227469 / 8388608) / 2 ^ 24 := by positivity
    calc g * |s1 - s * (9227469 / 8388608)|
        ≤ g * (|s| * (9227469 / 8388608) / 2 ^ 24 + 1 / 2 ^ 150) :=
          mul_le_mul_of_nonneg_left h1 hg0.le
      _ = g * (|s| * (9227469 / 8388608) / 2 ^ 24) + g * (1 / 2 ^ 150) := by ring
      _ ≤ 1 * (|s| * (9227469 / 8388608) / 2 ^ 24) + g * (1 / 2 ^ 150) := by
          have := mul_le_mul_of_nonneg_right hg1.le hn
          linarith
      _ = _ := by ring
  have t2 : |s * (9227469 / 8388608 * g - 1)| ≤ |s| * (1 / 2 ^ 24) := by
    rw [abs_mul]
    exact mul_le_mul_of_nonneg_left hcg (abs_nonneg _)
  have b1 : |s1| ≤ |s| * (9227469 / 8388608) +
      (|s| * (9227469 / 8388608) / 2 ^ 24 + 1 / 2 ^ 150) := by
    have := abs_sub_abs_le_abs_sub s1 (s * (9227469 / 8388608))
    rw [abs_mul, abs_of_pos hcpos] at this
    linarith
  have t3 : |s2 - s1 * g| ≤ |s1| / 2 ^ 24 + 1 / 2 ^ 150 := by
    have : |s1| * g ≤ |s1| * 1 := mul_le_mul_of_nonneg_left hg1.le (abs_nonneg _)
    have : |s1| * g / 2 ^ 24 ≤ |s1| / 2 ^ 24 := by
      apply div_le_div_of_nonneg_right _ (by positivity)
      linarith
    linarith
  have hs0 := abs_nonneg s
  rw [e]
  have tri := abs_add_three (s2 - s1 * g) (g * (s1 - s * (9227469 / 8388608)))
    (s * (9227469 / 8388608 * g - 1))
  linarith

/-- A size recomputed from a scale that moved by at most `2^-22` relatively: the
rounded products differ by at most `2^-21` relatively, plus the subnormal
spacing scaled by the original size. -/
theorem round_trip_size_bound (w s s2 x0 x2 : ℚ)
    (hs : |s2 - s| ≤ 1 / 2 ^ 22 * |s| + 1 / 2 ^ 149)
    (h0 : |x0 - w * s| ≤ |w * s| / 2 ^ 24 + 1 / 2 ^ 150)
    (h2 : |x2 - w * s2| ≤ |w * s2| / 2 ^ 24 + 1 / 2 ^ 150) :
    |x2 - x0| ≤ 1 / 2 ^ 21 * |x0| + (|w| + 1) / 2 ^ 148 := by
  have hW := abs_nonneg w
  have hd : |w * s2 - w * s| ≤ 1 / 2 ^ 22 * |w * s| + |w| / 2 ^ 149 := by
    rw [← mul_sub, abs_mul, abs_mul]
    have := mul_le_mul_of_nonneg_left hs hW
    calc |w| * |s2 - s| ≤ |w| * (1 / 2 ^ 22 * |s| + 1 / 2 ^ 149) := this
      _ = _ := by ring
  have bP2 : |w * s2| ≤ |w * s| + (1 / 2 ^ 22 * |w * s| + |w| / 2 ^ 149) := by
    have := abs_sub_abs_le_abs_sub (w * s2) (w * s)
    linarith
  have bA : |w * s| ≤ |x0| + (|w * s| / 2 ^ 24 + 1 / 2 ^ 150) := by
    have := abs_sub_abs_le_abs_sub (w * s) x0
    rw [abs_sub_comm] at h0
    linarith
  have e : x2 - x0 = (x2 - w * s2) + (w * s2 - w * s) + (w * s - x0) := by ring
  have tri := abs_add_three (x2 - w * s2) (w * s2 - w * s) (w * s - x0)
  have h0' : |w * s - x0| ≤ |w * s| / 2 ^ 24 + 1 / 2 ^ 150 := by
    rw [abs_sub_comm]; exact h0
  have hA := abs_nonneg (w * s)
  have hX := abs_nonneg x0
  rw [e]
  linarith

theorem ofExact_of_isFinite (q : ℚ) (h : (F32.ofExact q).isFinite = true) :
    F32.ofExact q = F32.finite (F32.round q) ∧ |F32.round q| ≤ F32.FLT_MAX := by
  simp only [F32.ofExact] at h ⊢
  split_ifs at h ⊢ with h1 h2
  · simp [F32.isFinite] at h
  · simp [F32.isFinite] at h
  · exact ⟨rfl, abs_le.mpr ⟨not_lt.mp h2, not_lt.mp h1⟩⟩

/-- The two binary32 values of `1/1.1` lie in (0, 1) and their product with
`1.1f` is within `2^-24` of 1. -/
theorem inverse_factor_bounds (g : ℚ)
    (hg : g = F32.round (1 / (11 / 10)) ∨ g = F32.round (1 / F32.onePointOne)) :
    0 < g ∧ g < 1 ∧ |F32.onePointOne * g - 1| ≤ 1 / 2 ^ 24 := by
  rcases hg with rfl | rfl
  · rw [round_inv_eleven_tenths, F32.onePointOne]
    refine ⟨by norm_num, by norm_num, ?_⟩
    rw [abs_le]; constructor <;> norm_num
  · rw [round_inv_onePointOne, F32.onePointOne]
    refine ⟨by norm_num, by norm_num, ?_⟩
    rw [abs_le]; constructor <;> norm_num

/-- The round trip over binary32 values: the scale. -/
theorem rescale_round_trip_scale (s g : ℚ)
    (hg : g = F32.round (1 / (11 / 10)) ∨ g = F32.round (1 / F32.onePointOne))
    (h1 : (F32.mul (F32.finite s) (F32.finite F32.onePointOne)).isFinite = true) :
    ∃ s2, F32.mul (F32.mul (F32.finite s) (F32.finite F32.onePointOne)) (F32.finite g) =
        F32.finite s2 ∧
      |s2 - s| ≤ 1 / 2 ^ 22 * |s| + 1 / 2 ^ 149 := by
  obtain ⟨hg0, hg1, hcg⟩ := inverse_factor_bounds g hg
  have e0 : F32.mul (F32.finite s) (F32.finite F32.onePointOne) =
      F32.ofExact (s * F32.onePointOne) := rfl
  rw [e0] at h1 ⊢
  obtain ⟨e1, b1⟩ := ofExact_of_isFinite _ h1
  rw [e1]
  have e2 : F32.mul (F32.finite (F32.round (s * F32.onePointOne))) (F32.finite g) =
      F32.ofExact (F32.round (s * F32.onePointOne) * g) := rfl
  have b2 : |F32.round (s * F32.onePointOne) * g| ≤ F32.FLT_MAX := by
    rw [abs_mul, abs_of_pos hg0]
    have := mul_le_mul_of_nonneg_left hg1.le (abs_nonneg (F32.round (s * F32.onePointOne)))
    linarith
  rw [e2, ofExact_of_abs_le _ b2]
  exact ⟨_, rfl, round_trip_scale_bound s _ _ g hg0 hg1 hcg (round_err _) (round_err _)⟩

/-- The round trip over binary32 values: a size, recomputed from the scale. -/
theorem rescale_round_trip_size (a s s2 : ℚ)
    (hs : |s2 - s| ≤ 1 / 2 ^ 22 * |s| + 1 / 2 ^ 149)
    (h0 : (F32.mul (F32.finite a) (F32.finite s)).isFinite = true)
    (h2 : (F32.mul (F32.finite a) (F32.finite s2)).isFinite = true) :
    F32.Near (1 / 2 ^ 21) ((|a| + 1) / 2 ^ 148) (F32.mul (F32.finite a) (F32.finite s2))
      (F32.mul (F32.finite a) (F32.finite s)) := by
  have e0 : F32.mul (F32.finite a) (F32.finite s) = F32.ofExact (a * s) := rfl
  have e2 : F32.mul (F32.finite a) (F32.finite s2) = F32.ofExact (a * s2) := rfl
  rw [e0] at h0 ⊢
  rw [e2] at h2 ⊢
  exact ⟨_, _, (ofExact_of_isFinite _ h2).1, (ofExact_of_isFinite _ h0).1,
    round_trip_size_bound a s s2 _ _ hs (round_err _) (round_err _)⟩

/-- C15, as amended: rescaling by 1.1 and then by 1/1.1 restores scale and size
exactly in exact arithmetic, for every starting scale and original size (the
size being `originalSize * scale` before the two calls); over binary32 values
it restores them approximately provided no product overflows.  In binary32,
with the factors `1.1f` and the binary32 value of `1/1.1` (rounded from
`1/1.1` or from `1/1.1f`), from a finite scale `s`, finite original size
`a × b` and size `originalSize * scale`: if the scale after the first call and
the sizes before and after the two calls are finite, then the scale after the
two calls is finite and within `2^-22 * |s| + 2^-149` of `s`, and each size is
within `2^-21` of its value before, relatively, plus `(|a| + 1) * 2^-148`
(resp. `b`).  The rescale by 1.1 is what `handleEvent` does on the zoom-in
key, in both readings. -/
theorem rescale_round_trip_exact_and_binary32 (w : ClippingWindow) (z : ZoomF32)
    (s a b g : ℚ)
    (hinv : w.rectangle.size = ⟨w.originalSize.x * w.scale, w.originalSize.y * w.scale⟩)
    (hs : z.scale = F32.finite s) (ha : z.originalSizeX = F32.finite a)
    (hb : z.originalSizeY = F32.finite b)
    (hx : z.sizeX = F32.mul z.originalSizeX z.scale)
    (hy : z.sizeY = F32.mul z.originalSizeY z.scale)
    (hg : g = F32.round (1 / (11 / 10)) ∨ g = F32.round (1 / F32.onePointOne))
    (h1 : (z.rescale (F32.finite F32.onePointOne)).scale.isFinite = true)
    (hx0 : z.sizeX.isFinite = true) (hy0 : z.sizeY.isFinite = true)
    (hx2 : ((z.rescale (F32.finite F32.onePointOne)).rescale
      (F32.finite g)).sizeX.isFinite = true)
    (hy2 : ((z.rescale (F32.finite F32.onePointOne)).rescale
      (F32.finite g)).sizeY.isFinite = true) :
    ((w.rescale (11 / 10)).rescale (1 / (11 / 10)) = w ∧
      (∀ p, w.handleEvent (.KeyPressed .Equal) p = w.rescale (11 / 10))) ∧
    (F32.Near (1 / 2 ^ 22) (1 / 2 ^ 149)
        ((z.rescale (F32.finite F32.onePointOne)).rescale (F32.finite g)).scale z.scale ∧
      F32.Near (1 / 2 ^ 21) ((|a| + 1) / 2 ^ 148)
        ((z.rescale (F32.finite F32.onePointOne)).rescale (F32.finite g)).sizeX z.sizeX ∧
      F32.Near (1 / 2 ^ 21) ((|b| + 1) / 2 ^ 148)
        ((z.rescale (F32.finite F32.onePointOne)).rescale (F32.finite g)).sizeY z.sizeY ∧
      z.handleEvent (.KeyPressed .Equal) = z.rescale (F32.finite F32.onePointOne)) := by
  refine ⟨⟨(rescale_round_trip w hinv).1, (rescale_round_trip w hinv).2.2.2⟩, ?_⟩
  have r1 : (z.rescale (F32.finite F32.onePointOne)).scale =
      F32.mul (F32.finite s) (F32.finite F32.onePointOne) := by
    simp only [ZoomF32.rescale, hs]
  have r2 : ((z.rescale (F32.finite F32.onePointOne)).rescale (F32.finite g)).scale =
      F32.mul (F32.mul (F32.finite s) (F32.finite F32.onePointOne)) (F32.finite g) := by
    simp only [ZoomF32.rescale, hs]
  have r3 : ((z.rescale (F32.finite F32.onePointOne)).rescale (F32.finite g)).sizeX =
      F32.mul (F32.finite a)
        (F32.mul (F32.mul (F32.finite s) (F32.finite F32.onePointOne)) (F32.finite g)) := by
    simp only [ZoomF32.rescale, hs, ha]
  have r4 : ((z.rescale (F32.finite F32.onePointOne)).rescale (F32.finite g)).sizeY =
      F32.mul (F32.finite b)
        (F32.mul (F32.mul (F32.finite s) (F32.finite F32.onePointOne)) (F32.finite g)) := by
    simp only [ZoomF32.rescale, hs, hb]
  rw [r1] at h1
  obtain ⟨s2, e2, hb2⟩ := rescale_round_trip_scale s g hg h1
  rw [r3, e2] at hx2
  rw [r4, e2] at hy2
  rw [hx, ha, hs] at hx0
  rw [hy, hb, hs] at hy0
  refine ⟨?_, ?_, ?_, ?_⟩
  · rw [r2, e2, hs]
    exact ⟨s2, s, rfl, rfl, hb2⟩
  · rw [r3, e2, hx, ha, hs]
    exact rescale_round_trip_size a s s2 hb2 hx0 hx2
  · rw [r4, e2, hy, hb, hs]
    exact rescale_round_trip_size b s s2 hb2 hy0 hy2
  · simp [ZoomF32.handleEvent, ZoomF32.rescale]

/-- The value of a product of two finite `float` values whose exact product has
a known binade and nearest multiple of the spacing. -/
theorem mul_finite_eq_of (a b : ℚ) (e n : ℤ) (he : -126 ≤ e) (h1 : (2 : ℚ) ^ e ≤ |a * b|)
    (h2 : |a * b| < (2 : ℚ) ^ (e + 1)) (hn : |a * b / 2 ^ (e - 23) - n| < 1 / 2)
    (hm : |a * b| ≤ F32.FLT_MAX) :
    F32.mul (F32.finite a) (F32.finite b) = F32.finite (n * 2 ^ (e - 23)) := by
  have : F32.mul (F32.finite a) (F32.finite b) = F32.ofExact (a * b) := rfl
  rw [this, ofExact_of_abs_le _ hm, round_eq_of _ e n he h1 h2 hn]

theorem mul_one_onePointOne :
    F32.mul (F32.finite 1) (F32.finite F32.onePointOne) = F32.finite F32.onePointOne := by
  rw [mul_finite_eq_of 1 F32.onePointOne 0 9227469 (by norm_num)
    (by rw [F32.onePointOne]; norm_num [abs_of_pos])
    (by rw [F32.onePointOne]; norm_num [abs_of_pos])
    (by rw [F32.onePointOne]; norm_num)
    (by rw [F32.onePointOne, F32.FLT_MAX]; norm_num [abs_of_pos])]
  rw [F32.onePointOne]; norm_num

theorem mul_onePointOne_inverse :
    F32.mul (F32.finite F32.onePointOne) (F32.finite (F32.round (1 / (11 / 10)))) =
      F32.finite 1 := by
  rw [round_inv_eleven_tenths]
  rw [mul_finite_eq_of F32.onePointOne (15252015 / 16777216) 0 8388608 (by norm_num)
    (by rw [F32.onePointOne]; norm_num [abs_of_pos])
    (by rw [F32.onePointOne]; norm_num [abs_of_pos])
    (by rw [F32.onePointOne]; norm_num [abs_lt])
    (by rw [F32.onePointOne, F32.FLT_MAX]; norm_num [abs_of_pos])]
  norm_num

theorem mul_400_one : F32.mul (F32.finite 400) (F32.finite 1) = F32.finite 400 := by
  rw [mul_finite_eq_of 400 1 8 13107200 (by norm_num) (by norm_num [abs_of_pos])
    (by norm_num [abs_of_pos]) (by norm_num)
    (by rw [F32.FLT_MAX]; norm_num [abs_of_pos])]
  norm_num

theorem mul_300_one : F32.mul (F32.finite 300) (F32.finite 1) = F32.finite 300 := by
  rw [mul_finite_eq_of 300 1 8 9830400 (by norm_num) (by norm_num [abs_of_pos])
    (by norm_num [abs_of_pos]) (by norm_num)
    (by rw [F32.FLT_MAX]; norm_num [abs_of_pos])]
  norm_num

/-- The members of the window of `main` over binary32 values, rescaled by `1.1f`
and by the binary32 value of `1/1.1`: scale 1 and size 400 × 300 again. -/
theorem rescale_round_trip_main :
    ((ZoomF32.new (F32.finite 400) (F32.finite 300)).rescale
      (F32.finite F32.onePointOne)).scale = F32.finite F32.onePointOne ∧
    ((ZoomF32.new (F32.finite 400) (F32.finite 300)).rescale
      (F32.finite F32.onePointOne)).rescale (F32.finite (F32.round (1 / (11 / 10)))) =
      ZoomF32.new (F32.finite 400) (F32.finite 300) := by
  have e1 : ((ZoomF32.new (F32.finite 400) (F32.finite 300)).rescale
      (F32.finite F32.onePointOne)).scale = F32.finite F32.onePointOne := by
    simp only [ZoomF32.rescale, ZoomF32.new, mul_one_onePointOne]
  refine ⟨e1, ?_⟩
  simp only [ZoomF32.rescale, ZoomF32.new, mul_one_onePointOne, mul_onePointOne_inverse,
    mul_400_one, mul_300_one]

/-- The window of `main` (scale 1, size 400 × 300): the hypotheses hold there, and
the two rescales restore it in both readings. -/
theorem rescale_round_trip_exact_and_binary32_witness :
    (clipWindow.rescale (11 / 10)).rescale (1 / (11 / 10)) = clipWindow ∧
      F32.Near (1 / 2 ^ 22) (1 / 2 ^ 149)
        (((ZoomF32.new (F32.finite 400) (F32.finite 300)).rescale
          (F32.finite F32.onePointOne)).rescale
            (F32.finite (F32.round (1 / (11 / 10))))).scale
        (ZoomF32.new (F32.finite 400) (F32.finite 300)).scale ∧
      F32.Near (1 / 2 ^ 21) ((|400| + 1) / 2 ^ 148)
        (((ZoomF32.new (F32.finite 400) (F32.finite 300)).rescale
          (F32.finite F32.onePointOne)).rescale
            (F32.finite (F32.round (1 / (11 / 10))))).sizeX
        (ZoomF32.new (F32.finite 400) (F32.finite 300)).sizeX := by
  have hinv : clipWindow.rectangle.size =
      ⟨clipWindow.originalSize.x * clipWindow.scale,
        clipWindow.originalSize.y * clipWindow.scale⟩ := by
    norm_num [clipWindow, ClippingWindow.new]
  have hx : (ZoomF32.new (F32.finite 400) (F32.finite 300)).sizeX =
      F32.mul (ZoomF32.new (F32.finite 400) (F32.finite 300)).originalSizeX
        (ZoomF32.new (F32.finite 400) (F32.finite 300)).scale := mul_400_one.symm
  have hy : (ZoomF32.new (F32.finite 400) (F32.finite 300)).sizeY =
      F32.mul (ZoomF32.new (F32.finite 400) (F32.finite 300)).originalSizeY
        (ZoomF32.new (F32.finite 400) (F32.finite 300)).scale := mul_300_one.symm
  have h := rescale_round_trip_exact_and_binary32 clipWindow
    (ZoomF32.new (F32.finite 400) (F32.finite 300)) 1 400 300 (F32.round (1 / (11 / 10)))
    hinv rfl rfl rfl hx hy (Or.inl rfl)
    (by rw [rescale_round_trip_main.1]; rfl) rfl rfl
    (by rw [rescale_round_trip_main.2]; rfl) (by rw [rescale_round_trip_main.2]; rfl)
  exact ⟨h.1.1, h.2.1, h.2.2.1⟩

/-! ## The round trip at the upper end of the range -/

/-- The product `FLT_MAX * 1.1f` overflows. -/
theorem mul_FLT_MAX_onePointOne :
    F32.mul (F32.finite F32.FLT_MAX) (F32.finite F32.onePointOne) = F32.posInf := by
  have hm : (1 : ℚ) ≤ F32.FLT_MAX := by rw [F32.FLT_MAX]; norm_num
  rcases mul_onePointOne_lower F32.FLT_MAX hm with h | ⟨r, -, h1, h2⟩
  · exact h
  · exfalso
    have : F32.FLT_MAX < F32.FLT_MAX * (F32.onePointOne * (1 - 1 / 2 ^ 24)) := by
      rw [F32.FLT_MAX, F32.onePointOne]; norm_num
    linarith

/-- C15 as stated fails in floats at the upper end of the range: from the scale
`FLT_MAX` (original size 1 × 1, size `FLT_MAX` × `FLT_MAX`), rescaling by
`1.1f` overflows the scale to `+inf`, and rescaling by the binary32 value of
`1/1.1` leaves it there: scale and size are `+inf` after the two calls and
finite before them, so they are within no tolerance of each other. -/
theorem rescale_round_trip_overflows :
    ZoomF32.atMax.sizeX = F32.mul ZoomF32.atMax.originalSizeX ZoomF32.atMax.scale ∧
      ZoomF32.atMax.scale.isFinite = true ∧ ZoomF32.atMax.sizeX.isFinite = true ∧
      ((ZoomF32.atMax.rescale (F32.finite F32.onePointOne)).rescale
        (F32.finite (F32.round (1 / (11 / 10))))).scale = F32.posInf ∧
      ((ZoomF32.atMax.rescale (F32.finite F32.onePointOne)).rescale
        (F32.finite (F32.round (1 / (11 / 10))))).sizeX = F32.posInf ∧
      ¬ ∃ rel abs, F32.Near rel abs
        ((ZoomF32.atMax.rescale (F32.finite F32.onePointOne)).rescale
          (F32.finite (F32.round (1 / (11 / 10))))).scale ZoomF32.atMax.scale := by
  have hs : ((ZoomF32.atMax.rescale (F32.finite F32.onePointOne)).rescale
        (F32.finite (F32.round (1 / (11 / 10))))).scale = F32.posInf := by
    simp only [ZoomF32.rescale, ZoomF32.atMax, mul_FLT_MAX_onePointOne,
      round_inv_eleven_tenths]
    norm_num [F32.mul]
  have hx : ((ZoomF32.atMax.rescale (F32.finite F32.onePointOne)).rescale
        (F32.finite (F32.round (1 / (11 / 10))))).sizeX = F32.posInf := by
    have : ((ZoomF32.atMax.rescale (F32.finite F32.onePointOne)).rescale
        (F32.finite (F32.round (1 / (11 / 10))))).sizeX =
        F32.mul (F32.finite 1) ((ZoomF32.atMax.rescale (F32.finite F32.onePointOne)).rescale
        (F32.finite (F32.round (1 / (11 / 10))))).scale := rfl
    rw [this, hs]
    norm_num [F32.mul]
  refine ⟨?_, rfl, rfl, hs, hx, ?_⟩
  · have hmax : F32.round (1 * F32.FLT_MAX) = F32.FLT_MAX := by
      rw [round_eq_of (1 * F32.FLT_MAX) 127 (2 ^ 24 - 1) (by norm_num)
        (by rw [F32.FLT_MAX]; norm_num [abs_of_pos])
        (by rw [F32.FLT_MAX]; norm_num [abs_of_pos])
        (by rw [F32.FLT_MAX]; norm_num)]
      rw [F32.FLT_MAX]; norm_num
    have : F32.mul ZoomF32.atMax.originalSizeX ZoomF32.atMax.scale =
        F32.ofExact (1 * F32.FLT_MAX) := rfl
    rw [this, ofExact_of_abs_le _ (by rw [F32.FLT_MAX]; norm_num [abs_of_pos]), hmax]
    rfl
  · rintro ⟨rel, abs, x, y, h1, -, -⟩
    rw [hs] at h1
    exact F32.noConfusion h1

/-- After 930 zoom-ins the scale of the window of `main` is still finite; the
rescale by `1.1f` overflows it, and the rescale by the binary32 value of
`1/1.1` leaves it at `+inf`. -/
theorem zoom_in_930_then_round_trip :
    ((ZoomF32.new (F32.finite 400) (F32.finite 300)).run
        (List.replicate 930 (Call.handleEvent (.KeyPressed .Equal) ⟨0, 0⟩))).scale.isFinite =
        true ∧
      ((((ZoomF32.new (F32.finite 400) (F32.finite 300)).run
        (List.replicate 930 (Call.handleEvent (.KeyPressed .Equal) ⟨0, 0⟩))).rescale
          (F32.finite F32.onePointOne)).rescale
            (F32.finite (F32.round (1 / (11 / 10))))).scale = F32.posInf := by
  obtain ⟨q, h, hq, -⟩ := zoomIn_finite (F32.finite 400) (F32.finite 300) 930
    onePointOne_pow_930
  have hb : (1 : ℚ) ≤ F32.onePointOne * (1 - 1 / 2 ^ 24) := by
    rw [F32.onePointOne]; norm_num
  constructor
  · rw [h]; rfl
  · have e : ∀ z : ZoomF32, ((z.rescale (F32.finite F32.onePointOne)).rescale
        (F32.finite (F32.round (1 / (11 / 10))))).scale =
        F32.mul (F32.mul z.scale (F32.finite F32.onePointOne))
          (F32.finite (F32.round (1 / (11 / 10)))) := fun z => rfl
    rw [e, h]
    have hq1 : 1 ≤ q := le_trans (one_le_pow₀ hb) hq
    have hinf : F32.mul (F32.finite q) (F32.finite F32.onePointOne) = F32.posInf := by
      rcases mul_onePointOne_lower q hq1 with h1 | ⟨r, -, hr, hr2⟩
      · exact h1
      · exfalso
        have h931 : F32.FLT_MAX < (F32.onePointOne * (1 - 1 / 2 ^ 24)) ^ 930 *
            (F32.onePointOne * (1 - 1 / 2 ^ 24)) := by
          rw [F32.FLT_MAX, F32.onePointOne]; norm_num
        have := mul_le_mul_of_nonneg_right hq (le_trans zero_le_one hb)
        linarith
    rw [hinf, round_inv_eleven_tenths]
    norm_num [F32.mul]

end Lab1
